import Mathlib

/-!
# Verification of the FCApy concept-lattice core

This file gives a shallow embedding, in Lean 4, of the concept-construction
core of the FCApy repository (`fcapy/context/formal_context.py`,
`fcapy/lattice/formal_concept.py`, `fcapy/algorithms/concept_construction.py`)
and proves or refutes the specification claims about it.

Conventions of the embedding:
* Python `list` values become Lean `List`s; Python `frozenset` values
  (produced by the pydantic `FrozenSet` coercion in `formal_concept.py`)
  become `Finset`s.
* Python integers are embedded as `Nat` where the source only ever holds
  indices, and as `Int` where sign matters.
* Functions that can raise become `Except`-valued functions; the error type
  names the Python exception raised.
* `data[i][j]` style indexing is embedded with `List.getD` (default
  `false` / `[]`); every theorem that depends on indexing is stated for
  indices that are in range, which is the regime in which the Python code
  does not raise `IndexError`.
-/

set_option linter.unusedSectionVars false

namespace FCA

/-- Embedding of `fcapy.context.formal_context.FormalContext`: a binary
object × attribute relation `data` plus object and attribute names.
The Python `data` setter guarantees `data` is a non-empty list of equal
length boolean lists; `n_objects = len(data)` and
`n_attributes = len(data[0])`. -/
structure FormalContext where
  data : List (List Bool)
  object_names : List String
  attribute_names : List String
deriving DecidableEq, Repr

namespace FormalContext

/-- Python `FormalContext.n_objects` (`len(self._data)`). -/
def n_objects (ctx : FormalContext) : ℕ := ctx.data.length

/-- Python `FormalContext.n_attributes` (`len(self._data[0])`). -/
def n_attributes (ctx : FormalContext) : ℕ := (ctx.data.headD []).length

/-- Incidence lookup `self._data[g][m]`, with out-of-range reads defaulted
to `false` (the Python code is only ever called in range). -/
def incid (ctx : FormalContext) (g m : ℕ) : Bool :=
  (ctx.data.getD g []).getD m false

/-- Python `FormalContext.extension_i`: indexes of the maximal set of
objects sharing all attributes of `attribute_indexes`
(`[g_idx for g_idx, g_ms in enumerate(self._data) if all([g_ms[m] for m in attribute_indexes])]`). -/
def extension_i (ctx : FormalContext) (attribute_indexes : List ℕ) : List ℕ :=
  (List.range ctx.n_objects).filter
    (fun g_idx => attribute_indexes.all (fun m => ctx.incid g_idx m))

/-- Python `FormalContext.intention_i`: indexes of the maximal set of
attributes shared by all objects of `object_indexes`
(`[m_idx for m_idx in range(len(self._data[0])) if all([self._data[g_idx][m_idx] for g_idx in object_indexes])]`). -/
def intention_i (ctx : FormalContext) (object_indexes : List ℕ) : List ℕ :=
  (List.range ctx.n_attributes).filter
    (fun m_idx => object_indexes.all (fun g_idx => ctx.incid g_idx m_idx))

end FormalContext

/-! ## Python exceptions

The exceptions raised by the embedded code.  `unmatchedContext` and
`unmatchedMonotonicity` are the `UnmatchedContextError` /
`UnmatchedMonotonicityError` classes of `formal_concept.py`; the others
are builtin Python exception classes. -/

inductive PyError where
  | assertionError (msg : String)
  | notImplementedError (msg : String)
  | typeError (msg : String)
  | valueError (msg : String)
  | indexError (msg : String)
  | unmatchedContext
  | unmatchedMonotonicity
deriving DecidableEq, Repr

namespace FormalContext

/-- Python `FormalContext.__eq__` (lines 420-429): raises `ValueError` when
the contexts have different `object_names` or different `attribute_names`,
and otherwise returns `self.data == other.data`. -/
def pyEq (self other : FormalContext) : Except PyError Bool :=
  if self.object_names ≠ other.object_names then
    .error (.valueError
      "Two FormalContext objects can not be compared since they have different object_names")
  else if self.attribute_names ≠ other.attribute_names then
    .error (.valueError
      "Two FormalContext objects can not be compared since they have different attribute_names")
  else .ok (decide (self.data = other.data))

/-- Python `FormalContext.__ne__` (lines 431-440): same guards as `__eq__`,
returning `self.data != other.data`. -/
def pyNe (self other : FormalContext) : Except PyError Bool :=
  if self.object_names ≠ other.object_names then
    .error (.valueError
      "Two FormalContext objects can not be compared since they have different object_names")
  else if self.attribute_names ≠ other.attribute_names then
    .error (.valueError
      "Two FormalContext objects can not be compared since they have different attribute_names")
  else .ok (decide (self.data ≠ other.data))

end FormalContext

/-- Embedding of `fcapy.lattice.formal_concept.FormalConcept` (a frozen
pydantic dataclass).  The pydantic `FrozenSet[int]` / `FrozenSet[str]`
annotations coerce the lists passed by callers into frozensets, embedded
here as `Finset`s.  The `measures` dict is not carried: it stays the
default empty frozendict in every concept this development constructs or
compares, so it never distinguishes two compared concepts (it does
participate in the dataclass-generated field-tuple `__eq__`/`__hash__`,
see `pyEq`). -/
structure FormalConcept where
  extent_i : Finset ℕ
  extent : Finset String
  intent_i : Finset ℕ
  intent : Finset String
  context_hash : Option Int := none
  is_monotone : Bool := false
deriving DecidableEq

namespace FormalConcept

/-- Python `AbstractConcept.support` (`len(self.extent_i)`). -/
def support (c : FormalConcept) : ℕ := c.extent_i.card

/-- The `==` that actually runs on two `FormalConcept`s.  The
`@dataclass(frozen=True)` decorator on `FormalConcept` (line 112), whose
body defines no `__eq__` of its own, generates a field-tuple `__eq__`
(stdlib `dataclasses`, default `eq=True`) comparing
`(extent_i, extent, intent_i, intent, measures, context_hash,
is_monotone)`.  This generated method masks the hand-written
`AbstractConcept.__eq__` (lines 38-48, kept below as `pyEqAbstract`): it
always returns a boolean and never raises.  (Its `NotImplemented` branch
for a non-`FormalConcept` operand is never reached here: every
comparison the embedded code performs is between two concepts.) -/
def pyEq (self other : FormalConcept) : Except PyError Bool :=
  .ok (decide (self = other))

/-- Python `AbstractConcept.__eq__` (lines 38-48): raises
`UnmatchedContextError` on different context hashes and
`UnmatchedMonotonicityError` on different monotonicity flags before any
comparison; otherwise compares supports and extents.  On `FormalConcept`
instances this method is dead code: the dataclass-generated field-tuple
`__eq__` (`pyEq` above) masks it. -/
def pyEqAbstract (self other : FormalConcept) : Except PyError Bool :=
  if self.context_hash ≠ other.context_hash then .error .unmatchedContext
  else if self.is_monotone ≠ other.is_monotone then .error .unmatchedMonotonicity
  else if self.support ≠ other.support then .ok false
  else .ok (decide (self.extent_i = other.extent_i))

/-- Python `AbstractConcept.__le__` (lines 53-69): the two guards, then
extent-subset comparison via `lesser.extent_i & greater.extent_i ==
lesser.extent_i`, with the roles of the two concepts swapped when the
concepts are monotone.  Unlike `__eq__`, this method stays active on
`FormalConcept`: `@dataclass` generates ordering methods only with
`order=True`, which is not set, so the inherited `__le__` is not
masked. -/
def pyLe (self other : FormalConcept) : Except PyError Bool :=
  if self.context_hash ≠ other.context_hash then .error .unmatchedContext
  else if self.is_monotone ≠ other.is_monotone then .error .unmatchedMonotonicity
  else
    let p := if !self.is_monotone then (self, other) else (other, self)
    if p.1.support > p.2.support then .ok false
    else .ok (decide (p.1.extent_i ∩ p.2.extent_i = p.1.extent_i))

end FormalConcept

/-! ## Context kinds and runtime type checks

`close_by_one` and `lindig_algorithm` accept either a binary
`FormalContext` or a many-valued `MVContext` (whose module is outside the
embedded sources) and dispatch on `type(context)`. -/

/-- The runtime class of the `context` argument. -/
inductive PyContextKind where
  | formalContext
  | mvContext
deriving DecidableEq, Repr

/-- Line 61 of `concept_construction.py`:
`iterate_extents = context.n_objects < context.n_attributes if type(context) == FormalConcept else True`.
The conditional's test compares the type of the context argument with the
class `FormalConcept` — a concept class, never the class of a context
object — so it is false for every argument and the else branch is taken. -/
def type_eq_FormalConcept (_kind : PyContextKind) : Bool := false

/-- The default value of `iterate_extents` computed on line 61 of
`close_by_one` when the caller passes `iterate_extents=None`. -/
def default_iterate_extents (kind : PyContextKind) (n_objects n_attributes : ℕ) : Bool :=
  if type_eq_FormalConcept kind then decide (n_objects < n_attributes) else true

/-- A concrete context with 2 objects and 1 attribute, so
`n_objects < n_attributes` is false. -/
def ctx21 : FormalContext :=
  { data := [[true], [false]]
    object_names := ["g0", "g1"]
    attribute_names := ["m0"] }

/-- The runtime type checks at the top of `close_by_one`
(lines 47-58): `iterate_extents=False` asserts the context is a
`FormalContext`, and `initial_combinations` / `iter_elements_to_check`
assert `iterate_extents` was specified.  All three run before the
enumeration loop starts, so the failures occur before any concept is
produced. -/
def close_by_one_checks (kind : PyContextKind) (iterate_extents : Option Bool)
    (initial_combinations : Option (List (List ℕ)))
    (iter_elements_to_check : Option (List ℕ)) : Except PyError Unit :=
  if iterate_extents = some false ∧ kind ≠ .formalContext then
    .error (.assertionError "Can set iterate_extents=False only if FormalContext is given")
  else if initial_combinations.isSome ∧ iterate_extents = none then
    .error (.assertionError
      "`iterate_extents parameter should be specified if initial_combinations are given")
  else if iter_elements_to_check.isSome ∧ iterate_extents = none then
    .error (.assertionError
      "`iterate_extents parameter should be specified if iter_elements_to_check are given")
  else .ok ()

/-- The runtime type check at the top of `lindig_algorithm`
(lines 416-417): a many-valued context raises `NotImplementedError`
before anything else happens. -/
def lindig_type_check (kind : PyContextKind) : Except PyError Unit :=
  if kind = .mvContext then
    .error (.notImplementedError
      "Sorry. Lindig algorithm is not yet implemented for ManyValued context")
  else .ok ()

/-- A concrete 2×2 context (objects 0,1 × attributes 0,1) used for
witnesses: object 0 has both attributes, object 1 only attribute 1. -/
def ctxW : FormalContext :=
  { data := [[true, true], [false, true]]
    object_names := ["g0", "g1"]
    attribute_names := ["m0", "m1"] }

/-! ## Close-by-One (`close_by_one`, lines 17-129)

The worklist loop of lines 74-99, embedded with explicit fuel.  The fuel
used by the wrappers below is an upper bound on the number of loop
iterations (proved by `cboMeasure_decreases`), so the fuel-exhaustion
branch is never taken. -/

/-- Python `sorted(set(a) - set(b))` (line 82).  Python builds the set of
`a`, removes the elements of `b` and sorts the result ascending. -/
def pySortedSetDiff (a b : List ℕ) : List ℕ :=
  ((a.filter (fun x => !b.contains x)).dedup).insertionSort (· ≤ ·)

/-- Termination measure of one work-list entry: `elems.length + 1` for the
empty combination, else the number of `elems` entries greater than the
combination's last element.  Every combination pushed by the loop has a
strictly smaller measure than the combination that produced it. -/
def combMu (elems : List ℕ) (comb : List ℕ) : ℕ :=
  match comb.getLast? with
  | none => elems.length + 1
  | some l => elems.countP (fun x => decide (l < x))

/-- Termination measure of the whole work list. -/
def cboMeasure (elems : List ℕ) (W : List (List ℕ)) : ℕ :=
  (W.map (fun c => (elems.length + 2) ^ combMu elems c)).sum

/-- The `while combinations_to_check` loop of `close_by_one`
(lines 78-99).  `f` is `sideset_fnc`, `g` is `iterset_fnc`, `elems` is
`iter_elements_to_check`; `acc` collects the recorded
`(iterset_i, sideset_i)` pairs in insertion order (the dict of line 74
keyed by `iterset_i` together with the `sidesets_i` list of line 75; the
reconstruction on line 101 returns the keys in insertion order). -/
def cboLoop (f g : List ℕ → List ℕ) (elems : List ℕ) :
    ℕ → List (List ℕ) → List (List ℕ × List ℕ) → List (List ℕ × List ℕ)
  | _, [], acc => acc
  | 0, _ :: _, acc => acc
  | fuel + 1, comb :: rest, acc =>
    let sideset := f comb
    let iterset := g sideset
    let itersetNew := pySortedSetDiff iterset comb
    let isNotLex : Bool :=
      match comb.getLast? with
      | none => false
      | some l => itersetNew.any (fun x => decide (x < l))
    let isDuplicate : Bool := acc.any (fun p => decide (p.1 = iterset))
    if isNotLex || isDuplicate then
      cboLoop f g elems fuel rest acc
    else
      let newCombs := (elems.filter (fun gi =>
          !iterset.contains gi &&
          (match comb.getLast? with
           | none => true
           | some l => decide (l < gi)))).map (fun gi => iterset ++ [gi])
      cboLoop f g elems fuel (newCombs ++ rest) (acc ++ [(iterset, sideset)])

/-- Modelled from the spec: the `content_hash()` of §6 (`hash_fixed` in
the source, whose module content is not among the embedded files).  The
spec only requires a stable value identifying the relation's data; no
claim depends on the value itself. -/
def FormalContext.hash_fixed (ctx : FormalContext) : Int :=
  Int.ofNat
    ((ctx.data.map (fun row =>
        row.foldl (fun a b => 2 * a + (if b then 1 else 0)) 1)).foldl
      (fun a k => a * (2 ^ 24) + k) (ctx.object_names.length + 1))

/-- Python `close_by_one(context, output_as_concepts=False, iterate_extents=...)`
on a `FormalContext` with default `initial_combinations` (`[[]]`) and
default `iter_elements_to_check` (`range(n_iters)`), returning the
`(extents_i, intents_i)` data (lines 60-105, 128-129).  For
`iterate_extents=True`: `iterset_fnc, sideset_fnc = extension_i,
intention_i` (line 68); for `False` the two are swapped (line 70), and
`extents_i, intents_i` are swapped back at the end (lines 103-105). -/
def close_by_one_data (ctx : FormalContext) (iterate_extents : Bool) :
    List (List ℕ) × List (List ℕ) :=
  let n_iters := if iterate_extents then ctx.n_objects else ctx.n_attributes
  let iterset_fnc := if iterate_extents then ctx.extension_i else ctx.intention_i
  let sideset_fnc := if iterate_extents then ctx.intention_i else ctx.extension_i
  let elems := List.range n_iters
  let recorded := cboLoop sideset_fnc iterset_fnc elems (cboMeasure elems [[]]) [[]] []
  let itersets_i := recorded.map Prod.fst
  let sidesets_i := recorded.map Prod.snd
  if iterate_extents then (itersets_i, sidesets_i) else (sidesets_i, itersets_i)

/-- Python `close_by_one(context, output_as_concepts=True, ...)` on a
`FormalContext` (lines 107-126): each `(extent_i, intent_i)` pair is
materialized as a `FormalConcept` whose pydantic fields coerce the lists
to frozensets. -/
def close_by_one_concepts (ctx : FormalContext) (iterate_extents : Bool) :
    List FormalConcept :=
  let d := close_by_one_data ctx iterate_extents
  (d.1.zip d.2).map (fun p =>
    { extent_i := p.1.toFinset
      extent := (p.1.map (fun g_i => ctx.object_names.getD g_i "")).toFinset
      intent_i := p.2.toFinset
      intent := (p.2.map (fun m_i => ctx.attribute_names.getD m_i "")).toFinset
      context_hash := some ctx.hash_fixed })

/-- The recorded pair list of the `iterate_extents=True` run. -/
def cboRecordedTrue (ctx : FormalContext) : List (List ℕ × List ℕ) :=
  cboLoop ctx.intention_i ctx.extension_i (List.range ctx.n_objects)
    (cboMeasure (List.range ctx.n_objects) [[]]) [[]] []

/-- The recorded pair list of the `iterate_extents=False` run. -/
def cboRecordedFalse (ctx : FormalContext) : List (List ℕ × List ℕ) :=
  cboLoop ctx.extension_i ctx.intention_i (List.range ctx.n_attributes)
    (cboMeasure (List.range ctx.n_attributes) [[]]) [[]] []

/-! ## SOFIA (`sofia_binary`, lines 132-274)

Only `sofia_binary` itself is among the embedded sources; the
`ConceptLattice` class, `lattice_construction.complete_comparison`, the
measure functions and `FormalContext.__getitem__` are not, and are
modelled from the spec where needed (doc comments note each case). -/

/-- The rank-`(L_max+1)` measure threshold of the eviction step:
`metrics_lim = sorted(metrics)[-L_max-1]` (line 264).  The Python
negative index `-L_max-1` addresses position `len(metrics) - L_max - 1`
of the ascending sort (in range because eviction only runs when
`len(metrics) > L_max`).  Measure values are Python floats; they are
embedded as integers, which preserves every order comparison the step
performs. -/
def sofia_metrics_lim (metrics : List ℤ) (L_max : ℕ) : ℤ :=
  ((metrics.insertionSort (· ≤ ·))).getD (metrics.length - (L_max + 1)) 0

/-- The eviction list of `sofia_binary` (lines 265-267):
`[i for i in range(len(concepts)) if metrics[i] <= metrics_lim][::-1]`
filtered by `i not in [top_concept_i, bottom_concept_i]`.  The reversal
makes the subsequent index-based `remove_concept` calls (a
`ConceptLattice` method outside the embedded sources, modelled from the
spec as deletion at a position) delete exactly these original
positions. -/
def sofia_concepts_to_remove (metrics : List ℤ) (L_max top_i bottom_i : ℕ) : List ℕ :=
  (((List.range metrics.length).filter
      (fun i => decide (metrics.getD i 0 ≤ sofia_metrics_lim metrics L_max))).reverse).filter
    (fun i => !(i == top_i || i == bottom_i))

/-- The lattice positions that survive the eviction step. -/
def sofia_kept (metrics : List ℤ) (L_max top_i bottom_i : ℕ) : List ℕ :=
  (List.range metrics.length).filter
    (fun i => decide (i ∉ sofia_concepts_to_remove metrics L_max top_i bottom_i))

/-! ## The incremental `close_by_one` call made by `sofia_binary`

`sofia_binary` (line 225) passes the current concepts' `intent_i` values
as `initial_combinations`.  Since `FormalConcept` is a pydantic dataclass
with a `FrozenSet[int]` annotation, these values are frozensets, while
the combinations `close_by_one` itself builds are lists.  The embedding
below keeps this distinction, because `comb_i[-1]` (lines 84 and 97)
raises `TypeError` on a frozenset. -/

/-- Python `int(math.log2(n))`, embedded structurally (exact floor of the
base-2 logarithm for every positive argument arising in the theorems
below; the float rounding of `math.log2` is not modelled). -/
def floorLog2Aux : ℕ → ℕ → ℕ
  | 0, _ => 0
  | fuel + 1, n => if n ≤ 1 then 0 else 1 + floorLog2Aux fuel (n / 2)

/-- Python `int(math.log2(n))` (line 203). -/
def floorLog2 (n : ℕ) : ℕ := floorLog2Aux n n

/-- The ascending element list of a `Finset ℕ`, defined by insertion sort
on the underlying multiset (structurally recursive, unlike
`Finset.sort`, so that concrete runs reduce in the kernel). -/
def finsetSortedList (s : Finset ℕ) : List ℕ :=
  Quot.liftOn s.val (fun l => l.insertionSort (· ≤ ·)) (fun l₁ l₂ h =>
    List.eq_of_perm_of_sorted
      ((List.perm_insertionSort _ l₁).trans (h.trans (List.perm_insertionSort _ l₂).symm))
      (List.sorted_insertionSort _ l₁) (List.sorted_insertionSort _ l₂))

/-- A dynamically-typed combination on `close_by_one`'s work list: a
Python list, or a frozenset (as passed by `sofia_binary`). -/
inductive PyComb where
  | lst (l : List ℕ)
  | frozen (s : Finset ℕ)
deriving DecidableEq

/-- The elements of a combination, as iterated by `set(...)`,
`len(...)` and the `in` operator (all order-insensitive). -/
def PyComb.elems : PyComb → List ℕ
  | .lst l => l
  | .frozen s => finsetSortedList s

/-- Python `comb_i[-1]`: the last element for a non-empty list;
an `IndexError` for an empty list; a `TypeError` for a frozenset, which
does not support subscripting. -/
def PyComb.lastItem : PyComb → Except PyError ℕ
  | .lst l =>
    match l.getLast? with
    | some x => .ok x
    | none => .error (.indexError "list index out of range")
  | .frozen _ => .error (.typeError "'frozenset' object is not subscriptable")

/-- The branching step of `close_by_one` (lines 94-98): for each
`g_i` in `iter_elements_to_check`, test `g_i not in iterset_i and
(len(comb_i) == 0 or g_i > comb_i[-1])`; Python's `and`/`or`
short-circuiting means `comb_i[-1]` is only evaluated when
`g_i ∉ iterset_i` and the combination is non-empty. -/
def cboChildrenDyn (comb : PyComb) (iterset : List ℕ) (elems : List ℕ) :
    Except PyError (List PyComb) :=
  elems.foldlM (fun acc gi =>
    if !iterset.contains gi then
      if comb.elems.length = 0 then pure (acc ++ [PyComb.lst (iterset ++ [gi])])
      else do
        let last ← comb.lastItem
        if last < gi then pure (acc ++ [PyComb.lst (iterset ++ [gi])]) else pure acc
    else pure acc) []

/-- The `close_by_one` work-list loop (lines 78-99) with dynamically-typed
combinations, propagating the Python exceptions raised by `comb_i[-1]`.
On line 84, `any([g_i < comb_i[-1] for g_i in iterset_i_new])` evaluates
`comb_i[-1]` once per element of `iterset_i_new`, and not at all when
that list is empty or when `len(comb_i) > 0` already failed. -/
def cboLoopDyn (f g : List ℕ → List ℕ) (elems : List ℕ) :
    ℕ → List PyComb → List (List ℕ × List ℕ) →
      Except PyError (List (List ℕ × List ℕ))
  | _, [], acc => .ok acc
  | 0, _ :: _, acc => .ok acc
  | fuel + 1, comb :: rest, acc => do
    let sideset := f comb.elems
    let iterset := g sideset
    let itersetNew := pySortedSetDiff iterset comb.elems
    let isNotLex ←
      if comb.elems.length = 0 then pure false
      else if itersetNew.isEmpty then pure false
      else do
        let last ← comb.lastItem
        pure (itersetNew.any (fun x => decide (x < last)))
    let isDuplicate := acc.any (fun p => decide (p.1 = iterset))
    if isNotLex || isDuplicate then
      cboLoopDyn f g elems fuel rest acc
    else do
      let newCombs ← cboChildrenDyn comb iterset elems
      cboLoopDyn f g elems fuel (newCombs ++ rest) (acc ++ [(iterset, sideset)])

/-- Modelled from the spec: the projection `context[:, cols]` used by
`sofia_binary` (§3 "projection", §6 `project(index_subset, axis)`).
`FormalContext.__getitem__` is not among the embedded sources.  The
projection keeps every object and restricts the data to the given
attribute columns. -/
def FormalContext.projectAttrs (ctx : FormalContext) (cols : List ℕ) : FormalContext :=
  { data := ctx.data.map (fun row => cols.map (fun j => row.getD j false))
    object_names := ctx.object_names
    attribute_names := cols.map (fun j => ctx.attribute_names.getD j "") }

/-- The opening of `sofia_binary` (lines 162-227) on a `FormalContext`
with the default `iterate_attributes=True`, `projection_sorting=None`,
`measure='LStab'` and `proj_to_start=None`, run up to and including the
`close_by_one` call of the first projection iteration, whose outcome is
returned.  `projections_order = range(n_attributes)`,
`proj_to_start = int(log2(L_max))`, the initial lattice concepts are the
full `close_by_one` output on the first projection
(`ConceptLattice(concepts, ...)` — outside the embedded sources — is
modelled from the spec as storing that concept list), and the first loop
iteration calls `close_by_one` with `iterate_extents=False`,
`initial_combinations = [c.intent_i for c in lattice.concepts]` (pydantic
frozensets) and `iter_elements_to_check = [projection_num - 1]`.
`int(math.log2(L_max))` is embedded as `Nat.log 2 L_max`, exact for the
power-of-two value used in the theorem below. -/
def sofia_binary_first_projection (ctx : FormalContext) (L_max : ℕ) :
    Except PyError (List (List ℕ × List ℕ)) :=
  let max_projection := ctx.n_attributes
  let projections_order := List.range max_projection
  let proj_to_start := floorLog2 L_max
  let ctx_projected := ctx.projectAttrs (projections_order.take proj_to_start)
  let concepts := close_by_one_concepts ctx_projected false
  let itersets : List PyComb := concepts.map (fun c => PyComb.frozen c.intent_i)
  if max_projection < proj_to_start + 1 then .ok []
  else
    let projection_num := proj_to_start + 1
    let ctx2 := ctx.projectAttrs (projections_order.take projection_num)
    cboLoopDyn ctx2.extension_i ctx2.intention_i [projection_num - 1] 1000 itersets []

/-- A context with one object carrying both of two attributes: the
smallest context on which `sofia_binary`'s projection loop runs (with
`L_max = 2 ≥` its total concept count, 2). -/
def ctx12 : FormalContext :=
  { data := [[true, true]]
    object_names := ["g0"]
    attribute_names := ["m0", "m1"] }

/-! ## Canonical generating chains of a closure operator

To prove that the Close-by-One loop enumerates every closed set exactly
once (claim C1), we develop the canonical chain of a closed set `D`:
starting from `cl ∅`, repeatedly close the union with the least missing
element of `D`.  The loop's canonicity test accepts precisely the
combinations that follow these chains. -/

/-- The abstract properties of the closure operator `cl = iterset_fnc ∘
sideset_fnc` acting on subsets of `range n` that the enumeration proofs
use. -/
structure ClosureOp (n : ℕ) (cl : Finset ℕ → Finset ℕ) : Prop where
  mono : ∀ {s t : Finset ℕ}, s ⊆ t → cl s ⊆ cl t
  extensive : ∀ {s : Finset ℕ}, s ⊆ Finset.range n → s ⊆ cl s
  idem : ∀ {s : Finset ℕ}, s ⊆ Finset.range n → cl (cl s) = cl s
  subset_range : ∀ s, cl s ⊆ Finset.range n

/-- One step of the canonical chain towards `D`: close the union of the
current closed set with the least element of `D` not yet present. -/
def chainNext (cl : Finset ℕ → Finset ℕ) (D C : Finset ℕ) : Finset ℕ :=
  if h : (D \ C).Nonempty then cl (insert ((D \ C).min' h) C) else C

/-- The canonical chain of `D`: `chainSet cl D 0 = cl ∅` and each
subsequent entry closes in the least missing element of `D`. -/
def chainSet (cl : Finset ℕ → Finset ℕ) (D : Finset ℕ) : ℕ → Finset ℕ
  | 0 => cl ∅
  | i + 1 => chainNext cl D (chainSet cl D i)

/-- The generator introduced by step `i` of the canonical chain of `D`
(meaningful when `D \ chainSet cl D i` is non-empty). -/
def chainGen (cl : Finset ℕ → Finset ℕ) (D : Finset ℕ) (i : ℕ) : ℕ :=
  if h : (D \ chainSet cl D i).Nonempty then (D \ chainSet cl D i).min' h else 0

/-! ## The Close-by-One enumeration theorem

`cboLoop f g elems` is run with `f = sideset_fnc`, `g = iterset_fnc` and
`elems = range n_iters`.  `CboSpec` collects the properties of such a
pair that the proofs use; everything below is developed for an abstract
pair satisfying it and instantiated for both iteration directions. -/

/-- The properties of the `(sideset_fnc, iterset_fnc)` pair used by
`close_by_one` on a `FormalContext` (in either direction). -/
structure CboSpec (n : ℕ) (f g : List ℕ → List ℕ) : Prop where
  f_set : ∀ {l₁ l₂ : List ℕ}, (∀ x, x ∈ l₁ ↔ x ∈ l₂) → f l₁ = f l₂
  g_sorted : ∀ l, (g l).Sorted (· < ·)
  g_range : ∀ l, ∀ x ∈ g l, x < n
  gf_extensive : ∀ l, (∀ x ∈ l, x < n) → ∀ x ∈ l, x ∈ g (f l)
  gf_mono : ∀ l₁ l₂, (∀ x ∈ l₁, x ∈ l₂) → ∀ x ∈ g (f l₁), x ∈ g (f l₂)
  fgf : ∀ l, (∀ x ∈ l, x < n) → f (g (f l)) = f l

/-- The Finset-level closure operator induced by a `(f, g)` pair. -/
def clF (f g : List ℕ → List ℕ) : Finset ℕ → Finset ℕ :=
  fun s => (g (f (finsetSortedList s))).toFinset

/-- The canonical list form of a closed set: the `g`-output whose set it
is. -/
def clL (f g : List ℕ → List ℕ) (s : Finset ℕ) : List ℕ :=
  g (f (finsetSortedList s))

/-- The recorded iterset lists of a Close-by-One accumulator (the keys of
`itersets_i_dict`, in insertion order). -/
def cboKeys (acc : List (List ℕ × List ℕ)) : List (List ℕ) := acc.map Prod.fst

/-- A set already recorded, up to the set of its elements. -/
def InKeySets (acc : List (List ℕ × List ℕ)) (s : Finset ℕ) : Prop :=
  ∃ A ∈ cboKeys acc, A.toFinset = s

/-- Invariants of the accumulator: every pair is `(g-closure, f-image)`,
the keys are duplicate-free, and every recorded set other than `cl ∅` has
its canonical-chain predecessor recorded as well. -/
def GoodAcc (f g : List ℕ → List ℕ) (acc : List (List ℕ × List ℕ)) : Prop :=
  (∀ p ∈ acc, p.2 = f p.1 ∧ p.1 = g p.2) ∧
  (cboKeys acc).Nodup ∧
  (∀ A ∈ cboKeys acc, A.toFinset = clF f g ∅ ∨
    ∃ P ∈ cboKeys acc, ∃ i, chainSet (clF f g) A.toFinset i = P.toFinset ∧
      chainSet (clF f g) A.toFinset (i + 1) = A.toFinset ∧ P.toFinset ≠ A.toFinset)

/-- Invariant of a work-list combination: the empty seed, or a recorded
key extended by one in-range element larger than every generator of the
key's canonical chain. -/
def GoodComb (n : ℕ) (f g : List ℕ → List ℕ) (acc : List (List ℕ × List ℕ))
    (comb : List ℕ) : Prop :=
  comb = [] ∨ ∃ C gi, comb = C ++ [gi] ∧ C ∈ cboKeys acc ∧ gi < n ∧ gi ∉ C ∧
    (∀ i, chainSet (clF f g) C.toFinset i ≠ C.toFinset →
      chainGen (clF f g) C.toFinset i < gi)

/-- The completeness witness for a closed set `D` not yet recorded: the
canonical combination of the first chain step of `D` past the recorded
sets is still on the work list. -/
def KWitness (f g : List ℕ → List ℕ) (W : List (List ℕ))
    (acc : List (List ℕ × List ℕ)) (D : Finset ℕ) : Prop :=
  ([] ∈ W ∧ ¬InKeySets acc (clF f g ∅)) ∨
  ∃ i, (D \ chainSet (clF f g) D i).Nonempty ∧
    (clL f g (chainSet (clF f g) D i) ++ [chainGen (clF f g) D i]) ∈ W ∧
    ¬InKeySets acc (chainSet (clF f g) D (i + 1))

/-- `F` is an upper neighbour of `E` in the lattice of `cl`-closed
subsets of `range n`: a minimal closed set strictly containing `E`. -/
def IsCover (cl : Finset ℕ → Finset ℕ) (n : ℕ) (E F : Finset ℕ) : Prop :=
  F ⊆ Finset.range n ∧ cl F = F ∧ E ⊂ F ∧
    ∀ F', F' ⊆ Finset.range n → cl F' = F' → E ⊂ F' → F' ⊆ F → F' = F

/-- The `for g in set(reps)` loop of `direct_super_elements`
(lines 441-451): close `extent ∪ {g}` (the mutation
`extent.add(g); M = intention_i(list(extent)); G = extension_i(M);
extent.remove(g)`), accept the `(G, M)` pair when
`len(reps & set(G)) == 1`, otherwise remove `g` from `reps`. -/
def lindigDSEAux (f g : List ℕ → List ℕ) (E : Finset ℕ) :
    List ℕ → Finset ℕ → List (List ℕ × List ℕ) → List (List ℕ × List ℕ)
  | [], _, acc => acc
  | gi :: rest, reps, acc =>
    let M := f (finsetSortedList (insert gi E))
    let G := g M
    if (reps ∩ G.toFinset).card = 1 then
      lindigDSEAux f g E rest reps (acc ++ [(G, M)])
    else
      lindigDSEAux f g E rest (reps.erase gi) acc

/-- Python `direct_super_elements(concept)` (lines 437-452), returning
the accepted `(G, M)` pairs; `order` enumerates the initial
`reps = set(range(n_objects)) - extent` in the (unspecified) Python set
iteration order. -/
def lindigDSE (f g : List ℕ → List ℕ) (n : ℕ) (E : Finset ℕ) (order : List ℕ) :
    List (List ℕ × List ℕ) :=
  lindigDSEAux f g E order (Finset.range n \ E) []

/-- The `for x in dsups` loop (lines 475-483) restricted to its effect
on `queue` and `concepts`: a neighbour is appended to both iff no
already known concept has the same extent set (the `x not in index`
test; `FormalConcept.__hash__` and `__eq__` compare `extent_i`). -/
def lindigProcess :
    List (List ℕ × List ℕ) → List (List ℕ × List ℕ) → List (List ℕ × List ℕ) →
      List (List ℕ × List ℕ) × List (List ℕ × List ℕ)
  | [], queue, concepts => (queue, concepts)
  | x :: rest, queue, concepts =>
    if concepts.any (fun p => decide (p.1.toFinset = x.1.toFinset)) then
      lindigProcess rest queue concepts
    else
      lindigProcess rest (queue ++ [x]) (concepts ++ [x])

/-- The `while len(queue) != 0` loop (lines 467-483) on its
`(queue, concepts)` state.  `pick` chooses which element `queue.pop()`
returns (Python set order is unspecified); the chosen index is reduced
modulo the queue length.  The Python loop is unbounded; the fuel is
budgeted by the caller and provably suffices. -/
def lindigLoop (f g : List ℕ → List ℕ) (n : ℕ) (ord : Finset ℕ → List ℕ)
    (pick : List (List ℕ × List ℕ) → ℕ) :
    ℕ → List (List ℕ × List ℕ) → List (List ℕ × List ℕ) → List (List ℕ × List ℕ)
  | _, [], concepts => concepts
  | 0, _ :: _, concepts => concepts
  | fuel + 1, q :: qs, concepts =>
    let queue := q :: qs
    let i := pick queue % queue.length
    let c := queue.getD i ([], [])
    let dsups := lindigDSE f g n c.1.toFinset (ord (Finset.range n \ c.1.toFinset))
    let st := lindigProcess dsups (queue.eraseIdx i) concepts
    lindigLoop f g n ord pick fuel st.1 st.2

/-- The number of closed subsets of `range n` (used only to budget the
fuel of the loop embedding). -/
def lindigNall (f g : List ℕ → List ℕ) (n : ℕ) : ℕ :=
  ((Finset.range n).powerset.filter (fun s => clF f g s = s)).card

/-- Python `lindig_algorithm(context, iterate_extents)` on a
`FormalContext` (lines 398-494), restricted to the
`(extent_i, intent_i)` data of the concepts it constructs, in discovery
order.  For `iterate_extents=False` the roles of objects and attributes
are swapped on entry (lines 430-433) and every concept is flipped back
at the end (lines 486-490).  The start concept is `(extension_i(M), M)`
for `M` the list of all attribute indexes (lines 454-461). -/
def lindig_data (ctx : FormalContext) (iterate_extents : Bool)
    (ord : Finset ℕ → List ℕ) (pick : List (List ℕ × List ℕ) → ℕ) :
    List (List ℕ × List ℕ) :=
  let n := if iterate_extents then ctx.n_objects else ctx.n_attributes
  let nS := if iterate_extents then ctx.n_attributes else ctx.n_objects
  let f := if iterate_extents then ctx.intention_i else ctx.extension_i
  let g := if iterate_extents then ctx.extension_i else ctx.intention_i
  let M := List.range nS
  let G := g M
  let concepts := lindigLoop f g n ord pick (2 * 2 ^ n + 1) [(G, M)] [(G, M)]
  if iterate_extents then concepts else concepts.map (fun p => (p.2, p.1))

namespace FormalContext

theorem mem_extension_i {ctx : FormalContext} {B : List ℕ} {g : ℕ} :
    g ∈ ctx.extension_i B ↔ g < ctx.n_objects ∧ ∀ m ∈ B, ctx.incid g m := by
  simp [extension_i, List.mem_filter, List.all_eq_true]

theorem mem_intention_i {ctx : FormalContext} {A : List ℕ} {m : ℕ} :
    m ∈ ctx.intention_i A ↔ m < ctx.n_attributes ∧ ∀ g ∈ A, ctx.incid g m := by
  simp [intention_i, List.mem_filter, List.all_eq_true]

/-- `extension_i` only depends on the set of attribute indexes. -/
theorem extension_i_set_congr {ctx : FormalContext} {B B' : List ℕ}
    (h : ∀ m, m ∈ B ↔ m ∈ B') : ctx.extension_i B = ctx.extension_i B' := by
  unfold extension_i
  apply List.filter_congr
  intro g _
  rw [Bool.eq_iff_iff]
  simp only [List.all_eq_true]
  constructor <;> intro hall m hm
  · exact hall m ((h m).mpr hm)
  · exact hall m ((h m).mp hm)

/-- `intention_i` only depends on the set of object indexes. -/
theorem intention_i_set_congr {ctx : FormalContext} {A A' : List ℕ}
    (h : ∀ g, g ∈ A ↔ g ∈ A') : ctx.intention_i A = ctx.intention_i A' := by
  unfold intention_i
  apply List.filter_congr
  intro m _
  rw [Bool.eq_iff_iff]
  simp only [List.all_eq_true]
  constructor <;> intro hall g hg
  · exact hall g ((h g).mpr hg)
  · exact hall g ((h g).mp hg)

/-- Extensivity of the object-side closure: every in-range object of `A`
lies in `extension_i (intention_i A)`. -/
theorem subset_extension_intention {ctx : FormalContext} {A : List ℕ}
    (hA : ∀ g ∈ A, g < ctx.n_objects) :
    ∀ g ∈ A, g ∈ ctx.extension_i (ctx.intention_i A) := by
  intro g hg
  rw [mem_extension_i]
  refine ⟨hA g hg, ?_⟩
  intro m hm
  exact (mem_intention_i.mp hm).2 g hg

/-- Extensivity of the attribute-side closure: every in-range attribute of
`B` lies in `intention_i (extension_i B)`. -/
theorem subset_intention_extension {ctx : FormalContext} {B : List ℕ}
    (hB : ∀ m ∈ B, m < ctx.n_attributes) :
    ∀ m ∈ B, m ∈ ctx.intention_i (ctx.extension_i B) := by
  intro m hm
  rw [mem_intention_i]
  refine ⟨hB m hm, ?_⟩
  intro g hg
  exact (mem_extension_i.mp hg).2 m hm

/-- The triple-application law `intention_i (extension_i (intention_i A)) =
intention_i A`, for object index lists that are in range. -/
theorem intention_extension_intention {ctx : FormalContext} {A : List ℕ}
    (hA : ∀ g ∈ A, g < ctx.n_objects) :
    ctx.intention_i (ctx.extension_i (ctx.intention_i A)) = ctx.intention_i A := by
  unfold intention_i
  apply List.filter_congr
  intro m hm
  rw [Bool.eq_iff_iff]
  simp only [List.all_eq_true]
  constructor
  · intro hall g hg
    exact hall g (subset_extension_intention hA g hg)
  · intro hall g hg
    have hmem : m ∈ ctx.intention_i A :=
      mem_intention_i.mpr ⟨List.mem_range.mp hm, fun g' hg' => hall g' hg'⟩
    exact (mem_extension_i.mp hg).2 m hmem

/-- The triple-application law `extension_i (intention_i (extension_i B)) =
extension_i B`, for attribute index lists that are in range. -/
theorem extension_intention_extension {ctx : FormalContext} {B : List ℕ}
    (hB : ∀ m ∈ B, m < ctx.n_attributes) :
    ctx.extension_i (ctx.intention_i (ctx.extension_i B)) = ctx.extension_i B := by
  unfold extension_i
  apply List.filter_congr
  intro g hg
  rw [Bool.eq_iff_iff]
  simp only [List.all_eq_true]
  constructor
  · intro hall m hm
    exact hall m (subset_intention_extension hB m hm)
  · intro hall m hm
    have hmem : g ∈ ctx.extension_i B :=
      mem_extension_i.mpr ⟨List.mem_range.mp hg, fun m' hm' => hall m' hm'⟩
    exact (mem_intention_i.mp hm).2 g hmem

end FormalContext

/-- Claim C7: closure idempotence.  For every `FormalContext` and every list
`S` of valid object indices, `extension_i (intention_i S)` is a closed
extent: applying the closure pair twice equals applying it once, and dually
for valid attribute index lists. -/
theorem claim_C7_closure_idempotence (ctx : FormalContext) (S B : List ℕ)
    (hS : ∀ g ∈ S, g < ctx.n_objects) (hB : ∀ m ∈ B, m < ctx.n_attributes) :
    ctx.extension_i (ctx.intention_i (ctx.extension_i (ctx.intention_i S))) =
      ctx.extension_i (ctx.intention_i S) ∧
    ctx.intention_i (ctx.extension_i (ctx.intention_i (ctx.extension_i B))) =
      ctx.intention_i (ctx.extension_i B) := by
  constructor
  · rw [FormalContext.intention_extension_intention hS]
  · rw [FormalContext.extension_intention_extension hB]

/-- Claim C10 (implicit): `FormalContext.__eq__` and `__ne__` return a
boolean exactly when both name lists agree, and raise `ValueError`
otherwise; the boolean returned by `__eq__` is data equality. -/
theorem claim_C10_context_eq_guards (c1 c2 : FormalContext) :
    ((∃ b, c1.pyEq c2 = .ok b) ↔
      (c1.object_names = c2.object_names ∧ c1.attribute_names = c2.attribute_names)) ∧
    ((∃ b, c1.pyNe c2 = .ok b) ↔
      (c1.object_names = c2.object_names ∧ c1.attribute_names = c2.attribute_names)) ∧
    (c1.pyEq c2 = .ok true ↔
      (c1.object_names = c2.object_names ∧ c1.attribute_names = c2.attribute_names ∧
        c1.data = c2.data)) := by
  unfold FormalContext.pyEq FormalContext.pyNe
  refine ⟨?_, ?_, ?_⟩ <;> split_ifs with h1 h2 <;> simp_all
  exact em _

/-- Counterexample for C8's equality half: two concepts that differ only
in their context hash.  The program's `==` — the dataclass-generated
field-tuple equality that masks `AbstractConcept.__eq__` — returns
`False` instead of raising; only the masked method (and `__le__`) would
have raised `UnmatchedContextError`. -/
theorem claim_C8_counterexample :
    (⟨{0}, ∅, {0}, ∅, some 1, false⟩ : FormalConcept).pyEq
      ⟨{0}, ∅, {0}, ∅, some 2, false⟩ = .ok false ∧
    (⟨{0}, ∅, {0}, ∅, some 1, false⟩ : FormalConcept).pyEqAbstract
      ⟨{0}, ∅, {0}, ∅, some 2, false⟩ = .error .unmatchedContext := by
  constructor
  · show Except.ok (decide _) = _
    rw [decide_eq_false (by decide)]
  · rfl

/-- Claim C8 (corrected): only the `__le__` order comparison enforces the
guards — it returns a boolean exactly when the two concepts carry equal
context hashes and equal monotonicity flags, and raises
`UnmatchedContextError` / `UnmatchedMonotonicityError` for every pair
differing in either.  Equality does not: the dataclass-generated
field-tuple `__eq__` on `FormalConcept` masks `AbstractConcept.__eq__`,
always returns a boolean (`False` across different hashes or
monotonicity flags), and never raises; the masked method would have
raised as originally claimed. -/
theorem claim_C8_comparison_guards_corrected (a b : FormalConcept) :
    (a.pyEq b = .ok (decide (a = b))) ∧
    ((∃ v, a.pyLe b = .ok v) ↔
      (a.context_hash = b.context_hash ∧ a.is_monotone = b.is_monotone)) ∧
    (a.context_hash ≠ b.context_hash →
      a.pyEq b = .ok false ∧
      a.pyEqAbstract b = .error .unmatchedContext ∧
      a.pyLe b = .error .unmatchedContext) ∧
    (a.context_hash = b.context_hash → a.is_monotone ≠ b.is_monotone →
      a.pyEq b = .ok false ∧
      a.pyEqAbstract b = .error .unmatchedMonotonicity ∧
      a.pyLe b = .error .unmatchedMonotonicity) := by
  refine ⟨rfl, ?_, ?_, ?_⟩
  · by_cases h1 : a.context_hash = b.context_hash
    · by_cases h2 : a.is_monotone = b.is_monotone
      · refine iff_of_true ?_ ⟨h1, h2⟩
        unfold FormalConcept.pyLe
        rw [if_neg (not_not_intro h1), if_neg (not_not_intro h2)]
        dsimp only
        split_ifs <;> exact ⟨_, rfl⟩
      · refine iff_of_false ?_ (fun hh => h2 hh.2)
        unfold FormalConcept.pyLe
        rw [if_neg (not_not_intro h1), if_pos h2]
        rintro ⟨v, hv⟩
        cases hv
    · refine iff_of_false ?_ (fun hh => h1 hh.1)
      unfold FormalConcept.pyLe
      rw [if_pos h1]
      rintro ⟨v, hv⟩
      cases hv
  · intro h1
    refine ⟨?_, ?_, ?_⟩
    · show Except.ok (decide (a = b)) = _
      rw [decide_eq_false (fun hc => h1 (by rw [hc]))]
    · unfold FormalConcept.pyEqAbstract
      rw [if_pos h1]
    · unfold FormalConcept.pyLe
      rw [if_pos h1]
  · intro h1 h2
    refine ⟨?_, ?_, ?_⟩
    · show Except.ok (decide (a = b)) = _
      rw [decide_eq_false (fun hc => h2 (by rw [hc]))]
    · unfold FormalConcept.pyEqAbstract
      rw [if_neg (not_not_intro h1), if_pos h2]
    · unfold FormalConcept.pyLe
      rw [if_neg (not_not_intro h1), if_pos h2]

/-- Witness for the corrected C8 at two concrete concepts with different
context hashes: `==` returns `False` while the masked equality and
`__le__` raise. -/
theorem claim_C8_comparison_guards_corrected_witness :
    ((⟨{0}, ∅, {0}, ∅, some 1, false⟩ : FormalConcept).context_hash ≠
      (⟨{0}, ∅, {0}, ∅, some 2, false⟩ : FormalConcept).context_hash) ∧
    ((⟨{0}, ∅, {0}, ∅, some 1, false⟩ : FormalConcept).pyEq
        ⟨{0}, ∅, {0}, ∅, some 2, false⟩ = .ok false ∧
      (⟨{0}, ∅, {0}, ∅, some 1, false⟩ : FormalConcept).pyEqAbstract
        ⟨{0}, ∅, {0}, ∅, some 2, false⟩ = .error .unmatchedContext ∧
      (⟨{0}, ∅, {0}, ∅, some 1, false⟩ : FormalConcept).pyLe
        ⟨{0}, ∅, {0}, ∅, some 2, false⟩ = .error .unmatchedContext) :=
  ⟨by decide,
   (claim_C8_comparison_guards_corrected _ _).2.2.1 (by decide)⟩

/-- Claim C5 is violated by the code (code bug): with `iterate_extents`
unspecified, `close_by_one`'s line 61 tests `type(context) == FormalConcept`
(bug for `FormalContext`), so the default is always `True`.  On a context
with 2 objects and 1 attribute the claim (and the function's own
docstring) require iterating attributes (`False`), but the code iterates
objects. -/
theorem claim_C5_default_direction_bug :
    default_iterate_extents .formalContext ctx21.n_objects ctx21.n_attributes = true ∧
    ¬(ctx21.n_objects < ctx21.n_attributes) := by
  decide

/-- Claim C9: `close_by_one` fails with an assertion (the spec's
`TypeMismatchError`) whenever `iterate_extents=False` is requested on a
non-binary context, and `lindig_algorithm` fails with
`NotImplementedError` (the spec's `UnsupportedOperationError`) whenever it
is invoked on a many-valued context; both checks precede any concept
construction, and neither fires on a binary `FormalContext`. -/
theorem claim_C9_type_check_failures :
    (∀ init iter, ∃ msg,
      close_by_one_checks .mvContext (some false) init iter = .error (.assertionError msg)) ∧
    (∃ msg, lindig_type_check .mvContext = .error (.notImplementedError msg)) ∧
    (∀ init iter ie, close_by_one_checks .formalContext ie init iter ≠
      .error (.assertionError "Can set iterate_extents=False only if FormalContext is given")) ∧
    lindig_type_check .formalContext = .ok () := by
  refine ⟨fun init iter => ⟨_, rfl⟩, ⟨_, rfl⟩, ?_, rfl⟩
  intro init iter ie
  unfold close_by_one_checks
  split_ifs with h1 h2 h3 <;> simp_all

theorem mem_pySortedSetDiff {a b : List ℕ} {x : ℕ} :
    x ∈ pySortedSetDiff a b ↔ x ∈ a ∧ x ∉ b := by
  unfold pySortedSetDiff
  rw [(List.perm_insertionSort _ _).mem_iff, List.mem_dedup, List.mem_filter]
  simp

/-- Soundness invariant of the Close-by-One loop: provided every
combination on the work list has elements satisfying `P`, every recorded
pair `(A, B)` satisfies `B = f A` and `A = g B`. -/
theorem cboLoop_sound (f g : List ℕ → List ℕ) (elems : List ℕ) (P : ℕ → Prop)
    (hg : ∀ l x, x ∈ g l → P x) (helems : ∀ x ∈ elems, P x)
    (hidem : ∀ comb, (∀ x ∈ comb, P x) → f (g (f comb)) = f comb) :
    ∀ (fuel : ℕ) (W : List (List ℕ)) (acc : List (List ℕ × List ℕ)),
      (∀ comb ∈ W, ∀ x ∈ comb, P x) →
      (∀ p ∈ acc, p.2 = f p.1 ∧ p.1 = g p.2) →
      ∀ p ∈ cboLoop f g elems fuel W acc, p.2 = f p.1 ∧ p.1 = g p.2 := by
  intro fuel
  induction fuel with
  | zero =>
    intro W acc _ hacc p hp
    cases W with
    | nil => exact hacc p hp
    | cons comb rest => exact hacc p hp
  | succ n ih =>
    intro W acc hW hacc p hp
    cases W with
    | nil => exact hacc p hp
    | cons comb rest =>
      rw [cboLoop] at hp
      by_cases hbr :
          ((match comb.getLast? with
            | none => false
            | some l => (pySortedSetDiff (g (f comb)) comb).any (fun x => decide (x < l))) ||
           acc.any (fun q => decide (q.1 = g (f comb)))) = true
      · rw [if_pos hbr] at hp
        exact ih rest acc (fun c hc => hW c (List.mem_cons_of_mem _ hc)) hacc p hp
      · rw [if_neg hbr] at hp
        refine ih _ _ ?_ ?_ p hp
        · intro c hc
          rcases List.mem_append.mp hc with hc | hc
          · obtain ⟨gi, hgi, rfl⟩ := List.mem_map.mp hc
            intro x hx
            rcases List.mem_append.mp hx with hx | hx
            · exact hg _ _ hx
            · rcases List.mem_singleton.mp hx with rfl
              exact helems _ (List.mem_of_mem_filter hgi)
          · exact hW c (List.mem_cons_of_mem _ hc)
        · intro q hq
          rcases List.mem_append.mp hq with hq | hq
          · exact hacc q hq
          · rcases List.mem_singleton.mp hq with rfl
            exact ⟨(hidem comb (hW comb (List.mem_cons_self _ _))).symm, rfl⟩

theorem close_by_one_data_true (ctx : FormalContext) :
    close_by_one_data ctx true =
      ((cboRecordedTrue ctx).map Prod.fst, (cboRecordedTrue ctx).map Prod.snd) := rfl

theorem close_by_one_data_false (ctx : FormalContext) :
    close_by_one_data ctx false =
      ((cboRecordedFalse ctx).map Prod.snd, (cboRecordedFalse ctx).map Prod.fst) := rfl

/-- Every recorded pair of the `True` run satisfies `B = intention_i A`
and `A = extension_i B`. -/
theorem cboRecordedTrue_pairs (ctx : FormalContext) :
    ∀ p ∈ cboRecordedTrue ctx,
      p.2 = ctx.intention_i p.1 ∧ p.1 = ctx.extension_i p.2 :=
  cboLoop_sound ctx.intention_i ctx.extension_i
    (List.range ctx.n_objects) (fun x => x < ctx.n_objects)
    (fun _ x hx => (FormalContext.mem_extension_i.mp hx).1)
    (fun x hx => List.mem_range.mp hx)
    (fun _ hcomb => FormalContext.intention_extension_intention hcomb)
    _ [[]] [] (by intro c hc; rcases List.mem_singleton.mp hc with rfl; intro x hx; cases hx)
    (by intro q hq; cases hq)

/-- Every recorded pair of the `False` run satisfies `B = extension_i A`
and `A = intention_i B`. -/
theorem cboRecordedFalse_pairs (ctx : FormalContext) :
    ∀ p ∈ cboRecordedFalse ctx,
      p.2 = ctx.extension_i p.1 ∧ p.1 = ctx.intention_i p.2 :=
  cboLoop_sound ctx.extension_i ctx.intention_i
    (List.range ctx.n_attributes) (fun x => x < ctx.n_attributes)
    (fun _ x hx => (FormalContext.mem_intention_i.mp hx).1)
    (fun x hx => List.mem_range.mp hx)
    (fun _ hcomb => FormalContext.extension_intention_extension hcomb)
    _ [[]] [] (by intro c hc; rcases List.mem_singleton.mp hc with rfl; intro x hx; cases hx)
    (by intro q hq; cases hq)

/-- The zipped `(extent_i, intent_i)` pairs returned by
`close_by_one_data` are exactly Galois-closed: `intention_i` of the extent
is the intent and `extension_i` of the intent is the extent, as lists. -/
theorem close_by_one_data_pairs (ctx : FormalContext) (it : Bool) :
    ∀ p ∈ ((close_by_one_data ctx it).1.zip (close_by_one_data ctx it).2),
      ctx.intention_i p.1 = p.2 ∧ ctx.extension_i p.2 = p.1 := by
  intro p hp
  cases it with
  | true =>
    rw [close_by_one_data_true] at hp
    simp only at hp
    rw [List.zip_map'] at hp
    obtain ⟨q, hq, rfl⟩ := List.mem_map.mp hp
    have := cboRecordedTrue_pairs ctx q hq
    exact ⟨this.1.symm, this.2.symm⟩
  | false =>
    rw [close_by_one_data_false] at hp
    simp only at hp
    rw [List.zip_map'] at hp
    obtain ⟨q, hq, rfl⟩ := List.mem_map.mp hp
    have := cboRecordedFalse_pairs ctx q hq
    exact ⟨this.2.symm, this.1.symm⟩

/-- `intention_i` applied to the sorted element list of a list's
`toFinset` equals `intention_i` of the list itself. -/
theorem intention_i_sort_toFinset (ctx : FormalContext) (l : List ℕ) :
    ctx.intention_i ((l.toFinset).sort (· ≤ ·)) = ctx.intention_i l :=
  FormalContext.intention_i_set_congr (fun g => by
    rw [Finset.mem_sort, List.mem_toFinset])

/-- `extension_i` applied to the sorted element list of a list's
`toFinset` equals `extension_i` of the list itself. -/
theorem extension_i_sort_toFinset (ctx : FormalContext) (l : List ℕ) :
    ctx.extension_i ((l.toFinset).sort (· ≤ ·)) = ctx.extension_i l :=
  FormalContext.extension_i_set_congr (fun g => by
    rw [Finset.mem_sort, List.mem_toFinset])

/-- Claim C2: every concept returned by `close_by_one` with
`output_as_concepts=True` on a `FormalContext` is a Galois-closed pair:
`intention_i` of its extent index set is exactly its intent index set,
and `extension_i` of its intent index set is exactly its extent index
set. -/
theorem claim_C2_concepts_galois_closed (ctx : FormalContext) (it : Bool)
    (c : FormalConcept) (hc : c ∈ close_by_one_concepts ctx it) :
    (ctx.intention_i (c.extent_i.sort (· ≤ ·))).toFinset = c.intent_i ∧
    (ctx.extension_i (c.intent_i.sort (· ≤ ·))).toFinset = c.extent_i := by
  unfold close_by_one_concepts at hc
  obtain ⟨p, hp, rfl⟩ := List.mem_map.mp hc
  obtain ⟨h1, h2⟩ := close_by_one_data_pairs ctx it p hp
  constructor
  · show (ctx.intention_i ((p.1.toFinset).sort (· ≤ ·))).toFinset = p.2.toFinset
    rw [intention_i_sort_toFinset, h1]
  · show (ctx.extension_i ((p.2.toFinset).sort (· ≤ ·))).toFinset = p.1.toFinset
    rw [extension_i_sort_toFinset, h2]

/-- Witness for C7 at the concrete context `ctxW` with `S = [0]`,
`B = [1]`. -/
theorem claim_C7_closure_idempotence_witness :
    ((∀ g ∈ [0], g < ctxW.n_objects) ∧ (∀ m ∈ [1], m < ctxW.n_attributes)) ∧
    (ctxW.extension_i (ctxW.intention_i (ctxW.extension_i (ctxW.intention_i [0]))) =
      ctxW.extension_i (ctxW.intention_i [0]) ∧
    ctxW.intention_i (ctxW.extension_i (ctxW.intention_i (ctxW.extension_i [1]))) =
      ctxW.intention_i (ctxW.extension_i [1])) :=
  ⟨⟨by decide, by decide⟩,
   claim_C7_closure_idempotence ctxW [0] [1] (by decide) (by decide)⟩

theorem mem_sofia_concepts_to_remove {metrics : List ℤ} {L_max top_i bottom_i i : ℕ} :
    i ∈ sofia_concepts_to_remove metrics L_max top_i bottom_i ↔
      i < metrics.length ∧ metrics.getD i 0 ≤ sofia_metrics_lim metrics L_max ∧
        i ≠ top_i ∧ i ≠ bottom_i := by
  unfold sofia_concepts_to_remove
  simp only [List.mem_filter, List.mem_reverse, List.mem_range, Bool.not_eq_true',
    Bool.or_eq_false_iff, beq_eq_false_iff_ne, ne_eq, decide_eq_true_eq]
  tauto

theorem mem_sofia_kept {metrics : List ℤ} {L_max top_i bottom_i i : ℕ} :
    i ∈ sofia_kept metrics L_max top_i bottom_i ↔
      i < metrics.length ∧
        (sofia_metrics_lim metrics L_max < metrics.getD i 0 ∨ i = top_i ∨ i = bottom_i) := by
  unfold sofia_kept
  rw [List.mem_filter, List.mem_range, decide_eq_true_eq, mem_sofia_concepts_to_remove]
  constructor
  · rintro ⟨hi, hnot⟩
    refine ⟨hi, ?_⟩
    by_contra hcon
    push_neg at hcon
    exact hnot ⟨hi, hcon.1, hcon.2.1, hcon.2.2⟩
  · rintro ⟨hi, hor⟩
    refine ⟨hi, ?_⟩
    rintro ⟨-, hle, hnt, hnb⟩
    rcases hor with h | h | h
    · exact absurd hle (not_le.mpr h)
    · exact hnt h
    · exact hnb h

theorem countP_range_getD {α : Type} (l : List α) (d : α) (p : α → Bool) :
    (List.range l.length).countP (fun i => p (l.getD i d)) = l.countP p := by
  induction l with
  | nil => simp
  | cons a t ih =>
    rw [List.length_cons, List.range_succ_eq_map, List.countP_cons, List.countP_map,
      List.countP_cons]
    simp only [Function.comp_def, Nat.succ_eq_add_one, List.getD_cons_succ,
      List.getD_cons_zero]
    rw [ih]

theorem countP_or_le {α : Type} (l : List α) (p q : α → Bool) :
    l.countP (fun x => p x || q x) ≤ l.countP p + l.countP q := by
  induction l with
  | nil => simp
  | cons a t ih =>
    rw [List.countP_cons, List.countP_cons, List.countP_cons]
    cases hp : p a <;> cases hq : q a <;> simp [hp, hq] <;> omega

theorem countP_range_gt (k n : ℕ) :
    (List.range n).countP (fun j => decide (k < j)) = n - (k + 1) := by
  induction n with
  | zero => simp
  | succ m ih =>
    rw [List.range_succ, List.countP_append, ih]
    by_cases hk : k < m <;> simp [hk] <;> omega

/-- At most `L_max` metric values exceed the rank-`(L_max+1)` threshold. -/
theorem countP_gt_metrics_lim (metrics : List ℤ) (L_max : ℕ)
    (h : L_max < metrics.length) :
    metrics.countP (fun v => decide (sofia_metrics_lim metrics L_max < v)) ≤ L_max := by
  set s := metrics.insertionSort (· ≤ ·) with hs
  have hperm : s.Perm metrics := List.perm_insertionSort _ _
  have hsorted : s.Sorted (· ≤ ·) := List.sorted_insertionSort _ _
  have hlen : s.length = metrics.length := hperm.length_eq
  set lim := sofia_metrics_lim metrics L_max with hlim
  set k := metrics.length - (L_max + 1) with hk
  have hklt : k < s.length := by omega
  have hgetk : s.getD k 0 = lim := by
    rw [hlim]
    unfold sofia_metrics_lim
    rfl
  rw [← hperm.countP_eq, ← countP_range_getD s (0 : ℤ)]
  calc (List.range s.length).countP (fun i => decide (lim < s.getD i 0))
      ≤ (List.range s.length).countP (fun j => decide (k < j)) := by
        apply List.countP_mono_left
        intro j hj
        simp only [decide_eq_true_eq]
        intro hlt
        by_contra hcon
        push_neg at hcon
        have hjlt : j < s.length := List.mem_range.mp hj
        have : s.getD j 0 ≤ s.getD k 0 := by
          rw [List.getD_eq_getElem s 0 hjlt, List.getD_eq_getElem s 0 hklt]
          exact List.Sorted.rel_get_of_le hsorted (by exact Fin.mk_le_mk.mpr hcon)
        rw [hgetk] at this
        exact absurd hlt (not_lt.mpr this)
    _ = s.length - (k + 1) := countP_range_gt k s.length
    _ ≤ L_max := by omega

/-- Claim C4, amended: after the eviction step of `sofia_binary`
(lines 258-269, reached when the lattice holds more than `L_max`
concepts), (1) the removed positions are exactly those whose measure is at
most the rank-`(L_max+1)` threshold, the current top and bottom positions
excepted, and (2) at most `L_max + 2` positions survive: the at most
`L_max` positions with measure strictly above the threshold plus possibly
the protected top and bottom.  The surviving count can exceed `L_max`
(see the counterexample), so the claimed `≤ L_max` bound does not hold. -/
theorem claim_C4_eviction_amended (metrics : List ℤ) (L_max top_i bottom_i : ℕ)
    (h : L_max < metrics.length) :
    (∀ i, i ∈ sofia_concepts_to_remove metrics L_max top_i bottom_i ↔
      (i < metrics.length ∧ metrics.getD i 0 ≤ sofia_metrics_lim metrics L_max ∧
        i ≠ top_i ∧ i ≠ bottom_i)) ∧
    (sofia_kept metrics L_max top_i bottom_i).length ≤ L_max + 2 := by
  refine ⟨fun i => mem_sofia_concepts_to_remove, ?_⟩
  unfold sofia_kept
  rw [← List.countP_eq_length_filter]
  set lim := sofia_metrics_lim metrics L_max with hlim
  calc (List.range metrics.length).countP
        (fun i => decide (i ∉ sofia_concepts_to_remove metrics L_max top_i bottom_i))
      ≤ (List.range metrics.length).countP
        (fun i => (decide (lim < metrics.getD i 0) || (i == top_i)) || (i == bottom_i)) := by
        apply List.countP_mono_left
        intro i hi
        simp only [decide_eq_true_eq, Bool.or_eq_true, beq_iff_eq]
        intro hnot
        have hilt : i < metrics.length := List.mem_range.mp hi
        by_contra hcon
        push_neg at hcon
        obtain ⟨⟨hle, hnt⟩, hnb⟩ := hcon
        exact hnot (mem_sofia_concepts_to_remove.mpr ⟨hilt, hle, hnt, hnb⟩)
    _ ≤ ((List.range metrics.length).countP (fun i => decide (lim < metrics.getD i 0)) +
          (List.range metrics.length).countP (fun i => i == top_i)) +
          (List.range metrics.length).countP (fun i => i == bottom_i) :=
        le_trans (countP_or_le _ _ _) (by
          have := countP_or_le (List.range metrics.length)
            (fun i => decide (lim < metrics.getD i 0)) (fun i => i == top_i)
          omega)
    _ ≤ L_max + 1 + 1 := by
        have h1 : (List.range metrics.length).countP (fun i => decide (lim < metrics.getD i 0)) ≤
            L_max := by
          rw [countP_range_getD metrics (0 : ℤ) (fun v => decide (lim < v))]
          exact countP_gt_metrics_lim metrics L_max h
        have h2 : (List.range metrics.length).countP (fun i => i == top_i) ≤ 1 := by
          rw [← List.count]
          exact List.nodup_iff_count_le_one.mp (List.nodup_range _) top_i
        have h3 : (List.range metrics.length).countP (fun i => i == bottom_i) ≤ 1 := by
          rw [← List.count]
          exact List.nodup_iff_count_le_one.mp (List.nodup_range _) bottom_i
        omega

/-- Counterexample for C4 as stated: with measures `[0, 0, 5, 6]`,
`L_max = 2`, top at position 0 and bottom at position 1, the
rank-`(L_max+1)` threshold is `0`, the two low-measure concepts are the
protected top and bottom, nothing is removed, and 4 > 2 concepts survive
the eviction step. -/
theorem claim_C4_counterexample :
    2 < ([0, 0, 5, 6] : List ℤ).length ∧
    sofia_concepts_to_remove [0, 0, 5, 6] 2 0 1 = [] ∧
    (sofia_kept [0, 0, 5, 6] 2 0 1).length = 4 ∧
    ¬((sofia_kept [0, 0, 5, 6] 2 0 1).length ≤ 2) := by
  refine ⟨by decide, by decide, by decide, by decide⟩

/-- Witness for the amended C4 theorem at the counterexample metrics. -/
theorem claim_C4_eviction_amended_witness :
    2 < ([0, 0, 5, 6] : List ℤ).length ∧
    ((∀ i, i ∈ sofia_concepts_to_remove [0, 0, 5, 6] 2 0 1 ↔
      (i < ([0, 0, 5, 6] : List ℤ).length ∧
        ([0, 0, 5, 6] : List ℤ).getD i 0 ≤ sofia_metrics_lim [0, 0, 5, 6] 2 ∧
        i ≠ 0 ∧ i ≠ 1)) ∧
    (sofia_kept [0, 0, 5, 6] 2 0 1).length ≤ 2 + 2) :=
  ⟨by decide, claim_C4_eviction_amended [0, 0, 5, 6] 2 0 1 (by decide)⟩

theorem mem_finsetSortedList {s : Finset ℕ} {x : ℕ} :
    x ∈ finsetSortedList s ↔ x ∈ s := by
  obtain ⟨val, nodup⟩ := s
  obtain ⟨l⟩ := val
  show x ∈ l.insertionSort (· ≤ ·) ↔ _
  rw [(List.perm_insertionSort _ l).mem_iff]
  simp [Finset.mem_mk]

/-- Claim C3 names a code bug: on `ctx12` with `L_max = 2` (at least the
total concept count), `sofia_binary` must return the full `close_by_one`
lattice without eviction, but its first projection iteration passes the
initial lattice's frozenset intents into `close_by_one`, whose
canonicity test evaluates `comb_i[-1]` and raises
`TypeError: 'frozenset' object is not subscriptable`. -/
theorem claim_C3_sofia_first_projection_crash :
    sofia_binary_first_projection ctx12 2 =
      .error (.typeError "'frozenset' object is not subscriptable") := by
  rfl

section ChainTheory

variable {n : ℕ} {cl : Finset ℕ → Finset ℕ} (hcl : ClosureOp n cl)
variable {D : Finset ℕ} (hD : D ⊆ Finset.range n) (hDcl : cl D = D)

include hcl hD hDcl in
theorem chainSet_subset_target : ∀ i, chainSet cl D i ⊆ D := by
  intro i
  induction i with
  | zero =>
    calc chainSet cl D 0 = cl ∅ := rfl
    _ ⊆ cl D := hcl.mono (Finset.empty_subset D)
    _ = D := hDcl
  | succ i ih =>
    show chainNext cl D (chainSet cl D i) ⊆ D
    unfold chainNext
    split_ifs with h
    · calc cl (insert ((D \ chainSet cl D i).min' h) (chainSet cl D i)) ⊆ cl D := by
            apply hcl.mono
            intro x hx
            rcases Finset.mem_insert.mp hx with rfl | hx
            · exact (Finset.mem_sdiff.mp (Finset.min'_mem _ h)).1
            · exact ih hx
      _ = D := hDcl
    · exact ih

include hcl hD hDcl in
theorem chainSet_closed : ∀ i, cl (chainSet cl D i) = chainSet cl D i := by
  intro i
  induction i with
  | zero => exact hcl.idem (Finset.empty_subset _)
  | succ i ih =>
    show cl (chainNext cl D (chainSet cl D i)) = chainNext cl D (chainSet cl D i)
    unfold chainNext
    split_ifs with h
    · apply hcl.idem
      intro x hx
      rcases Finset.mem_insert.mp hx with rfl | hx
      · exact hD ((Finset.mem_sdiff.mp (Finset.min'_mem _ h)).1)
      · exact hD (chainSet_subset_target hcl hD hDcl i hx)
    · exact ih

include hcl hD hDcl in
theorem chainGen_mem {i : ℕ} (h : (D \ chainSet cl D i).Nonempty) :
    chainGen cl D i ∈ D ∧ chainGen cl D i ∉ chainSet cl D i := by
  unfold chainGen
  rw [dif_pos h]
  have := Finset.min'_mem _ h
  rw [Finset.mem_sdiff] at this
  exact this

include hcl hD hDcl in
theorem chainSet_succ_of_nonempty {i : ℕ} (h : (D \ chainSet cl D i).Nonempty) :
    chainSet cl D (i + 1) = cl (insert (chainGen cl D i) (chainSet cl D i)) := by
  show chainNext cl D (chainSet cl D i) = _
  unfold chainNext chainGen
  rw [dif_pos h, dif_pos h]

include hcl hD hDcl in
theorem chainSet_grow {i : ℕ} (h : (D \ chainSet cl D i).Nonempty) :
    chainSet cl D i ⊆ chainSet cl D (i + 1) ∧
      chainGen cl D i ∈ chainSet cl D (i + 1) ∧ chainGen cl D i ∉ chainSet cl D i := by
  have hmem := chainGen_mem hcl hD hDcl h
  have hins : insert (chainGen cl D i) (chainSet cl D i) ⊆ Finset.range n := by
    intro x hx
    rcases Finset.mem_insert.mp hx with rfl | hx
    · exact hD hmem.1
    · exact hD (chainSet_subset_target hcl hD hDcl i hx)
  rw [chainSet_succ_of_nonempty hcl hD hDcl h]
  have hext := hcl.extensive hins
  refine ⟨?_, ?_, hmem.2⟩
  · intro x hx
    exact hext (Finset.mem_insert_of_mem hx)
  · exact hext (Finset.mem_insert_self _ _)

include hcl hD hDcl in
theorem chainSet_stab {i : ℕ} (h : chainSet cl D i = D) :
    ∀ j, i ≤ j → chainSet cl D j = D := by
  intro j hij
  induction j with
  | zero =>
    have : i = 0 := Nat.le_zero.mp hij
    rw [← this]
    exact h
  | succ j ih =>
    rcases Nat.lt_or_ge i (j + 1) with hlt | hge
    · have hj := ih (Nat.lt_succ_iff.mp hlt)
      show chainNext cl D (chainSet cl D j) = D
      unfold chainNext
      rw [hj]
      rw [dif_neg (by simp)]
    · have : i = j + 1 := le_antisymm hij hge
      rw [← this]
      exact h

include hcl hD hDcl in
theorem chainSet_mono : ∀ {i j}, i ≤ j → chainSet cl D i ⊆ chainSet cl D j := by
  intro i j hij
  induction j with
  | zero =>
    have : i = 0 := Nat.le_zero.mp hij
    rw [this]
  | succ j ih =>
    rcases Nat.lt_or_ge i (j + 1) with hlt | hge
    · refine (ih (Nat.lt_succ_iff.mp hlt)).trans ?_
      by_cases h : (D \ chainSet cl D j).Nonempty
      · exact (chainSet_grow hcl hD hDcl h).1
      · show chainSet cl D j ⊆ chainNext cl D (chainSet cl D j)
        unfold chainNext
        rw [dif_neg h]
    · have : i = j + 1 := le_antisymm hij hge
      rw [this]

include hcl hD hDcl in
theorem chainSet_reaches : ∃ i, chainSet cl D i = D := by
  have key : ∀ i, chainSet cl D i = D ∨ i ≤ (chainSet cl D i).card := by
    intro i
    induction i with
    | zero => right; exact Nat.zero_le _
    | succ i ih =>
      rcases ih with h | h
      · left; exact chainSet_stab hcl hD hDcl h _ (Nat.le_succ i)
      · by_cases hne : (D \ chainSet cl D i).Nonempty
        · right
          have hgrow := chainSet_grow hcl hD hDcl hne
          have : (chainSet cl D i).card < (chainSet cl D (i + 1)).card := by
            apply Finset.card_lt_card
            exact Finset.ssubset_iff_of_subset hgrow.1 |>.mpr
              ⟨chainGen cl D i, hgrow.2.1, hgrow.2.2⟩
          omega
        · left
          rw [Finset.not_nonempty_iff_eq_empty, Finset.sdiff_eq_empty_iff_subset] at hne
          have heq : chainSet cl D i = D :=
            Finset.Subset.antisymm (chainSet_subset_target hcl hD hDcl i) hne
          exact chainSet_stab hcl hD hDcl heq _ (Nat.le_succ i)
  rcases key (D.card + 1) with h | h
  · exact ⟨_, h⟩
  · have hsub := chainSet_subset_target hcl hD hDcl (D.card + 1)
    have := Finset.card_le_card hsub
    omega

include hcl hD hDcl in
theorem chainGen_lex {i : ℕ} (h : (D \ chainSet cl D i).Nonempty) :
    ∀ x ∈ chainSet cl D (i + 1), x < chainGen cl D i → x ∈ chainSet cl D i := by
  intro x hx hlt
  have hxD : x ∈ D := chainSet_subset_target hcl hD hDcl (i + 1) hx
  by_contra hnot
  have : x ∈ D \ chainSet cl D i := Finset.mem_sdiff.mpr ⟨hxD, hnot⟩
  have hmin : chainGen cl D i ≤ x := by
    unfold chainGen
    rw [dif_pos h]
    exact Finset.min'_le _ _ this
  omega

include hcl hD hDcl in
theorem chainGen_strict_mono {i j : ℕ} (hij : i < j)
    (hi : (D \ chainSet cl D i).Nonempty) (hj : (D \ chainSet cl D j).Nonempty) :
    chainGen cl D i < chainGen cl D j := by
  have hgrow := chainSet_grow hcl hD hDcl hi
  have hmemj : chainGen cl D j ∈ D \ chainSet cl D j := by
    unfold chainGen
    rw [dif_pos hj]
    exact Finset.min'_mem _ hj
  have hsub : chainSet cl D (i + 1) ⊆ chainSet cl D j := chainSet_mono hcl hD hDcl hij
  have hgeni_in_j : chainGen cl D i ∈ chainSet cl D j := hsub hgrow.2.1
  have hle : chainGen cl D i ≤ chainGen cl D j := by
    unfold chainGen
    rw [dif_pos hi]
    apply Finset.min'_le
    rw [Finset.mem_sdiff] at hmemj ⊢
    exact ⟨hmemj.1, fun hco => hmemj.2 (chainSet_mono hcl hD hDcl (Nat.le_of_lt hij) hco)⟩
  rcases Nat.lt_or_ge (chainGen cl D i) (chainGen cl D j) with h | h
  · exact h
  · have : chainGen cl D i = chainGen cl D j := le_antisymm hle h
    rw [this] at hgeni_in_j
    exact absurd hgeni_in_j (Finset.mem_sdiff.mp hmemj).2

include hcl hD hDcl in
/-- The canonical chain of the chain point `chainSet cl D j` is the
corresponding prefix of the canonical chain of `D`, with the same
generators. -/
theorem chain_prefix_sets (j : ℕ) :
    ∀ i, i ≤ j → chainSet cl (chainSet cl D j) i = chainSet cl D i := by
  have hTsub : chainSet cl D j ⊆ Finset.range n :=
    (chainSet_subset_target hcl hD hDcl j).trans hD
  intro i
  induction i with
  | zero => intro _; rfl
  | succ i ih =>
    intro hi1
    have hi : i < j := hi1
    have hCi := ih (Nat.le_of_lt hi)
    by_cases hreal : (D \ chainSet cl D i).Nonempty
    · have hgen := chainGen_mem hcl hD hDcl hreal
      have hgen_in_T : chainGen cl D i ∈ chainSet cl D j :=
        chainSet_mono hcl hD hDcl hi (chainSet_grow hcl hD hDcl hreal).2.1
      have hTreal : (chainSet cl D j \ chainSet cl (chainSet cl D j) i).Nonempty := by
        rw [hCi]
        exact ⟨chainGen cl D i, Finset.mem_sdiff.mpr ⟨hgen_in_T, hgen.2⟩⟩
      have hminEq : (chainSet cl D j \ chainSet cl (chainSet cl D j) i).min' hTreal =
          chainGen cl D i := by
        apply le_antisymm
        · apply Finset.min'_le
          rw [hCi]
          exact Finset.mem_sdiff.mpr ⟨hgen_in_T, hgen.2⟩
        · apply Finset.le_min'
          intro y hy
          rw [hCi, Finset.mem_sdiff] at hy
          have hyD : y ∈ D := chainSet_subset_target hcl hD hDcl j hy.1
          unfold chainGen
          rw [dif_pos hreal]
          exact Finset.min'_le _ _ (Finset.mem_sdiff.mpr ⟨hyD, hy.2⟩)
      show chainNext cl (chainSet cl D j) (chainSet cl (chainSet cl D j) i) = _
      unfold chainNext
      rw [dif_pos hTreal, hminEq, hCi, ← chainSet_succ_of_nonempty hcl hD hDcl hreal]
    · have hCiD : chainSet cl D i = D := by
        rw [Finset.not_nonempty_iff_eq_empty, Finset.sdiff_eq_empty_iff_subset] at hreal
        exact Finset.Subset.antisymm (chainSet_subset_target hcl hD hDcl i) hreal
      have hTD : chainSet cl D j = D := by
        refine Finset.Subset.antisymm (chainSet_subset_target hcl hD hDcl j) ?_
        intro x hx
        exact chainSet_mono hcl hD hDcl (Nat.le_of_lt hi) (by rw [hCiD]; exact hx)
      have h1 : chainSet cl D (i + 1) = D :=
        chainSet_stab hcl hD hDcl hCiD _ (Nat.le_succ i)
      show chainNext cl (chainSet cl D j) (chainSet cl (chainSet cl D j) i) = _
      unfold chainNext
      rw [hCi, hCiD, hTD, h1]
      rw [dif_neg (by simp)]

include hcl hD hDcl in
/-- Generators along the chain of a chain point agree with those of the
full chain. -/
theorem chain_prefix_gen {j i : ℕ} (hij : i < j)
    (hreal : (D \ chainSet cl D i).Nonempty) :
    chainGen cl (chainSet cl D j) i = chainGen cl D i := by
  have hCi := chain_prefix_sets hcl hD hDcl j i (Nat.le_of_lt hij)
  have hgen := chainGen_mem hcl hD hDcl hreal
  have hgen_in_T : chainGen cl D i ∈ chainSet cl D j :=
    chainSet_mono hcl hD hDcl hij (chainSet_grow hcl hD hDcl hreal).2.1
  have hTreal : (chainSet cl D j \ chainSet cl (chainSet cl D j) i).Nonempty := by
    rw [hCi]
    exact ⟨chainGen cl D i, Finset.mem_sdiff.mpr ⟨hgen_in_T, hgen.2⟩⟩
  have hgenEq : chainGen cl D i = (D \ chainSet cl D i).min' hreal := by
    unfold chainGen
    rw [dif_pos hreal]
  unfold chainGen
  rw [dif_pos hTreal, dif_pos hreal]
  apply le_antisymm
  · apply Finset.min'_le
    rw [hCi, ← hgenEq]
    exact Finset.mem_sdiff.mpr ⟨hgen_in_T, hgen.2⟩
  · apply Finset.le_min'
    intro y hy
    rw [hCi, Finset.mem_sdiff] at hy
    have hyD : y ∈ D := chainSet_subset_target hcl hD hDcl j hy.1
    exact Finset.min'_le _ _ (Finset.mem_sdiff.mpr ⟨hyD, hy.2⟩)

include hcl hD hDcl in
/-- The chain step that first reaches the target is unique. -/
theorem chain_pred_unique {i j : ℕ}
    (hi : chainSet cl D i ≠ D) (hi1 : chainSet cl D (i + 1) = D)
    (hj : chainSet cl D j ≠ D) (hj1 : chainSet cl D (j + 1) = D) : i = j := by
  rcases Nat.lt_trichotomy i j with h | h | h
  · exfalso
    apply hj
    refine Finset.Subset.antisymm (chainSet_subset_target hcl hD hDcl j) ?_
    intro x hx
    exact chainSet_mono hcl hD hDcl h (by rw [hi1]; exact hx)
  · exact h
  · exfalso
    apply hi
    refine Finset.Subset.antisymm (chainSet_subset_target hcl hD hDcl i) ?_
    intro x hx
    exact chainSet_mono hcl hD hDcl h (by rw [hj1]; exact hx)

end ChainTheory

/-- The canonicity lemma behind Close-by-One: extending a canonically
generated closed set `C` by a single element `gnew` greater than all of
`C`'s generators, in a way that passes the lexicographic test, produces a
closed set `A` whose canonical chain is `C`'s chain followed by one
`gnew`-step.  In particular `C` and `gnew` are recoverable from `A`, so
`A` has exactly one canonical generating combination. -/
theorem chain_extend {n : ℕ} {cl : Finset ℕ → Finset ℕ} (hcl : ClosureOp n cl)
    {C : Finset ℕ} {gnew : ℕ}
    (hCsub : C ⊆ Finset.range n) (hCcl : cl C = C) (hgn : gnew < n) (hgnot : gnew ∉ C)
    (hgens : ∀ i, chainSet cl C i ≠ C → chainGen cl C i < gnew)
    (hlex : ∀ x ∈ cl (insert gnew C), x < gnew → x ∈ C) :
    ∃ m, chainSet cl (cl (insert gnew C)) m = C ∧
      (∀ i, i ≤ m → chainSet cl (cl (insert gnew C)) i = chainSet cl C i) ∧
      (∀ i, i < m → chainSet cl C i ≠ C) ∧
      chainGen cl (cl (insert gnew C)) m = gnew ∧
      chainSet cl (cl (insert gnew C)) (m + 1) = cl (insert gnew C) ∧
      ((cl (insert gnew C)) \ C).Nonempty ∧
      C ≠ cl (insert gnew C) ∧
      (∀ i, chainSet cl (cl (insert gnew C)) i ≠ cl (insert gnew C) →
        chainGen cl (cl (insert gnew C)) i ≤ gnew) := by
  have hins_sub : insert gnew C ⊆ Finset.range n := by
    intro x hx
    rcases Finset.mem_insert.mp hx with rfl | hx
    · exact Finset.mem_range.mpr hgn
    · exact hCsub hx
  set A := cl (insert gnew C) with hA
  have hA_sub : A ⊆ Finset.range n := hcl.subset_range _
  have hAcl : cl A = A := hcl.idem hins_sub
  have hCA : C ⊆ A := fun x hx => hcl.extensive hins_sub (Finset.mem_insert_of_mem hx)
  have hgA : gnew ∈ A := hcl.extensive hins_sub (Finset.mem_insert_self _ _)
  have hneAC : (A \ C).Nonempty := ⟨gnew, Finset.mem_sdiff.mpr ⟨hgA, hgnot⟩⟩
  have hCneA : C ≠ A := by
    intro h
    rw [h] at hgnot
    exact hgnot hgA
  have hex : ∃ i, chainSet cl C i = C := chainSet_reaches hcl hCsub hCcl
  set m := Nat.find hex with hmdef
  have hm : chainSet cl C m = C := Nat.find_spec hex
  have hmin : ∀ i, i < m → chainSet cl C i ≠ C := fun i hi => Nat.find_min hex hi
  -- the chains agree up to step m, with equal generators below m
  have key : ∀ i, i ≤ m →
      chainSet cl A i = chainSet cl C i ∧
      (i < m → chainGen cl A i = chainGen cl C i ∧ chainGen cl C i < gnew) := by
    intro i
    induction i with
    | zero =>
      intro _
      refine ⟨rfl, fun h0 => ?_⟩
      have hCreal : (C \ chainSet cl C 0).Nonempty := by
        by_contra hcon
        rw [Finset.not_nonempty_iff_eq_empty, Finset.sdiff_eq_empty_iff_subset] at hcon
        exact hmin 0 h0 (Finset.Subset.antisymm
          (chainSet_subset_target hcl hCsub hCcl 0) hcon)
      have hAreal : (A \ chainSet cl A 0).Nonempty := by
        obtain ⟨y, hy⟩ := hCreal
        rw [Finset.mem_sdiff] at hy
        exact ⟨y, Finset.mem_sdiff.mpr ⟨hCA hy.1, hy.2⟩⟩
      have hlt : chainGen cl C 0 < gnew := hgens 0 (hmin 0 h0)
      have heq : chainGen cl A 0 = chainGen cl C 0 := by
        unfold chainGen
        rw [dif_pos hAreal, dif_pos hCreal]
        apply le_antisymm
        · apply Finset.min'_le
          have := Finset.min'_mem _ hCreal
          rw [Finset.mem_sdiff] at this ⊢
          exact ⟨hCA this.1, this.2⟩
        · apply Finset.le_min'
          intro y hy
          rw [Finset.mem_sdiff] at hy
          by_contra hcon
          push_neg at hcon
          have hymin : y < chainGen cl C 0 := by
            have : (C \ chainSet cl C 0).min' hCreal = chainGen cl C 0 := by
              unfold chainGen
              rw [dif_pos hCreal]
            omega
          have hyC : y ∈ C := hlex y hy.1 (by omega)
          have : chainGen cl C 0 ≤ y := by
            unfold chainGen
            rw [dif_pos hCreal]
            exact Finset.min'_le _ _ (Finset.mem_sdiff.mpr ⟨hyC, hy.2⟩)
          omega
      exact ⟨heq, hlt⟩
    | succ i ih =>
      intro hi1
      have hi : i < m := hi1
      obtain ⟨hCi, hgenfn⟩ := ih (Nat.le_of_lt hi)
      obtain ⟨hgenEq, hgenLt⟩ := hgenfn hi
      have hCreal : (C \ chainSet cl C i).Nonempty := by
        by_contra hcon
        rw [Finset.not_nonempty_iff_eq_empty, Finset.sdiff_eq_empty_iff_subset] at hcon
        exact hmin i hi (Finset.Subset.antisymm
          (chainSet_subset_target hcl hCsub hCcl i) hcon)
      have hAreal : (A \ chainSet cl A i).Nonempty := by
        obtain ⟨y, hy⟩ := hCreal
        rw [Finset.mem_sdiff] at hy
        rw [hCi]
        exact ⟨y, Finset.mem_sdiff.mpr ⟨hCA hy.1, hy.2⟩⟩
      -- step sets are equal
      have hstep : chainSet cl A (i + 1) = chainSet cl C (i + 1) := by
        rw [chainSet_succ_of_nonempty hcl hA_sub hAcl hAreal,
          chainSet_succ_of_nonempty hcl hCsub hCcl hCreal, hgenEq, hCi]
      refine ⟨hstep, fun h1 => ?_⟩
      -- generators at step i+1
      have hCreal1 : (C \ chainSet cl C (i + 1)).Nonempty := by
        by_contra hcon
        rw [Finset.not_nonempty_iff_eq_empty, Finset.sdiff_eq_empty_iff_subset] at hcon
        exact hmin (i + 1) h1 (Finset.Subset.antisymm
          (chainSet_subset_target hcl hCsub hCcl (i + 1)) hcon)
      have hAreal1 : (A \ chainSet cl A (i + 1)).Nonempty := by
        obtain ⟨y, hy⟩ := hCreal1
        rw [Finset.mem_sdiff] at hy
        rw [hstep]
        exact ⟨y, Finset.mem_sdiff.mpr ⟨hCA hy.1, hy.2⟩⟩
      have hlt1 : chainGen cl C (i + 1) < gnew := hgens (i + 1) (hmin (i + 1) h1)
      have heq1 : chainGen cl A (i + 1) = chainGen cl C (i + 1) := by
        unfold chainGen
        rw [dif_pos hAreal1, dif_pos hCreal1]
        apply le_antisymm
        · apply Finset.min'_le
          have := Finset.min'_mem _ hCreal1
          rw [Finset.mem_sdiff] at this
          rw [hstep, Finset.mem_sdiff]
          exact ⟨hCA this.1, this.2⟩
        · apply Finset.le_min'
          intro y hy
          rw [hstep, Finset.mem_sdiff] at hy
          by_contra hcon
          push_neg at hcon
          have hymin : y < chainGen cl C (i + 1) := by
            have : (C \ chainSet cl C (i + 1)).min' hCreal1 = chainGen cl C (i + 1) := by
              unfold chainGen
              rw [dif_pos hCreal1]
            omega
          have hyC : y ∈ C := hlex y (hA ▸ hy.1) (by omega)
          have : chainGen cl C (i + 1) ≤ y := by
            unfold chainGen
            rw [dif_pos hCreal1]
            exact Finset.min'_le _ _ (Finset.mem_sdiff.mpr ⟨hyC, hy.2⟩)
          omega
      exact ⟨heq1, hlt1⟩
  have hAm : chainSet cl A m = C := by
    rw [(key m le_rfl).1, hm]
  have hArealm : (A \ chainSet cl A m).Nonempty := by
    rw [hAm]
    exact hneAC
  have hgenm : chainGen cl A m = gnew := by
    unfold chainGen
    rw [dif_pos hArealm]
    apply le_antisymm
    · apply Finset.min'_le
      rw [hAm, Finset.mem_sdiff]
      exact ⟨hgA, hgnot⟩
    · apply Finset.le_min'
      intro y hy
      rw [hAm, Finset.mem_sdiff] at hy
      by_contra hcon
      push_neg at hcon
      exact hy.2 (hlex y hy.1 hcon)
  have hAm1 : chainSet cl A (m + 1) = A := by
    rw [chainSet_succ_of_nonempty hcl hA_sub hAcl hArealm, hgenm, hAm]
  refine ⟨m, hAm, fun i hi => (key i hi).1, hmin, hgenm, hAm1, hneAC, hCneA, ?_⟩
  intro i hne
  rcases Nat.lt_trichotomy i m with h | h | h
  · obtain ⟨heq, hlt⟩ := (key i (Nat.le_of_lt h)).2 h
    omega
  · rw [h, hgenm]
  · exfalso
    exact hne (chainSet_stab hcl hA_sub hAcl hAm1 i h)

/-- Two lists without duplicates and with the same `toFinset` are
permutations of each other. -/
theorem perm_of_nodup_toFinset_eq {l₁ l₂ : List ℕ} (h₁ : l₁.Nodup) (h₂ : l₂.Nodup)
    (h : l₁.toFinset = l₂.toFinset) : l₁.Perm l₂ :=
  Multiset.coe_eq_coe.mp
    (Multiset.Nodup.toFinset_inj (Multiset.coe_nodup.mpr h₁) (Multiset.coe_nodup.mpr h₂) h)

namespace CboSpec

variable {n : ℕ} {f g : List ℕ → List ℕ} (S : CboSpec n f g)

include S in
theorem g_nodup (l : List ℕ) : (g l).Nodup := (S.g_sorted l).nodup

include S in
/-- Outputs of `g` are canonical: equal as sets implies equal as lists. -/
theorem g_canon {l₁ l₂ : List ℕ} (h : (g l₁).toFinset = (g l₂).toFinset) :
    g l₁ = g l₂ := by
  haveI : IsAntisymm ℕ (· < ·) := ⟨fun a b h1 h2 => absurd h2 (not_lt_of_lt h1)⟩
  exact List.eq_of_perm_of_sorted
    (perm_of_nodup_toFinset_eq (S.g_nodup l₁) (S.g_nodup l₂) h)
    (S.g_sorted l₁) (S.g_sorted l₂)

end CboSpec

theorem clL_toFinset (f g : List ℕ → List ℕ) (s : Finset ℕ) :
    (clL f g s).toFinset = clF f g s := rfl

namespace CboSpec

variable {n : ℕ} {f g : List ℕ → List ℕ} (S : CboSpec n f g)

include S in
theorem toFinset_gf (l : List ℕ) : (g (f l)).toFinset = clF f g l.toFinset := by
  unfold clF
  rw [@CboSpec.f_set _ _ _ S _ (finsetSortedList l.toFinset) (fun x => by
    rw [mem_finsetSortedList, List.mem_toFinset])]

include S in
theorem gf_eq_clL (l : List ℕ) : g (f l) = clL f g l.toFinset := by
  unfold clL
  rw [@CboSpec.f_set _ _ _ S _ (finsetSortedList l.toFinset) (fun x => by
    rw [mem_finsetSortedList, List.mem_toFinset])]

include S in
theorem clF_closureOp : ClosureOp n (clF f g) := by
  constructor
  · intro s t hst x hx
    unfold clF at hx ⊢
    rw [List.mem_toFinset] at hx ⊢
    exact S.gf_mono _ _ (fun y hy =>
      mem_finsetSortedList.mpr (hst (mem_finsetSortedList.mp hy))) x hx
  · intro s hs x hx
    unfold clF
    rw [List.mem_toFinset]
    exact S.gf_extensive _ (fun y hy =>
        Finset.mem_range.mp (hs (mem_finsetSortedList.mp hy))) x
      (mem_finsetSortedList.mpr hx)
  · intro s hs
    show clF f g ((g (f (finsetSortedList s))).toFinset) = _
    rw [← S.toFinset_gf,
      S.fgf _ (fun x hx => Finset.mem_range.mp (hs (mem_finsetSortedList.mp hx)))]
    rfl
  · intro s x hx
    unfold clF at hx
    rw [List.mem_toFinset] at hx
    exact Finset.mem_range.mpr (S.g_range _ x hx)

include S in
/-- Lists of the form `g (f ·)` (in particular every recorded key) are
the canonical lists of their sets. -/
theorem gf_canonical {A : List ℕ} (hA : A = g (f A)) : A = clL f g A.toFinset := by
  conv_lhs => rw [hA]
  exact S.gf_eq_clL A

end CboSpec

namespace CboSpec

variable {n : ℕ} {f g : List ℕ → List ℕ} (S : CboSpec n f g)

include S in
theorem keys_gf {acc : List (List ℕ × List ℕ)} (hacc : GoodAcc f g acc) :
    ∀ A ∈ cboKeys acc, A = g (f A) := by
  intro A hA
  obtain ⟨p, hp, rfl⟩ := List.mem_map.mp hA
  obtain ⟨h2, h1⟩ := hacc.1 p hp
  calc p.1 = g p.2 := h1
  _ = g (f p.1) := by rw [h2]

include S in
theorem keys_valid {acc : List (List ℕ × List ℕ)} (hacc : GoodAcc f g acc) :
    ∀ A ∈ cboKeys acc, ∀ x ∈ A, x < n := by
  intro A hA x hx
  rw [S.keys_gf hacc A hA] at hx
  exact S.g_range _ x hx

include S in
theorem keys_closed {acc : List (List ℕ × List ℕ)} (hacc : GoodAcc f g acc) :
    ∀ A ∈ cboKeys acc, clF f g A.toFinset = A.toFinset := by
  intro A hA
  have h := S.keys_gf hacc A hA
  rw [← S.toFinset_gf, ← h]

include S in
/-- A recorded key is determined by its element set. -/
theorem keys_set_inj {acc : List (List ℕ × List ℕ)} (hacc : GoodAcc f g acc)
    {A₁ A₂ : List ℕ} (h₁ : A₁ ∈ cboKeys acc) (h₂ : A₂ ∈ cboKeys acc)
    (h : A₁.toFinset = A₂.toFinset) : A₁ = A₂ := by
  rw [S.gf_canonical (S.keys_gf hacc A₁ h₁), S.gf_canonical (S.keys_gf hacc A₂ h₂), h]

include S in
/-- When the duplicate test fails (the popped closure is not a recorded
key list), the closure's set is not recorded either. -/
theorem not_inKeySets_of_not_dup {acc : List (List ℕ × List ℕ)} (hacc : GoodAcc f g acc)
    {comb : List ℕ} (hdup : ∀ p ∈ acc, p.1 ≠ g (f comb)) :
    ¬InKeySets acc ((g (f comb)).toFinset) := by
  rintro ⟨A, hA, hAset⟩
  obtain ⟨p, hp, rfl⟩ := List.mem_map.mp hA
  apply hdup p hp
  have h1 := S.keys_gf hacc p.1 hA
  have h2 : (g (f p.1)).toFinset = (g (f comb)).toFinset := by
    rw [← h1]
    exact hAset
  rw [h1, S.g_canon h2]

include S in
/-- If a set's unique canonical-chain predecessor is not recorded, the
set itself is not recorded (uses the accumulator's INV4 invariant). -/
theorem not_inKeySets_of_pred {acc : List (List ℕ × List ℕ)} (hacc : GoodAcc f g acc)
    {T P : Finset ℕ} {j : ℕ}
    (hTsub : T ⊆ Finset.range n) (hTcl : clF f g T = T)
    (hj : chainSet (clF f g) T j = P) (hjne : P ≠ T)
    (hj1 : chainSet (clF f g) T (j + 1) = T)
    (hP : ¬InKeySets acc P) (h0P : clF f g ∅ ⊆ P) : ¬InKeySets acc T := by
  rintro ⟨A, hA, hAT⟩
  rcases hacc.2.2 A hA with h | ⟨Q, hQ, i, hQ1, hQ2, hQ3⟩
  · rw [hAT] at h
    apply hjne
    have hPT : P ⊆ T := by
      rw [← hj]
      exact chainSet_subset_target (S.clF_closureOp) hTsub hTcl j
    have : P ⊆ clF f g ∅ := h ▸ hPT
    exact Finset.Subset.antisymm (Finset.Subset.antisymm this h0P ▸ hPT)
      (by rw [h]; exact h0P)
  · rw [hAT] at hQ1 hQ2 hQ3
    have hij : i = j := by
      refine chain_pred_unique (S.clF_closureOp) hTsub hTcl ?_ hQ2 ?_ hj1
      · rw [hQ1]; exact hQ3
      · rw [hj]; exact hjne
    apply hP
    refine ⟨Q, hQ, ?_⟩
    rw [← hQ1, hij, hj]

include S in
/-- A non-empty well-formed combination never closes to `cl ∅`. -/
theorem comb_empty_of_closure_empty {acc : List (List ℕ × List ℕ)}
    (hacc : GoodAcc f g acc) {comb : List ℕ} (hcomb : GoodComb n f g acc comb)
    (h : (g (f comb)).toFinset = clF f g ∅) : comb = [] := by
  rcases hcomb with h0 | ⟨C, gi, rfl, hC, hgi, hginot, -⟩
  · exact h0
  exfalso
  have hcl := S.clF_closureOp
  have hCval : ∀ x ∈ C, x < n := S.keys_valid hacc C hC
  have hsub : ∀ x ∈ C ++ [gi], x < n := by
    intro x hx
    rcases List.mem_append.mp hx with hx | hx
    · exact hCval x hx
    · rcases List.mem_singleton.mp hx with rfl
      exact hgi
  have hgmem : gi ∈ g (f (C ++ [gi])) :=
    S.gf_extensive _ hsub gi (List.mem_append.mpr (Or.inr (List.mem_singleton.mpr rfl)))
  have hgmem' : gi ∈ clF f g ∅ := by
    rw [← h, List.mem_toFinset]
    exact hgmem
  have hsub0 : clF f g ∅ ⊆ clF f g C.toFinset := hcl.mono (Finset.empty_subset _)
  rw [S.keys_closed hacc C hC] at hsub0
  have : gi ∈ C.toFinset := hsub0 hgmem'
  exact hginot (List.mem_toFinset.mp this)

end CboSpec

theorem cboMeasure_cons (elems : List ℕ) (c : List ℕ) (W : List (List ℕ)) :
    cboMeasure elems (c :: W) =
      (elems.length + 2) ^ combMu elems c + cboMeasure elems W := by
  simp [cboMeasure]

theorem cboMeasure_append (elems : List ℕ) (W₁ W₂ : List (List ℕ)) :
    cboMeasure elems (W₁ ++ W₂) = cboMeasure elems W₁ + cboMeasure elems W₂ := by
  simp [cboMeasure]

theorem combMu_concat (elems : List ℕ) (A : List ℕ) (gi : ℕ) :
    combMu elems (A ++ [gi]) = elems.countP (fun x => decide (gi < x)) := by
  unfold combMu
  rw [List.getLast?_concat]

/-- The children pushed for an accepted combination weigh strictly less
than the combination they replace, so the fuel used by the wrappers
suffices. -/
theorem cboMeasure_map_le (n : ℕ) (iterset : List ℕ) (F : List ℕ) (B : ℕ)
    (hB : ∀ gi ∈ F, (n + 2) ^ combMu (List.range n) (iterset ++ [gi]) ≤ B) :
    cboMeasure (List.range n) (F.map (fun gi => iterset ++ [gi])) ≤ F.length * B := by
  unfold cboMeasure
  rw [List.map_map]
  refine le_trans (List.sum_le_card_nsmul _ B ?_) ?_
  · intro x hx
    obtain ⟨gi, hgi, rfl⟩ := List.mem_map.mp hx
    simpa [Function.comp_def, List.length_range] using hB gi hgi
  · rw [smul_eq_mul, List.length_map]

/-- The children pushed for an accepted combination weigh strictly less
than the combination they replace, so the fuel used by the wrappers
suffices. -/
theorem cboMeasure_children_lt (n : ℕ) (comb iterset : List ℕ) :
    cboMeasure (List.range n)
      (((List.range n).filter (fun gi => !iterset.contains gi &&
          (match comb.getLast? with
           | none => true
           | some l => decide (l < gi)))).map (fun gi => iterset ++ [gi])) <
      (n + 2) ^ combMu (List.range n) comb := by
  have hpos : 0 < n + 2 := by omega
  cases hlast : comb.getLast? with
  | none =>
    have hmu : combMu (List.range n) comb = n + 1 := by
      unfold combMu
      rw [hlast, List.length_range]
    rw [hmu]
    have hlenF : ((List.range n).filter (fun gi => !iterset.contains gi && true)).length ≤ n :=
      le_trans (List.length_filter_le _ _) (le_of_eq (List.length_range n))
    refine lt_of_le_of_lt (cboMeasure_map_le n iterset _ ((n + 2) ^ n) ?_) ?_
    · intro gi hgi
      have hgin : gi < n := List.mem_range.mp (List.mem_of_mem_filter hgi)
      rw [combMu_concat, countP_range_gt]
      exact Nat.pow_le_pow_right (by omega) (by omega)
    · calc ((List.range n).filter (fun gi => !iterset.contains gi && true)).length *
            (n + 2) ^ n
          ≤ n * (n + 2) ^ n := Nat.mul_le_mul_right _ hlenF
        _ < (n + 2) * (n + 2) ^ n :=
            Nat.mul_lt_mul_of_lt_of_le (by omega) le_rfl (pow_pos hpos n)
        _ = (n + 2) ^ (n + 1) := by ring
  | some l =>
    have hmu : combMu (List.range n) comb = n - (l + 1) := by
      unfold combMu
      rw [hlast]
      exact countP_range_gt l n
    rw [hmu]
    by_cases hFnil :
        ((List.range n).filter (fun gi => !iterset.contains gi && decide (l < gi))) = []
    · rw [hFnil]
      simp only [List.map_nil]
      show cboMeasure (List.range n) [] < _
      unfold cboMeasure
      simp only [List.map_nil, List.sum_nil]
      exact pow_pos hpos (n - (l + 1))
    · obtain ⟨g0, hg0⟩ := List.exists_mem_of_ne_nil _ hFnil
      have hg0f := List.mem_filter.mp hg0
      have hg0n : g0 < n := List.mem_range.mp hg0f.1
      have hg0l : l < g0 := by
        have := hg0f.2
        rw [Bool.and_eq_true, decide_eq_true_eq] at this
        exact this.2
      have hln : l + 2 ≤ n := by omega
      have hlenF :
          ((List.range n).filter (fun gi => !iterset.contains gi && decide (l < gi))).length
            ≤ n :=
        le_trans (List.length_filter_le _ _) (le_of_eq (List.length_range n))
      refine lt_of_le_of_lt
        (cboMeasure_map_le n iterset _ ((n + 2) ^ (n - (l + 2))) ?_) ?_
      · intro gi hgi
        have hgif := List.mem_filter.mp hgi
        have hgin : gi < n := List.mem_range.mp hgif.1
        have hgil : l < gi := by
          have := hgif.2
          rw [Bool.and_eq_true, decide_eq_true_eq] at this
          exact this.2
        rw [combMu_concat, countP_range_gt]
        exact Nat.pow_le_pow_right (by omega) (by omega)
      · calc ((List.range n).filter
              (fun gi => !iterset.contains gi && decide (l < gi))).length *
              (n + 2) ^ (n - (l + 2))
            ≤ n * (n + 2) ^ (n - (l + 2)) := Nat.mul_le_mul_right _ hlenF
          _ < (n + 2) * (n + 2) ^ (n - (l + 2)) :=
              Nat.mul_lt_mul_of_lt_of_le (by omega) le_rfl (pow_pos hpos _)
          _ = (n + 2) ^ (n - (l + 2) + 1) := by ring
          _ = (n + 2) ^ (n - (l + 1)) := by
              congr 1
              omega

theorem cboLoop_nil (f g : List ℕ → List ℕ) (elems : List ℕ) (fuel : ℕ)
    (acc : List (List ℕ × List ℕ)) : cboLoop f g elems fuel [] acc = acc := by
  cases fuel <;> rfl

/-- The single-step unfolding of the Close-by-One loop on a non-empty
work list. -/
theorem cboLoop_cons (f g : List ℕ → List ℕ) (elems : List ℕ) (fuel : ℕ)
    (comb : List ℕ) (rest : List (List ℕ)) (acc : List (List ℕ × List ℕ)) :
    cboLoop f g elems (fuel + 1) (comb :: rest) acc =
      if ((match comb.getLast? with
           | none => false
           | some l => (pySortedSetDiff (g (f comb)) comb).any (fun x => decide (x < l))) ||
          acc.any (fun p => decide (p.1 = g (f comb)))) = true then
        cboLoop f g elems fuel rest acc
      else
        cboLoop f g elems fuel
          (((elems.filter (fun gi => !(g (f comb)).contains gi &&
              (match comb.getLast? with
               | none => true
               | some l => decide (l < gi)))).map (fun gi => (g (f comb)) ++ [gi])) ++ rest)
          (acc ++ [(g (f comb), f comb)]) := rfl

theorem cboKeys_append (acc : List (List ℕ × List ℕ)) (p : List ℕ × List ℕ) :
    cboKeys (acc ++ [p]) = cboKeys acc ++ [p.1] := by
  simp [cboKeys]

theorem InKeySets_append {acc : List (List ℕ × List ℕ)} {p : List ℕ × List ℕ}
    {s : Finset ℕ} :
    InKeySets (acc ++ [p]) s ↔ InKeySets acc s ∨ p.1.toFinset = s := by
  unfold InKeySets
  rw [cboKeys_append]
  constructor
  · rintro ⟨A, hA, hAs⟩
    rcases List.mem_append.mp hA with hA | hA
    · exact Or.inl ⟨A, hA, hAs⟩
    · rcases List.mem_singleton.mp hA with rfl
      exact Or.inr hAs
  · rintro (⟨A, hA, hAs⟩ | h)
    · exact ⟨A, List.mem_append.mpr (Or.inl hA), hAs⟩
    · exact ⟨p.1, List.mem_append.mpr (Or.inr (List.mem_singleton.mpr rfl)), h⟩

theorem GoodComb_mono {n : ℕ} {f g : List ℕ → List ℕ}
    {acc : List (List ℕ × List ℕ)} {p : List ℕ × List ℕ} {comb : List ℕ}
    (h : GoodComb n f g acc comb) : GoodComb n f g (acc ++ [p]) comb := by
  rcases h with h | ⟨C, gi, rfl, hC, h1, h2, h3⟩
  · exact Or.inl h
  · refine Or.inr ⟨C, gi, rfl, ?_, h1, h2, h3⟩
    rw [cboKeys_append]
    exact List.mem_append.mpr (Or.inl hC)

theorem toFinset_concat (l : List ℕ) (a : ℕ) :
    (l ++ [a]).toFinset = insert a l.toFinset := by
  ext x
  simp [or_comm]

/-- The master invariant theorem for the Close-by-One loop on a pair
satisfying `CboSpec`: started from a good state with enough fuel, the
loop ends with a good accumulator (sound, duplicate-free pairs) that
records every closed subset of `range n`. -/
theorem cboLoop_master {n : ℕ} {f g : List ℕ → List ℕ} (S : CboSpec n f g) :
    ∀ (fuel : ℕ) (W : List (List ℕ)) (acc : List (List ℕ × List ℕ)),
      cboMeasure (List.range n) W ≤ fuel →
      (∀ comb ∈ W, GoodComb n f g acc comb) →
      GoodAcc f g acc →
      (∀ D : Finset ℕ, D ⊆ Finset.range n → clF f g D = D →
        InKeySets acc D ∨ KWitness f g W acc D) →
      GoodAcc f g (cboLoop f g (List.range n) fuel W acc) ∧
      (∀ D : Finset ℕ, D ⊆ Finset.range n → clF f g D = D →
        InKeySets (cboLoop f g (List.range n) fuel W acc) D) := by
  have hcl := S.clF_closureOp
  intro fuel
  induction fuel with
  | zero =>
    intro W acc hmeas hWC hacc hK
    cases W with
    | nil =>
      rw [cboLoop_nil]
      refine ⟨hacc, fun D hD hDcl => ?_⟩
      rcases hK D hD hDcl with h | h
      · exact h
      · exfalso
        rcases h with ⟨h, -⟩ | ⟨i, -, h, -⟩ <;> cases h
    | cons comb rest =>
      exfalso
      rw [cboMeasure_cons] at hmeas
      have := pow_pos (show 0 < (List.range n).length + 2 by omega)
        (combMu (List.range n) comb)
      omega
  | succ fuel ih =>
    intro W acc hmeas hWC hacc hK
    cases W with
    | nil =>
      rw [cboLoop_nil]
      refine ⟨hacc, fun D hD hDcl => ?_⟩
      rcases hK D hD hDcl with h | h
      · exact h
      · exfalso
        rcases h with ⟨h, -⟩ | ⟨i, -, h, -⟩ <;> cases h
    | cons comb rest =>
      rw [cboMeasure_cons, List.length_range] at hmeas
      have hwpos := pow_pos (show 0 < n + 2 by omega)
        (combMu (List.range n) comb)
      have hcombG := hWC comb (List.mem_cons_self _ _)
      have hcombval : ∀ x ∈ comb, x < n := by
        rcases hcombG with h | ⟨C, gi, hce, hC, hgi, -, -⟩
        · rw [h]; intro x hx; cases hx
        · rw [hce]
          intro x hx
          rcases List.mem_append.mp hx with hx | hx
          · exact S.keys_valid hacc C hC x hx
          · rcases List.mem_singleton.mp hx with rfl
            exact hgi
      have hcombsub : comb.toFinset ⊆ Finset.range n := by
        intro x hx
        exact Finset.mem_range.mpr (hcombval x (List.mem_toFinset.mp hx))
      have hAset : (g (f comb)).toFinset = clF f g comb.toFinset := S.toFinset_gf comb
      have hAclosed : clF f g (g (f comb)).toFinset = (g (f comb)).toFinset := by
        rw [hAset]
        exact hcl.idem hcombsub
      have hAsub : (g (f comb)).toFinset ⊆ Finset.range n := by
        intro x hx
        exact Finset.mem_range.mpr (S.g_range _ x (List.mem_toFinset.mp hx))
      rw [cboLoop_cons]
      by_cases hcond :
          ((match comb.getLast? with
            | none => false
            | some l => (pySortedSetDiff (g (f comb)) comb).any (fun x => decide (x < l))) ||
           acc.any (fun p => decide (p.1 = g (f comb)))) = true
      · -- discard branch
        rw [if_pos hcond]
        refine ih rest acc (by omega) (fun c hc => hWC c (List.mem_cons_of_mem _ hc)) hacc ?_
        intro D hD hDcl
        rcases hK D hD hDcl with h | h
        · exact Or.inl h
        rcases h with ⟨h0mem, h0nk⟩ | ⟨i, hreal, hwmem, hnk⟩
        · rcases List.mem_cons.mp h0mem with hc0 | h0mem'
          · exfalso
            rw [← hc0] at hcond
            rw [Bool.or_eq_true] at hcond
            rcases hcond with hlex | hdup
            · simp at hlex
            · rw [List.any_eq_true] at hdup
              obtain ⟨p, hp, hpeq⟩ := hdup
              rw [decide_eq_true_eq] at hpeq
              apply h0nk
              refine ⟨p.1, List.mem_map.mpr ⟨p, hp, rfl⟩, ?_⟩
              rw [hpeq]
              rfl
          · exact Or.inr (Or.inl ⟨h0mem', h0nk⟩)
        · rcases List.mem_cons.mp hwmem with hwc | hwmem'
          · exfalso
            have hCi_closed : clF f g (chainSet (clF f g) D i) = chainSet (clF f g) D i :=
              chainSet_closed hcl hD hDcl i
            have hclLset : (clL f g (chainSet (clF f g) D i)).toFinset =
                chainSet (clF f g) D i := by
              rw [clL_toFinset, hCi_closed]
            have hcombset : comb.toFinset =
                insert (chainGen (clF f g) D i) (chainSet (clF f g) D i) := by
              rw [← hwc, toFinset_concat, hclLset]
            have hAeq : (g (f comb)).toFinset = chainSet (clF f g) D (i + 1) := by
              rw [hAset, hcombset, ← chainSet_succ_of_nonempty hcl hD hDcl hreal]
            have hlastc : comb.getLast? = some (chainGen (clF f g) D i) := by
              rw [← hwc]
              exact List.getLast?_concat _
            rw [Bool.or_eq_true] at hcond
            rcases hcond with hlex | hdup
            · rw [hlastc, List.any_eq_true] at hlex
              obtain ⟨x, hx, hxlt⟩ := hlex
              rw [decide_eq_true_eq] at hxlt
              rw [mem_pySortedSetDiff] at hx
              have hxin : x ∈ chainSet (clF f g) D (i + 1) := by
                rw [← hAeq, List.mem_toFinset]
                exact hx.1
              have hxC := chainGen_lex hcl hD hDcl hreal x hxin hxlt
              apply hx.2
              rw [← hwc]
              apply List.mem_append.mpr
              left
              rw [← List.mem_toFinset, hclLset]
              exact hxC
            · rw [List.any_eq_true] at hdup
              obtain ⟨p, hp, hpeq⟩ := hdup
              rw [decide_eq_true_eq] at hpeq
              apply hnk
              refine ⟨p.1, List.mem_map.mpr ⟨p, hp, rfl⟩, ?_⟩
              rw [hpeq, hAeq]
          · exact Or.inr (Or.inr ⟨i, hreal, hwmem', hnk⟩)
      · -- accept branch
        rw [if_neg hcond]
        rw [Bool.or_eq_true] at hcond
        push_neg at hcond
        obtain ⟨hlexF, hdupF0⟩ := hcond
        have hdupF : ∀ p ∈ acc, p.1 ≠ g (f comb) := by
          intro p hp hpe
          exact hdupF0 (List.any_eq_true.mpr ⟨p, hp, decide_eq_true_eq.mpr hpe⟩)
        have hAnotkeys : ¬InKeySets acc ((g (f comb)).toFinset) :=
          S.not_inKeySets_of_not_dup hacc hdupF
        have hAmemkeys : g (f comb) ∈ cboKeys (acc ++ [(g (f comb), f comb)]) := by
          rw [cboKeys_append]
          exact List.mem_append.mpr (Or.inr (List.mem_singleton.mpr rfl))
        -- sound pairs and duplicate-freeness of the new accumulator
        have haccpairs : ∀ p ∈ acc ++ [(g (f comb), f comb)],
            p.2 = f p.1 ∧ p.1 = g p.2 := by
          intro p hp
          rcases List.mem_append.mp hp with hp | hp
          · exact hacc.1 p hp
          · rcases List.mem_singleton.mp hp with rfl
            exact ⟨(S.fgf comb hcombval).symm, rfl⟩
        have hacckeysnd : (cboKeys (acc ++ [(g (f comb), f comb)])).Nodup := by
          rw [cboKeys_append, List.nodup_append]
          refine ⟨hacc.2.1, List.nodup_singleton _, ?_⟩
          intro a ha hamem
          rcases List.mem_singleton.mp hamem with rfl
          obtain ⟨p, hp, hpa⟩ := List.mem_map.mp ha
          exact hdupF p hp hpa
        -- case split on the shape of the accepted combination
        rcases hcombG with hce | ⟨C, gi, hce, hCkeys, hgilt, hginot, hgens⟩
        · -- the empty combination was accepted: its closure is cl ∅
          subst hce
          have hA0 : (g (f [])).toFinset = clF f g ∅ := hAset
          have hstab0 : ∀ i, chainSet (clF f g) (g (f [])).toFinset i =
              (g (f [])).toFinset := by
            intro i
            refine @chainSet_stab _ _ hcl _ hAsub hAclosed 0 ?_ i (Nat.zero_le i)
            exact hA0.symm
          have hgacc' : GoodAcc f g (acc ++ [(g (f []), f [])]) := by
            refine ⟨haccpairs, hacckeysnd, ?_⟩
            intro A hA
            rw [cboKeys_append] at hA
            rcases List.mem_append.mp hA with hA | hA
            · rcases hacc.2.2 A hA with h | ⟨P, hP, i, h1, h2, h3⟩
              · exact Or.inl h
              · refine Or.inr ⟨P, ?_, i, h1, h2, h3⟩
                rw [cboKeys_append]
                exact List.mem_append.mpr (Or.inl hP)
            · rcases List.mem_singleton.mp hA with rfl
              exact Or.inl hA0
          refine ih _ _ ?_ ?_ hgacc' ?_
          · rw [cboMeasure_append]
            have := cboMeasure_children_lt n [] (g (f []))
            omega
          · intro c hc
            rcases List.mem_append.mp hc with hc | hc
            · obtain ⟨gi', hgi', rfl⟩ := List.mem_map.mp hc
              have hgi'f := List.mem_filter.mp hgi'
              have hgi'n : gi' < n := List.mem_range.mp hgi'f.1
              have hgi'notA : gi' ∉ g (f []) := by
                have := hgi'f.2
                rw [Bool.and_eq_true] at this
                simpa using this.1
              refine Or.inr ⟨g (f []), gi', rfl, hAmemkeys, hgi'n, hgi'notA, ?_⟩
              intro i hi
              exact absurd (hstab0 i) hi
            · exact GoodComb_mono (hWC c (List.mem_cons_of_mem _ hc))
          · -- completeness invariant after accepting the empty combination
            intro D hD hDcl
            have hzeroD : chainSet (clF f g) D 0 = clF f g ∅ := rfl
            by_cases hDA : D = (g (f [])).toFinset
            · exact Or.inl ⟨g (f []), hAmemkeys, hDA.symm⟩
            · -- D is not cl ∅: start its chain from the new key
              have hClD : clF f g ∅ ⊆ D := by
                have : clF f g ∅ ⊆ clF f g D := hcl.mono (Finset.empty_subset _)
                rw [hDcl] at this
                exact this
              have hreal0 : (D \ chainSet (clF f g) D 0).Nonempty := by
                rw [hzeroD, Finset.sdiff_nonempty]
                intro hsub
                exact hDA (Finset.Subset.antisymm (by rw [hA0]; exact hsub)
                  (by rw [hA0]; exact hClD))
              have hgen0 := chainGen_mem hcl hD hDcl hreal0
              have hclL0 : clL f g (chainSet (clF f g) D 0) = g (f []) := by
                apply S.g_canon
                show (clL f g _).toFinset = _
                rw [clL_toFinset, hzeroD, hcl.idem (Finset.empty_subset _), hA0]
              refine Or.inr (Or.inr ⟨0, hreal0, ?_, ?_⟩)
              · apply List.mem_append.mpr
                left
                apply List.mem_map.mpr
                refine ⟨chainGen (clF f g) D 0, ?_, by rw [hclL0]⟩
                rw [List.mem_filter]
                refine ⟨List.mem_range.mpr (Finset.mem_range.mp (hD hgen0.1)), ?_⟩
                rw [Bool.and_eq_true]
                constructor
                · simp only [Bool.not_eq_true']
                  rw [← Bool.not_eq_true]
                  intro hco
                  apply hgen0.2
                  rw [hzeroD, ← hA0, List.mem_toFinset]
                  simpa using hco
                · rfl
              · -- chainSet D 1 is recorded by nobody
                rw [InKeySets_append]
                push_neg
                constructor
                · have hgrow := chainSet_grow hcl hD hDcl hreal0
                  refine @CboSpec.not_inKeySets_of_pred _ _ _ S _ hacc
                    (chainSet (clF f g) D 1) (clF f g ∅) 0
                    ((chainSet_subset_target hcl hD hDcl 1).trans hD)
                    (chainSet_closed hcl hD hDcl 1) rfl ?_ ?_ ?_ subset_rfl
                  · intro hcon
                    apply hgen0.2
                    rw [hzeroD, hcon]
                    exact hgrow.2.1
                  · exact chain_prefix_sets hcl hD hDcl 1 1 le_rfl
                  · rw [← hA0]
                    exact hAnotkeys
                · intro hcon
                  apply hgen0.2
                  rw [hzeroD, ← hA0, hcon]
                  exact (chainSet_grow hcl hD hDcl hreal0).2.1
        · -- a combination `C ++ [gi]` was accepted
          subst hce
          have hlastc : (C ++ [gi]).getLast? = some gi := List.getLast?_concat _
          have hCsub : C.toFinset ⊆ Finset.range n := by
            intro x hx
            exact Finset.mem_range.mpr (S.keys_valid hacc C hCkeys x (List.mem_toFinset.mp hx))
          have hCcl : clF f g C.toFinset = C.toFinset := S.keys_closed hacc C hCkeys
          have hcombset : (C ++ [gi]).toFinset = insert gi C.toFinset := toFinset_concat _ _
          have hginotF : gi ∉ C.toFinset := fun hc => hginot (List.mem_toFinset.mp hc)
          have hlexF' : ∀ x ∈ pySortedSetDiff (g (f (C ++ [gi]))) (C ++ [gi]), ¬x < gi := by
            intro x hx hxlt
            apply hlexF
            rw [hlastc, List.any_eq_true]
            exact ⟨x, hx, decide_eq_true_eq.mpr hxlt⟩
          have hlexSet : ∀ x ∈ clF f g (insert gi C.toFinset), x < gi → x ∈ C.toFinset := by
            intro x hx hxlt
            rw [← hcombset, ← hAset, List.mem_toFinset] at hx
            by_cases hxc : x ∈ C ++ [gi]
            · rcases List.mem_append.mp hxc with hxc | hxc
              · exact List.mem_toFinset.mpr hxc
              · rcases List.mem_singleton.mp hxc with rfl
                omega
            · exact absurd hxlt (hlexF' x (mem_pySortedSetDiff.mpr ⟨hx, hxc⟩))
          obtain ⟨m, hm1, hm2, hm3, hm4, hm5, hm6, hm7, hm8⟩ :=
            chain_extend hcl hCsub hCcl hgilt hginotF hgens hlexSet
          have hAeqIns : (g (f (C ++ [gi]))).toFinset = clF f g (insert gi C.toFinset) := by
            rw [hAset, hcombset]
          rw [← hAeqIns] at hm1 hm2 hm4 hm5 hm6 hm7 hm8
          have hgacc' : GoodAcc f g (acc ++ [(g (f (C ++ [gi])), f (C ++ [gi]))]) := by
            refine ⟨haccpairs, hacckeysnd, ?_⟩
            intro A hA
            rw [cboKeys_append] at hA
            rcases List.mem_append.mp hA with hA | hA
            · rcases hacc.2.2 A hA with h | ⟨P, hP, i, h1, h2, h3⟩
              · exact Or.inl h
              · refine Or.inr ⟨P, ?_, i, h1, h2, h3⟩
                rw [cboKeys_append]
                exact List.mem_append.mpr (Or.inl hP)
            · rcases List.mem_singleton.mp hA with rfl
              refine Or.inr ⟨C, ?_, m, hm1, hm5, hm7⟩
              rw [cboKeys_append]
              exact List.mem_append.mpr (Or.inl hCkeys)
          refine ih _ _ ?_ ?_ hgacc' ?_
          · rw [cboMeasure_append]
            have := cboMeasure_children_lt n (C ++ [gi]) (g (f (C ++ [gi])))
            omega
          · intro c hc
            rcases List.mem_append.mp hc with hc | hc
            · obtain ⟨gi', hgi', rfl⟩ := List.mem_map.mp hc
              have hgi'f := List.mem_filter.mp hgi'
              have hgi'n : gi' < n := List.mem_range.mp hgi'f.1
              have hcondpair := hgi'f.2
              rw [Bool.and_eq_true] at hcondpair
              have hgi'notA : gi' ∉ g (f (C ++ [gi])) := by
                have := hcondpair.1
                simpa using this
              have hgigt : gi < gi' := by
                have := hcondpair.2
                rw [hlastc] at this
                rw [decide_eq_true_eq] at this
                exact this
              refine Or.inr ⟨g (f (C ++ [gi])), gi', rfl, hAmemkeys, hgi'n, hgi'notA, ?_⟩
              intro i hi
              have := hm8 i hi
              omega
            · exact GoodComb_mono (hWC c (List.mem_cons_of_mem _ hc))
          · -- completeness invariant after accepting `C ++ [gi]`
            intro D hD hDcl
            rcases hK D hD hDcl with h | h
            · rcases h with ⟨A, hA, hAD⟩
              refine Or.inl ⟨A, ?_, hAD⟩
              rw [cboKeys_append]
              exact List.mem_append.mpr (Or.inl hA)
            rcases h with ⟨h0mem, h0nk⟩ | ⟨i, hreal, hwmem, hnk⟩
            · -- the [] witness survives: [] is not the accepted combination
              have h0mem' : ([] : List ℕ) ∈ rest := by
                rcases List.mem_cons.mp h0mem with hc0 | h
                · exact absurd hc0.symm (by simp)
                · exact h
              refine Or.inr (Or.inl ⟨List.mem_append.mpr (Or.inr h0mem'), ?_⟩)
              rw [InKeySets_append]
              push_neg
              refine ⟨h0nk, ?_⟩
              intro hcon
              have : (C ++ [gi] : List ℕ) = [] :=
                S.comb_empty_of_closure_empty hacc
                  (Or.inr ⟨C, gi, rfl, hCkeys, hgilt, hginot, hgens⟩) hcon
              simp at this
            · -- the chain witness at step i
              by_cases hAT : (g (f (C ++ [gi]))).toFinset = chainSet (clF f g) D (i + 1)
              · -- the accepted closure is exactly the witness's next chain set
                by_cases hDA : D = (g (f (C ++ [gi]))).toFinset
                · exact Or.inl ⟨g (f (C ++ [gi])), hAmemkeys, hDA.symm⟩
                · have hreal1 : (D \ chainSet (clF f g) D (i + 1)).Nonempty := by
                    rw [Finset.sdiff_nonempty]
                    intro hsub
                    exact hDA (Finset.Subset.antisymm
                      (by rw [hAT]; exact hsub)
                      (by rw [hAT]; exact chainSet_subset_target hcl hD hDcl (i + 1)))
                  have hgen1 := chainGen_mem hcl hD hDcl hreal1
                  have hclL1 : clL f g (chainSet (clF f g) D (i + 1)) = g (f (C ++ [gi])) := by
                    apply S.g_canon
                    show (clL f g _).toFinset = _
                    rw [clL_toFinset, chainSet_closed hcl hD hDcl (i + 1), hAT]
                  -- the accepted combination's last element is the chain's
                  -- generator at step i, so the next generator is larger
                  have hprefix := chain_prefix_sets hcl hD hDcl (i + 1)
                  have hAT' : ∀ j, j ≤ i + 1 →
                      chainSet (clF f g) ((g (f (C ++ [gi]))).toFinset) j =
                        chainSet (clF f g) D j := by
                    intro j hj
                    rw [hAT]
                    exact hprefix j hj
                  have hgrow := chainSet_grow hcl hD hDcl hreal
                  have hpredi : chainSet (clF f g) ((g (f (C ++ [gi]))).toFinset) i ≠
                      (g (f (C ++ [gi]))).toFinset := by
                    rw [hAT' i (Nat.le_succ i), hAT]
                    intro hcon
                    apply hgrow.2.2
                    rw [hcon]
                    exact hgrow.2.1
                  have hpredi1 : chainSet (clF f g) ((g (f (C ++ [gi]))).toFinset) (i + 1) =
                      (g (f (C ++ [gi]))).toFinset := by
                    rw [hAT' (i + 1) le_rfl, hAT]
                  have hmi : m = i := by
                    refine chain_pred_unique hcl hAsub hAclosed ?_ hm5 hpredi hpredi1
                    rw [hm1]
                    exact hm7
                  have hgi_eq : gi = chainGen (clF f g) D i := by
                    have h1 : chainGen (clF f g) ((g (f (C ++ [gi]))).toFinset) i =
                        chainGen (clF f g) D i := by
                      rw [hAT]
                      exact chain_prefix_gen hcl hD hDcl (Nat.lt_succ_self i) hreal
                    rw [← h1, ← hmi]
                    exact hm4.symm
                  have hgenlt : chainGen (clF f g) D i < chainGen (clF f g) D (i + 1) :=
                    chainGen_strict_mono hcl hD hDcl (Nat.lt_succ_self i) hreal hreal1
                  refine Or.inr (Or.inr ⟨i + 1, hreal1, ?_, ?_⟩)
                  · apply List.mem_append.mpr
                    left
                    apply List.mem_map.mpr
                    refine ⟨chainGen (clF f g) D (i + 1), ?_, by rw [hclL1]⟩
                    rw [List.mem_filter]
                    refine ⟨List.mem_range.mpr (Finset.mem_range.mp (hD hgen1.1)), ?_⟩
                    rw [Bool.and_eq_true]
                    constructor
                    · simp only [Bool.not_eq_true']
                      rw [← Bool.not_eq_true]
                      intro hco
                      apply hgen1.2
                      rw [← hAT, List.mem_toFinset]
                      simpa using hco
                    · rw [hlastc, decide_eq_true_eq]
                      omega
                  · rw [InKeySets_append]
                    push_neg
                    have hgrow1 := chainSet_grow hcl hD hDcl hreal1
                    constructor
                    · refine @CboSpec.not_inKeySets_of_pred _ _ _ S _ hacc
                        (chainSet (clF f g) D (i + 2))
                        (chainSet (clF f g) D (i + 1)) (i + 1)
                        ((chainSet_subset_target hcl hD hDcl (i + 2)).trans hD)
                        (chainSet_closed hcl hD hDcl (i + 2)) ?_ ?_ ?_ ?_ ?_
                      · exact chain_prefix_sets hcl hD hDcl (i + 2) (i + 1)
                          (Nat.le_succ (i + 1))
                      · intro hcon
                        apply hgrow1.2.2
                        rw [hcon]
                        exact hgrow1.2.1
                      · exact chain_prefix_sets hcl hD hDcl (i + 2) (i + 2) le_rfl
                      · rw [← hAT]
                        exact hAnotkeys
                      · calc clF f g ∅ = chainSet (clF f g) D 0 := rfl
                          _ ⊆ chainSet (clF f g) D (i + 1) :=
                            chainSet_mono hcl hD hDcl (Nat.zero_le _)
                    · intro hcon
                      apply hgrow1.2.2
                      rw [← hAT, hcon]
                      exact hgrow1.2.1
              · -- the accepted closure is a different set: the witness survives
                have hwmem' : clL f g (chainSet (clF f g) D i) ++ [chainGen (clF f g) D i] ∈
                    rest := by
                  rcases List.mem_cons.mp hwmem with hwc | h
                  · exfalso
                    apply hAT
                    have hCi_closed : clF f g (chainSet (clF f g) D i) =
                        chainSet (clF f g) D i := chainSet_closed hcl hD hDcl i
                    have hclLset : (clL f g (chainSet (clF f g) D i)).toFinset =
                        chainSet (clF f g) D i := by
                      rw [clL_toFinset, hCi_closed]
                    have hcombset2 : (C ++ [gi]).toFinset =
                        insert (chainGen (clF f g) D i) (chainSet (clF f g) D i) := by
                      rw [← hwc, toFinset_concat, hclLset]
                    rw [hAset, hcombset2, ← chainSet_succ_of_nonempty hcl hD hDcl hreal]
                  · exact h
                refine Or.inr (Or.inr ⟨i, hreal, List.mem_append.mpr (Or.inr hwmem'), ?_⟩)
                rw [InKeySets_append]
                push_neg
                exact ⟨hnk, fun hcon => hAT hcon⟩

/-- The Close-by-One specification holds for the `iterate_extents=True`
direction: the side function is `intention_i`, the iterated closure is
`extension_i`, elements are object indexes. -/
theorem cboSpecTrue (ctx : FormalContext) :
    CboSpec ctx.n_objects ctx.intention_i ctx.extension_i := by
  constructor
  · intro l₁ l₂ h
    exact FormalContext.intention_i_set_congr h
  · intro l
    exact List.Pairwise.sublist (List.filter_sublist _) (List.sorted_lt_range _)
  · intro l x hx
    exact (FormalContext.mem_extension_i.mp hx).1
  · intro l hl x hx
    exact FormalContext.subset_extension_intention hl x hx
  · intro l₁ l₂ hsub x hx
    rw [FormalContext.mem_extension_i] at hx ⊢
    refine ⟨hx.1, fun m hm => ?_⟩
    apply hx.2
    rw [FormalContext.mem_intention_i] at hm ⊢
    exact ⟨hm.1, fun g hg => hm.2 g (hsub g hg)⟩
  · intro l hl
    exact FormalContext.intention_extension_intention hl

/-- The Close-by-One specification holds for the `iterate_extents=False`
direction: the side function is `extension_i`, the iterated closure is
`intention_i`, elements are attribute indexes. -/
theorem cboSpecFalse (ctx : FormalContext) :
    CboSpec ctx.n_attributes ctx.extension_i ctx.intention_i := by
  constructor
  · intro l₁ l₂ h
    exact FormalContext.extension_i_set_congr h
  · intro l
    exact List.Pairwise.sublist (List.filter_sublist _) (List.sorted_lt_range _)
  · intro l x hx
    exact (FormalContext.mem_intention_i.mp hx).1
  · intro l hl x hx
    exact FormalContext.subset_intention_extension hl x hx
  · intro l₁ l₂ hsub x hx
    rw [FormalContext.mem_intention_i] at hx ⊢
    refine ⟨hx.1, fun g hg => ?_⟩
    apply hx.2
    rw [FormalContext.mem_extension_i] at hg ⊢
    exact ⟨hg.1, fun m hm => hg.2 m (hsub m hm)⟩
  · intro l hl
    exact FormalContext.extension_intention_extension hl

/-- The `iterate_extents=True` run ends in a good accumulator and records
every closed object set. -/
theorem cboRecordedTrue_good (ctx : FormalContext) :
    GoodAcc ctx.intention_i ctx.extension_i (cboRecordedTrue ctx) ∧
    ∀ D : Finset ℕ, D ⊆ Finset.range ctx.n_objects →
      clF ctx.intention_i ctx.extension_i D = D →
      InKeySets (cboRecordedTrue ctx) D := by
  unfold cboRecordedTrue
  refine cboLoop_master (cboSpecTrue ctx) _ [[]] [] le_rfl ?_ ?_ ?_
  · intro comb hc
    rcases List.mem_singleton.mp hc with rfl
    exact Or.inl rfl
  · refine ⟨?_, ?_, ?_⟩ <;> simp [cboKeys]
  · intro D hD hDcl
    refine Or.inr (Or.inl ⟨List.mem_singleton.mpr rfl, ?_⟩)
    rintro ⟨A, hA, -⟩
    simp [cboKeys] at hA

/-- The `iterate_extents=False` run ends in a good accumulator and
records every closed attribute set. -/
theorem cboRecordedFalse_good (ctx : FormalContext) :
    GoodAcc ctx.extension_i ctx.intention_i (cboRecordedFalse ctx) ∧
    ∀ D : Finset ℕ, D ⊆ Finset.range ctx.n_attributes →
      clF ctx.extension_i ctx.intention_i D = D →
      InKeySets (cboRecordedFalse ctx) D := by
  unfold cboRecordedFalse
  refine cboLoop_master (cboSpecFalse ctx) _ [[]] [] le_rfl ?_ ?_ ?_
  · intro comb hc
    rcases List.mem_singleton.mp hc with rfl
    exact Or.inl rfl
  · refine ⟨?_, ?_, ?_⟩ <;> simp [cboKeys]
  · intro D hD hDcl
    refine Or.inr (Or.inl ⟨List.mem_singleton.mpr rfl, ?_⟩)
    rintro ⟨A, hA, -⟩
    simp [cboKeys] at hA

/-- An extent of the `True` run is exactly a closed object set. -/
theorem mem_cbo_extents_true (ctx : FormalContext) (s : Finset ℕ) :
    s ∈ ((close_by_one_data ctx true).1.map List.toFinset) ↔
      s ⊆ Finset.range ctx.n_objects ∧
        clF ctx.intention_i ctx.extension_i s = s := by
  obtain ⟨hgood, hcomp⟩ := cboRecordedTrue_good ctx
  rw [close_by_one_data_true]
  simp only
  constructor
  · intro hs
    obtain ⟨K, hK, rfl⟩ := List.mem_map.mp hs
    constructor
    · intro x hx
      exact Finset.mem_range.mpr
        ((cboSpecTrue ctx).keys_valid hgood K hK x (List.mem_toFinset.mp hx))
    · exact (cboSpecTrue ctx).keys_closed hgood K hK
  · rintro ⟨hsub, hcl⟩
    obtain ⟨A, hA, hAs⟩ := hcomp s hsub hcl
    exact List.mem_map.mpr ⟨A, hA, hAs⟩

/-- An extent of the `False` run is also exactly a closed object set: the
extents are the sidesets, and `extension_i` is a bijection from closed
attribute sets onto closed object sets. -/
theorem mem_cbo_extents_false (ctx : FormalContext) (s : Finset ℕ) :
    s ∈ ((close_by_one_data ctx false).1.map List.toFinset) ↔
      s ⊆ Finset.range ctx.n_objects ∧
        clF ctx.intention_i ctx.extension_i s = s := by
  obtain ⟨hgood, hcomp⟩ := cboRecordedFalse_good ctx
  rw [close_by_one_data_false]
  simp only
  constructor
  · intro hs
    obtain ⟨B, hB, rfl⟩ := List.mem_map.mp hs
    obtain ⟨p, hp, rfl⟩ := List.mem_map.mp hB
    obtain ⟨hp2, hp1⟩ := hgood.1 p hp
    constructor
    · intro x hx
      rw [List.mem_toFinset, hp2] at hx
      exact Finset.mem_range.mpr (FormalContext.mem_extension_i.mp hx).1
    · show (ctx.extension_i (ctx.intention_i (finsetSortedList p.2.toFinset))).toFinset = _
      have hcongr : ctx.intention_i (finsetSortedList p.2.toFinset) =
          ctx.intention_i p.2 :=
        FormalContext.intention_i_set_congr (fun x => by
          rw [mem_finsetSortedList, List.mem_toFinset])
      have hrange : ∀ m ∈ p.1, m < ctx.n_attributes := by
        rw [hp1]
        intro m hm
        exact (FormalContext.mem_intention_i.mp hm).1
      rw [hcongr, hp2, FormalContext.extension_intention_extension hrange]
  · rintro ⟨hsub, hcl⟩
    have hrangeS : ∀ g ∈ finsetSortedList s, g < ctx.n_objects := by
      intro g hg
      exact Finset.mem_range.mp (hsub (mem_finsetSortedList.mp hg))
    have hBsub : (ctx.intention_i (finsetSortedList s)).toFinset ⊆
        Finset.range ctx.n_attributes := by
      intro x hx
      rw [List.mem_toFinset] at hx
      exact Finset.mem_range.mpr (FormalContext.mem_intention_i.mp hx).1
    have hBcl : clF ctx.extension_i ctx.intention_i
        ((ctx.intention_i (finsetSortedList s)).toFinset) =
        (ctx.intention_i (finsetSortedList s)).toFinset := by
      show (ctx.intention_i (ctx.extension_i (finsetSortedList
        ((ctx.intention_i (finsetSortedList s)).toFinset)))).toFinset = _
      have hcongr2 : ctx.extension_i (finsetSortedList
          ((ctx.intention_i (finsetSortedList s)).toFinset)) =
          ctx.extension_i (ctx.intention_i (finsetSortedList s)) :=
        FormalContext.extension_i_set_congr (fun x => by
          rw [mem_finsetSortedList, List.mem_toFinset])
      rw [hcongr2, FormalContext.intention_extension_intention hrangeS]
    obtain ⟨K, hKkeys, hKB⟩ := hcomp _ hBsub hBcl
    obtain ⟨p, hp, hpK⟩ := List.mem_map.mp hKkeys
    obtain ⟨hp2, hp1⟩ := hgood.1 p hp
    refine List.mem_map.mpr ⟨p.2, List.mem_map.mpr ⟨p, hp, rfl⟩, ?_⟩
    have hPB : p.1.toFinset = (ctx.intention_i (finsetSortedList s)).toFinset := by
      rw [hpK, hKB]
    have hKeq : ctx.extension_i p.1 =
        ctx.extension_i (ctx.intention_i (finsetSortedList s)) :=
      FormalContext.extension_i_set_congr (fun x => by
        rw [← List.mem_toFinset, hPB, List.mem_toFinset])
    have hs' : (ctx.extension_i (ctx.intention_i (finsetSortedList s))).toFinset = s := hcl
    rw [hp2, hKeq]
    exact hs'

/-- The `True` run lists no two entries with the same extent set. -/
theorem cbo_extents_nodup_true (ctx : FormalContext) :
    ((close_by_one_data ctx true).1.map List.toFinset).Nodup := by
  obtain ⟨hgood, -⟩ := cboRecordedTrue_good ctx
  rw [close_by_one_data_true]
  simp only
  refine List.Nodup.map_on ?_ hgood.2.1
  intro A hA B hB hset
  exact (cboSpecTrue ctx).keys_set_inj hgood hA hB hset

/-- The `False` run lists no two entries with the same extent set. -/
theorem cbo_extents_nodup_false (ctx : FormalContext) :
    ((close_by_one_data ctx false).1.map List.toFinset).Nodup := by
  obtain ⟨hgood, -⟩ := cboRecordedFalse_good ctx
  rw [close_by_one_data_false]
  simp only
  rw [List.map_map]
  refine List.Nodup.map_on ?_ (List.Nodup.of_map Prod.fst hgood.2.1)
  intro p hp q hq hset
  have hset' : p.2.toFinset = q.2.toFinset := hset
  obtain ⟨hp2, hp1⟩ := hgood.1 p hp
  obtain ⟨hq2, hq1⟩ := hgood.1 q hq
  have hint : ctx.intention_i p.2 = ctx.intention_i q.2 :=
    FormalContext.intention_i_set_congr (fun x => by
      rw [← List.mem_toFinset, hset', List.mem_toFinset])
  have h1 : p.1 = q.1 := by rw [hp1, hq1, hint]
  have h2 : p.2 = q.2 := by rw [hp2, hq2, h1]
  exact Prod.ext h1 h2

/-- Claim C1: on every `FormalContext`, `close_by_one` enumerates each
distinct closed iteration-side set exactly once.  In both directions the
returned `(extents_i, intents_i)` data contains no two entries with the
same extent index set, and the family of extent index sets produced with
`iterate_extents=True` equals the family produced with
`iterate_extents=False`. -/
theorem claim_C1_duplicate_free_direction_equal (ctx : FormalContext) :
    (∀ it : Bool, ((close_by_one_data ctx it).1.map List.toFinset).Nodup) ∧
    ((close_by_one_data ctx true).1.map List.toFinset).toFinset =
      ((close_by_one_data ctx false).1.map List.toFinset).toFinset := by
  constructor
  · intro it
    cases it
    · exact cbo_extents_nodup_false ctx
    · exact cbo_extents_nodup_true ctx
  · apply Finset.ext
    intro s
    rw [List.mem_toFinset, List.mem_toFinset, mem_cbo_extents_true,
      mem_cbo_extents_false]

/-- Witness for C2: the concept with extent `{0}` and intent `{0, 1}` is
returned by `close_by_one` on `ctxW`, and the theorem's Galois conditions
hold for it. -/
theorem claim_C2_concepts_galois_closed_witness :
    (⟨{0}, {"g0"}, {0, 1}, {"m0", "m1"}, some ctxW.hash_fixed, false⟩ : FormalConcept) ∈
        close_by_one_concepts ctxW true ∧
    ((ctxW.intention_i ((({0} : Finset ℕ)).sort (· ≤ ·))).toFinset = ({0, 1} : Finset ℕ) ∧
     (ctxW.extension_i ((({0, 1} : Finset ℕ)).sort (· ≤ ·))).toFinset = ({0} : Finset ℕ)) :=
  ⟨by decide, claim_C2_concepts_galois_closed ctxW true
    ⟨{0}, {"g0"}, {0, 1}, {"m0", "m1"}, some ctxW.hash_fixed, false⟩ (by decide)⟩

theorem finsetSortedList_toFinset (s : Finset ℕ) : (finsetSortedList s).toFinset = s := by
  ext x
  rw [List.mem_toFinset, mem_finsetSortedList]

theorem finsetSortedList_nodup (s : Finset ℕ) : (finsetSortedList s).Nodup := by
  obtain ⟨val, nodup⟩ := s
  obtain ⟨l⟩ := val
  show (l.insertionSort (· ≤ ·)).Nodup
  exact (List.perm_insertionSort _ l).nodup_iff.mpr nodup

theorem lindigDSEAux_nil (f g : List ℕ → List ℕ) (E : Finset ℕ) (reps : Finset ℕ)
    (acc : List (List ℕ × List ℕ)) : lindigDSEAux f g E [] reps acc = acc := rfl

theorem lindigDSEAux_cons (f g : List ℕ → List ℕ) (E : Finset ℕ) (gi : ℕ)
    (rest : List ℕ) (reps : Finset ℕ) (acc : List (List ℕ × List ℕ)) :
    lindigDSEAux f g E (gi :: rest) reps acc =
      if (reps ∩ (g (f (finsetSortedList (insert gi E)))).toFinset).card = 1 then
        lindigDSEAux f g E rest reps
          (acc ++ [(g (f (finsetSortedList (insert gi E))),
            f (finsetSortedList (insert gi E)))])
      else lindigDSEAux f g E rest (reps.erase gi) acc := rfl

theorem lindigProcess_nil (queue concepts : List (List ℕ × List ℕ)) :
    lindigProcess [] queue concepts = (queue, concepts) := rfl

theorem lindigProcess_cons (x : List ℕ × List ℕ)
    (rest queue concepts : List (List ℕ × List ℕ)) :
    lindigProcess (x :: rest) queue concepts =
      if concepts.any (fun p => decide (p.1.toFinset = x.1.toFinset)) then
        lindigProcess rest queue concepts
      else lindigProcess rest (queue ++ [x]) (concepts ++ [x]) := rfl

theorem lindigLoop_nil (f g : List ℕ → List ℕ) (n : ℕ) (ord : Finset ℕ → List ℕ)
    (pick : List (List ℕ × List ℕ) → ℕ) (fuel : ℕ)
    (concepts : List (List ℕ × List ℕ)) :
    lindigLoop f g n ord pick fuel [] concepts = concepts := by
  cases fuel <;> rfl

theorem lindigLoop_cons (f g : List ℕ → List ℕ) (n : ℕ) (ord : Finset ℕ → List ℕ)
    (pick : List (List ℕ × List ℕ) → ℕ) (fuel : ℕ) (q : List ℕ × List ℕ)
    (qs concepts : List (List ℕ × List ℕ)) {i : ℕ} {c : List ℕ × List ℕ}
    (hi : i = pick (q :: qs) % (q :: qs).length)
    (hc : c = (q :: qs).getD i ([], [])) :
    lindigLoop f g n ord pick (fuel + 1) (q :: qs) concepts =
      lindigLoop f g n ord pick fuel
        (lindigProcess
          (lindigDSE f g n c.1.toFinset (ord (Finset.range n \ c.1.toFinset)))
          ((q :: qs).eraseIdx i) concepts).1
        (lindigProcess
          (lindigDSE f g n c.1.toFinset (ord (Finset.range n \ c.1.toFinset)))
          ((q :: qs).eraseIdx i) concepts).2 := by
  subst hi hc
  rfl

/-- Below every closed set strictly above `E` there is an upper
neighbour of `E`. -/
theorem cover_exists {n : ℕ} {cl : Finset ℕ → Finset ℕ} {E D : Finset ℕ}
    (hD : D ⊆ Finset.range n) (hDcl : cl D = D) (hED : E ⊂ D) :
    ∃ F, IsCover cl n E F ∧ F ⊆ D := by
  classical
  have hne : ((Finset.range n).powerset.filter
      (fun F => cl F = F ∧ E ⊂ F ∧ F ⊆ D)).Nonempty :=
    ⟨D, Finset.mem_filter.mpr ⟨Finset.mem_powerset.mpr hD, hDcl, hED, subset_rfl⟩⟩
  obtain ⟨F, hFS, hmin⟩ := Finset.exists_min_image _ Finset.card hne
  rw [Finset.mem_filter, Finset.mem_powerset] at hFS
  obtain ⟨hFsub, hFcl, hEF, hFD⟩ := hFS
  refine ⟨F, ⟨hFsub, hFcl, hEF, ?_⟩, hFD⟩
  intro F' hF'sub hF'cl hEF' hF'F
  have hF'S : F' ∈ (Finset.range n).powerset.filter
      (fun F => cl F = F ∧ E ⊂ F ∧ F ⊆ D) :=
    Finset.mem_filter.mpr ⟨Finset.mem_powerset.mpr hF'sub, hF'cl, hEF',
      hF'F.trans hFD⟩
  exact Finset.eq_of_subset_of_card_le hF'F (hmin F' hF'S)

/-- Every element of an upper neighbour of `E` outside `E` generates it:
`cl (E ∪ {h}) = F`. -/
theorem cover_gen {n : ℕ} {cl : Finset ℕ → Finset ℕ} (hcl : ClosureOp n cl)
    {E F : Finset ℕ} (hE : E ⊆ Finset.range n) (hF : IsCover cl n E F)
    {h : ℕ} (hh : h ∈ F) (hhE : h ∉ E) : cl (insert h E) = F := by
  obtain ⟨hFsub, hFcl, hEF, hFmin⟩ := hF
  have hins : insert h E ⊆ Finset.range n := by
    intro x hx
    rcases Finset.mem_insert.mp hx with rfl | hx
    · exact hFsub hh
    · exact hE hx
  have hsubF : cl (insert h E) ⊆ F := by
    have : insert h E ⊆ F := by
      intro x hx
      rcases Finset.mem_insert.mp hx with rfl | hx
      · exact hh
      · exact hEF.1 hx
    calc cl (insert h E) ⊆ cl F := hcl.mono this
      _ = F := hFcl
  have hElt : E ⊂ cl (insert h E) := by
    constructor
    · intro x hx
      exact hcl.extensive hins (Finset.mem_insert_of_mem hx)
    · intro hcon
      exact hhE (hcon (hcl.extensive hins (Finset.mem_insert_self h E)))
  exact hFmin _ (hcl.subset_range _) (hcl.idem hins) hElt hsubF

/-- The master invariant theorem for the `direct_super_elements` loop:
from a good state it returns sound canonical pairs that are upper
neighbours of `E`, and every upper neighbour of `E` is returned. -/
theorem lindigDSEAux_master {n : ℕ} {f g : List ℕ → List ℕ} (S : CboSpec n f g)
    {E : Finset ℕ} (hEsub : E ⊆ Finset.range n) :
    ∀ (order : List ℕ) (reps : Finset ℕ) (acc : List (List ℕ × List ℕ)),
      order.Nodup →
      (∀ x ∈ order, x ∈ reps) →
      (∀ x ∈ reps, x ∈ Finset.range n ∧ x ∉ E) →
      (∀ h ∈ reps, h ∉ order → ∃ p ∈ acc, p.1.toFinset = clF f g (insert h E)) →
      (∀ p ∈ acc, p.2 = f p.1 ∧ p.1 = g p.2 ∧ IsCover (clF f g) n E p.1.toFinset ∧
        ∃ h, h ∈ reps ∧ h ∈ p.1.toFinset ∧ h ∉ E ∧ h ∉ order) →
      (∀ F, IsCover (clF f g) n E F →
        (∃ p ∈ acc, p.1.toFinset = F) ∨ ∃ h, h ∈ reps ∧ h ∈ order ∧ h ∈ F ∧ h ∉ E) →
      (∀ p ∈ lindigDSEAux f g E order reps acc,
        p.2 = f p.1 ∧ p.1 = g p.2 ∧ IsCover (clF f g) n E p.1.toFinset) ∧
      (∀ F, IsCover (clF f g) n E F →
        ∃ p ∈ lindigDSEAux f g E order reps acc, p.1.toFinset = F) := by
  have hcl := S.clF_closureOp
  intro order
  induction order with
  | nil =>
    intro reps acc _ _ _ _ hacc hK
    rw [lindigDSEAux_nil]
    constructor
    · intro p hp
      obtain ⟨h1, h2, h3, -⟩ := hacc p hp
      exact ⟨h1, h2, h3⟩
    · intro F hF
      rcases hK F hF with h | ⟨h, -, hmem, -⟩
      · exact h
      · cases hmem
  | cons gi rest ih =>
    intro reps acc hnd h2 h3 h4 hacc hK
    have hgi_reps : gi ∈ reps := h2 gi (List.mem_cons_self _ _)
    have hgi_rn := (h3 gi hgi_reps).1
    have hgi_notE := (h3 gi hgi_reps).2
    have hgi_rest : gi ∉ rest := (List.nodup_cons.mp hnd).1
    have hnd' : rest.Nodup := (List.nodup_cons.mp hnd).2
    have hins : insert gi E ⊆ Finset.range n := by
      intro x hx
      rcases Finset.mem_insert.mp hx with rfl | hx
      · exact hgi_rn
      · exact hEsub hx
    have hgi_A : gi ∈ clF f g (insert gi E) :=
      hcl.extensive hins (Finset.mem_insert_self gi E)
    have hE_A : E ⊂ clF f g (insert gi E) := by
      constructor
      · intro x hx
        exact hcl.extensive hins (Finset.mem_insert_of_mem hx)
      · intro hcon
        exact hgi_notE (hcon hgi_A)
    rw [lindigDSEAux_cons]
    by_cases hcard : (reps ∩ (g (f (finsetSortedList (insert gi E)))).toFinset).card = 1
    · rw [if_pos hcard]
      -- the intersection is exactly {gi}
      have hgi_int : gi ∈ reps ∩ (g (f (finsetSortedList (insert gi E)))).toFinset :=
        Finset.mem_inter.mpr ⟨hgi_reps, hgi_A⟩
      have honly : ∀ h ∈ reps, h ∈ clF f g (insert gi E) → h = gi := by
        intro h hhreps hhA
        by_contra hne
        have hh_int : h ∈ reps ∩ (g (f (finsetSortedList (insert gi E)))).toFinset :=
          Finset.mem_inter.mpr ⟨hhreps, hhA⟩
        have : 1 < (reps ∩ (g (f (finsetSortedList (insert gi E)))).toFinset).card :=
          Finset.one_lt_card.mpr ⟨h, hh_int, gi, hgi_int, hne⟩
        omega
      -- the accepted closure is an upper neighbour
      have hcov : IsCover (clF f g) n E (clF f g (insert gi E)) := by
        refine ⟨hcl.subset_range _, hcl.idem hins, hE_A, ?_⟩
        intro F' hF'sub hF'cl hEF' hF'A
        by_contra hne
        obtain ⟨F₀, hF₀cov, hF₀F'⟩ := cover_exists hF'sub hF'cl hEF'
        have hF₀A : F₀ ⊆ clF f g (insert gi E) := hF₀F'.trans hF'A
        have hgi_F₀ : gi ∉ F₀ := by
          intro hgiF₀
          have hsub : insert gi E ⊆ F₀ := by
            intro x hx
            rcases Finset.mem_insert.mp hx with rfl | hx
            · exact hgiF₀
            · exact hF₀cov.2.2.1.1 hx
          have : clF f g (insert gi E) ⊆ F₀ := by
            calc clF f g (insert gi E) ⊆ clF f g F₀ := hcl.mono hsub
              _ = F₀ := hF₀cov.2.1
          exact hne (Finset.Subset.antisymm hF'A
            (Finset.Subset.trans (Finset.Subset.trans this hF₀F') subset_rfl))
        rcases hK F₀ hF₀cov with ⟨p, hp, hpF₀⟩ | ⟨h, hhreps, hhorder, hhF₀, hhE⟩
        · obtain ⟨-, -, -, hw, hwreps, hwmem, -, hworder⟩ := hacc p hp
          have hwA : hw ∈ clF f g (insert gi E) := hF₀A (by rw [← hpF₀]; exact hwmem)
          have : hw = gi := honly hw hwreps hwA
          rw [this] at hworder
          exact hworder (List.mem_cons_self _ _)
        · have : h = gi := honly h hhreps (hF₀A hhF₀)
          rw [this] at hhF₀
          exact hgi_F₀ hhF₀
      refine ih reps _ hnd' (fun x hx => h2 x (List.mem_cons_of_mem _ hx)) h3 ?_ ?_ ?_
      · -- processed elements are recorded
        intro h hh hhrest
        by_cases hhg : h = gi
        · subst hhg
          refine ⟨(g (f (finsetSortedList (insert h E))), f (finsetSortedList (insert h E))),
            List.mem_append.mpr (Or.inr (List.mem_singleton.mpr rfl)), rfl⟩
        · obtain ⟨p, hp, hpc⟩ := h4 h hh (by
            intro hcon
            rcases List.mem_cons.mp hcon with hcon | hcon
            · exact hhg hcon
            · exact hhrest hcon)
          exact ⟨p, List.mem_append.mpr (Or.inl hp), hpc⟩
      · -- accumulator invariant
        intro p hp
        rcases List.mem_append.mp hp with hp | hp
        · obtain ⟨hp1, hp2, hp3, hw, hw1, hw2, hw3, hw4⟩ := hacc p hp
          refine ⟨hp1, hp2, hp3, hw, hw1, hw2, hw3, ?_⟩
          intro hcon
          exact hw4 (List.mem_cons_of_mem _ hcon)
        · rcases List.mem_singleton.mp hp with rfl
          refine ⟨?_, rfl, hcov, gi, hgi_reps, hgi_A, hgi_notE, hgi_rest⟩
          exact (S.fgf _ (fun x hx => Finset.mem_range.mp
            (hins (mem_finsetSortedList.mp hx)))).symm
      · -- completeness invariant
        intro F hF
        rcases hK F hF with ⟨p, hp, hpF⟩ | ⟨h, hhreps, hhorder, hhF, hhE⟩
        · exact Or.inl ⟨p, List.mem_append.mpr (Or.inl hp), hpF⟩
        · by_cases hhg : h = gi
          · subst hhg
            have : clF f g (insert h E) = F := cover_gen hcl hEsub hF hhF hhE
            exact Or.inl ⟨(g (f (finsetSortedList (insert h E))),
              f (finsetSortedList (insert h E))),
              List.mem_append.mpr (Or.inr (List.mem_singleton.mpr rfl)), this⟩
          · refine Or.inr ⟨h, hhreps, ?_, hhF, hhE⟩
            rcases List.mem_cons.mp hhorder with hcon | hcon
            · exact absurd hcon hhg
            · exact hcon
    · rw [if_neg hcard]
      -- the intersection holds a second element
      have hgi_int : gi ∈ reps ∩ (g (f (finsetSortedList (insert gi E)))).toFinset :=
        Finset.mem_inter.mpr ⟨hgi_reps, hgi_A⟩
      have hbig : 1 < (reps ∩ (g (f (finsetSortedList (insert gi E)))).toFinset).card := by
        have hpos : 0 < (reps ∩ (g (f (finsetSortedList (insert gi E)))).toFinset).card :=
          Finset.card_pos.mpr ⟨gi, hgi_int⟩
        omega
      obtain ⟨h', hh'int, hh'ne⟩ : ∃ h' ∈ reps ∩
          (g (f (finsetSortedList (insert gi E)))).toFinset, h' ≠ gi := by
        obtain ⟨x, hx, y, hy, hxy⟩ := Finset.one_lt_card.mp hbig
        rcases eq_or_ne x gi with rfl | hxgi
        · exact ⟨y, hy, fun hygi => hxy hygi.symm⟩
        · exact ⟨x, hx, hxgi⟩
      have hh'reps : h' ∈ reps := (Finset.mem_inter.mp hh'int).1
      have hh'A : h' ∈ clF f g (insert gi E) := (Finset.mem_inter.mp hh'int).2
      have hh'reps' : h' ∈ reps.erase gi := Finset.mem_erase.mpr ⟨hh'ne, hh'reps⟩
      refine ih (reps.erase gi) acc hnd' ?_ ?_ ?_ ?_ ?_
      · intro x hx
        refine Finset.mem_erase.mpr ⟨?_, h2 x (List.mem_cons_of_mem _ hx)⟩
        intro hcon
        rw [hcon] at hx
        exact hgi_rest hx
      · intro x hx
        exact h3 x (Finset.mem_erase.mp hx).2
      · intro h hh hhrest
        have hhg : h ≠ gi := (Finset.mem_erase.mp hh).1
        refine h4 h (Finset.mem_erase.mp hh).2 ?_
        intro hcon
        rcases List.mem_cons.mp hcon with hcon | hcon
        · exact hhg hcon
        · exact hhrest hcon
      · intro p hp
        obtain ⟨hp1, hp2, hp3, hw, hw1, hw2, hw3, hw4⟩ := hacc p hp
        have hwg : hw ≠ gi := by
          intro hcon
          rw [hcon] at hw4
          exact hw4 (List.mem_cons_self _ _)
        refine ⟨hp1, hp2, hp3, hw, Finset.mem_erase.mpr ⟨hwg, hw1⟩, hw2, hw3, ?_⟩
        intro hcon
        exact hw4 (List.mem_cons_of_mem _ hcon)
      · intro F hF
        rcases hK F hF with ⟨p, hp, hpF⟩ | ⟨h, hhreps, hhorder, hhF, hhE⟩
        · exact Or.inl ⟨p, hp, hpF⟩
        · by_cases hhg : h = gi
          · -- `F` is generated by `gi`; hand the role to the second element
            subst hhg
            have hFA : clF f g (insert h E) = F := cover_gen hcl hEsub hF hhF hhE
            have hh'F : h' ∈ F := by
              rw [← hFA]
              exact hh'A
            have hh'E : h' ∉ E := (h3 h' hh'reps).2
            by_cases hh'rest : h' ∈ rest
            · exact Or.inr ⟨h', hh'reps', hh'rest, hh'F, hh'E⟩
            · have hh'proc : h' ∉ h :: rest := by
                intro hcon
                rcases List.mem_cons.mp hcon with hcon | hcon
                · exact hh'ne hcon
                · exact hh'rest hcon
              obtain ⟨p, hp, hpc⟩ := h4 h' hh'reps hh'proc
              have : clF f g (insert h' E) = F := cover_gen hcl hEsub hF hh'F hh'E
              exact Or.inl ⟨p, hp, by rw [hpc, this]⟩
          · refine Or.inr ⟨h, Finset.mem_erase.mpr ⟨hhg, hhreps⟩, ?_, hhF, hhE⟩
            rcases List.mem_cons.mp hhorder with hcon | hcon
            · exact absurd hcon hhg
            · exact hcon

theorem finsetSortedList_empty : finsetSortedList (∅ : Finset ℕ) = [] := rfl

/-- The `for x in dsups` loop appends to `queue` and `concepts` exactly
the neighbours whose extent set is new, keeps the extent sets
duplicate-free, and leaves every neighbour's extent set represented. -/
theorem lindigProcess_master (dsups : List (List ℕ × List ℕ)) :
    ∀ (queue concepts : List (List ℕ × List ℕ)),
      (concepts.map (fun p => p.1.toFinset)).Nodup →
      ∃ news, lindigProcess dsups queue concepts = (queue ++ news, concepts ++ news) ∧
        (∀ x ∈ news, x ∈ dsups) ∧
        ((concepts ++ news).map (fun p => p.1.toFinset)).Nodup ∧
        (∀ x ∈ dsups, ∃ q ∈ concepts ++ news, q.1.toFinset = x.1.toFinset) := by
  induction dsups with
  | nil =>
    intro queue concepts hnd
    refine ⟨[], by rw [lindigProcess_nil, List.append_nil, List.append_nil], ?_, ?_, ?_⟩
    · intro x hx
      cases hx
    · rw [List.append_nil]
      exact hnd
    · intro x hx
      cases hx
  | cons x rest ih =>
    intro queue concepts hnd
    rw [lindigProcess_cons]
    by_cases hdup : concepts.any (fun p => decide (p.1.toFinset = x.1.toFinset)) = true
    · rw [if_pos hdup]
      obtain ⟨q0, hq0, hq0eq⟩ : ∃ q ∈ concepts, q.1.toFinset = x.1.toFinset := by
        obtain ⟨p, hp, hpe⟩ := List.any_eq_true.mp hdup
        exact ⟨p, hp, decide_eq_true_eq.mp hpe⟩
      obtain ⟨news, heq, hmem, hnd', hall⟩ := ih queue concepts hnd
      refine ⟨news, heq, ?_, hnd', ?_⟩
      · intro y hy
        exact List.mem_cons_of_mem _ (hmem y hy)
      · intro y hy
        rcases List.mem_cons.mp hy with rfl | hy
        · exact ⟨q0, List.mem_append.mpr (Or.inl hq0), hq0eq⟩
        · exact hall y hy
    · rw [if_neg hdup]
      have hxnot : ∀ p ∈ concepts, p.1.toFinset ≠ x.1.toFinset := by
        intro p hp he
        exact hdup (List.any_eq_true.mpr ⟨p, hp, decide_eq_true_eq.mpr he⟩)
      have hnd1 : ((concepts ++ [x]).map (fun p => p.1.toFinset)).Nodup := by
        rw [List.map_append, List.nodup_append]
        refine ⟨hnd, List.nodup_singleton _, ?_⟩
        intro a ha hamem
        obtain ⟨p, hp, rfl⟩ := List.mem_map.mp hamem
        rcases List.mem_singleton.mp hp with rfl
        obtain ⟨q', hq', hqa⟩ := List.mem_map.mp ha
        exact hxnot q' hq' hqa
      obtain ⟨news, heq, hmem, hnd', hall⟩ := ih (queue ++ [x]) (concepts ++ [x]) hnd1
      refine ⟨x :: news, ?_, ?_, ?_, ?_⟩
      · rw [heq, List.append_assoc, List.append_assoc]
        rfl
      · intro y hy
        rcases List.mem_cons.mp hy with rfl | hy
        · exact List.mem_cons_self _ _
        · exact List.mem_cons_of_mem _ (hmem y hy)
      · rw [List.append_assoc] at hnd'
        exact hnd'
      · intro y hy
        rcases List.mem_cons.mp hy with rfl | hy
        · exact ⟨y, List.mem_append.mpr (Or.inr (List.mem_cons_self _ _)), rfl⟩
        · obtain ⟨q', hq', hqe⟩ := hall y hy
          refine ⟨q', ?_, hqe⟩
          rcases List.mem_append.mp hq' with hq' | hq'
          · rcases List.mem_append.mp hq' with hq' | hq'
            · exact List.mem_append.mpr (Or.inl hq')
            · rcases List.mem_singleton.mp hq' with rfl
              exact List.mem_append.mpr (Or.inr (List.mem_cons_self _ _))
          · exact List.mem_append.mpr (Or.inr (List.mem_cons_of_mem _ hq'))

/-- In a family that contains the bottom closed set and is closed under
taking upper neighbours, every closed subset of `range n` appears
(ascending chains of neighbour steps reach everything). -/
theorem cover_reach {n : ℕ} {f g : List ℕ → List ℕ} (S : CboSpec n f g)
    (concepts : List (List ℕ × List ℕ))
    (hbot : ∃ p ∈ concepts, p.1.toFinset = clF f g ∅)
    (hcovAll : ∀ p ∈ concepts, ∀ F, IsCover (clF f g) n p.1.toFinset F →
      ∃ q ∈ concepts, q.1.toFinset = F) :
    ∀ (k : ℕ) (D : Finset ℕ), D.card ≤ k → D ⊆ Finset.range n → clF f g D = D →
      ∃ p ∈ concepts, p.1.toFinset = D := by
  have hcl := S.clF_closureOp
  intro k
  induction k with
  | zero =>
    intro D hcard hD hDcl
    have hempty : D = ∅ := Finset.card_eq_zero.mp (Nat.le_zero.mp hcard)
    subst hempty
    obtain ⟨p, hp, hpe⟩ := hbot
    refine ⟨p, hp, ?_⟩
    rw [hpe]
    exact hDcl
  | succ k ih =>
    intro D hcard hD hDcl
    by_cases hbotD : D = clF f g ∅
    · obtain ⟨p, hp, hpe⟩ := hbot
      exact ⟨p, hp, by rw [hpe, hbotD]⟩
    · have h0sub : clF f g ∅ ⊆ D := by
        have := hcl.mono (Finset.empty_subset D)
        rwa [hDcl] at this
      have hne : ((Finset.range n).powerset.filter
          (fun F => clF f g F = F ∧ F ⊂ D)).Nonempty := by
        refine ⟨clF f g ∅, Finset.mem_filter.mpr ⟨Finset.mem_powerset.mpr
          (hcl.subset_range _), hcl.idem (Finset.empty_subset _), h0sub, ?_⟩⟩
        intro hcon
        exact hbotD (Finset.Subset.antisymm hcon h0sub)
      obtain ⟨E, hES, hmax⟩ := Finset.exists_max_image _ Finset.card hne
      rw [Finset.mem_filter, Finset.mem_powerset] at hES
      obtain ⟨hEsub', hEcl, hED⟩ := hES
      have hDcov : IsCover (clF f g) n E D := by
        refine ⟨hD, hDcl, hED, ?_⟩
        intro F' hF'sub hF'cl hEF' hF'D
        by_contra hne'
        have hF'S : F' ∈ (Finset.range n).powerset.filter
            (fun F => clF f g F = F ∧ F ⊂ D) :=
          Finset.mem_filter.mpr ⟨Finset.mem_powerset.mpr hF'sub, hF'cl,
            lt_of_le_of_ne hF'D hne'⟩
        have h1 := hmax F' hF'S
        have h2 := Finset.card_lt_card hEF'
        omega
      have hcE : E.card ≤ k := by
        have := Finset.card_lt_card hED
        omega
      obtain ⟨p, hp, hpE⟩ := ih E hcE hEsub' hEcl
      exact hcovAll p hp D (by rw [hpE]; exact hDcov)

/-- The pairs of a Lindig concept list are closed, valid extents. -/
theorem lindig_concepts_valid {n : ℕ} {f g : List ℕ → List ℕ} (S : CboSpec n f g)
    {concepts : List (List ℕ × List ℕ)}
    (hpairs : ∀ p ∈ concepts, p.2 = f p.1 ∧ p.1 = g p.2) :
    ∀ p ∈ concepts, p.1.toFinset ⊆ Finset.range n ∧
      clF f g p.1.toFinset = p.1.toFinset := by
  intro p hp
  obtain ⟨h1, h2⟩ := hpairs p hp
  have hgf : p.1 = g (f p.1) := by
    calc p.1 = g p.2 := h2
      _ = g (f p.1) := by rw [h1]
  constructor
  · intro x hx
    rw [List.mem_toFinset, hgf] at hx
    exact Finset.mem_range.mpr (S.g_range _ x hx)
  · rw [← S.toFinset_gf, ← hgf]

/-- A duplicate-free Lindig concept list is no longer than the number of
closed sets. -/
theorem lindig_concepts_length_le {n : ℕ} {f g : List ℕ → List ℕ} (S : CboSpec n f g)
    {concepts : List (List ℕ × List ℕ)}
    (hpairs : ∀ p ∈ concepts, p.2 = f p.1 ∧ p.1 = g p.2)
    (hnodup : (concepts.map (fun p => p.1.toFinset)).Nodup) :
    concepts.length ≤ lindigNall f g n := by
  have hsub : (concepts.map (fun p => p.1.toFinset)).toFinset ⊆
      (Finset.range n).powerset.filter (fun s => clF f g s = s) := by
    intro s hs
    rw [List.mem_toFinset] at hs
    obtain ⟨p, hp, rfl⟩ := List.mem_map.mp hs
    obtain ⟨hv1, hv2⟩ := lindig_concepts_valid S hpairs p hp
    exact Finset.mem_filter.mpr ⟨Finset.mem_powerset.mpr hv1, hv2⟩
  calc concepts.length = (concepts.map (fun p => p.1.toFinset)).length :=
        (List.length_map _ _).symm
    _ = (concepts.map (fun p => p.1.toFinset)).toFinset.card :=
        (List.toFinset_card_of_nodup hnodup).symm
    _ ≤ ((Finset.range n).powerset.filter (fun s => clF f g s = s)).card :=
        Finset.card_le_card hsub
    _ = lindigNall f g n := rfl

/-- The master invariant theorem for the Lindig breadth-first loop:
started from a good state with enough fuel, it ends with sound,
duplicate-free concept pairs covering every closed subset of
`range n`. -/
theorem lindigLoop_master {n : ℕ} {f g : List ℕ → List ℕ} (S : CboSpec n f g)
    (ord : Finset ℕ → List ℕ)
    (hord : ∀ s : Finset ℕ, (ord s).Nodup ∧ ∀ x, x ∈ ord s ↔ x ∈ s)
    (pick : List (List ℕ × List ℕ) → ℕ) :
    ∀ (fuel : ℕ) (queue concepts : List (List ℕ × List ℕ)),
      2 * lindigNall f g n + queue.length ≤ fuel + 2 * concepts.length →
      (∀ p ∈ concepts, p.2 = f p.1 ∧ p.1 = g p.2) →
      (concepts.map (fun p => p.1.toFinset)).Nodup →
      (∀ p ∈ queue, p ∈ concepts) →
      (∃ p ∈ concepts, p.1.toFinset = clF f g ∅) →
      (∀ p ∈ concepts, p ∈ queue ∨ ∀ F, IsCover (clF f g) n p.1.toFinset F →
        ∃ q ∈ concepts, q.1.toFinset = F) →
      (∀ p ∈ lindigLoop f g n ord pick fuel queue concepts,
        p.2 = f p.1 ∧ p.1 = g p.2) ∧
      ((lindigLoop f g n ord pick fuel queue concepts).map
        (fun p => p.1.toFinset)).Nodup ∧
      (∀ D : Finset ℕ, D ⊆ Finset.range n → clF f g D = D →
        ∃ p ∈ lindigLoop f g n ord pick fuel queue concepts,
          p.1.toFinset = D) := by
  have hcl := S.clF_closureOp
  intro fuel
  induction fuel with
  | zero =>
    intro queue concepts hmeas hpairs hnodup hqsub hbot hB5
    cases queue with
    | nil =>
      rw [lindigLoop_nil]
      refine ⟨hpairs, hnodup, ?_⟩
      intro D hD hDcl
      refine cover_reach S concepts hbot ?_ D.card D le_rfl hD hDcl
      intro p hp F hF
      rcases hB5 p hp with h | h
      · cases h
      · exact h F hF
    | cons q qs =>
      exfalso
      have := lindig_concepts_length_le S hpairs hnodup
      simp only [List.length_cons] at hmeas
      omega
  | succ fuel ih =>
    intro queue concepts hmeas hpairs hnodup hqsub hbot hB5
    cases queue with
    | nil =>
      rw [lindigLoop_nil]
      refine ⟨hpairs, hnodup, ?_⟩
      intro D hD hDcl
      refine cover_reach S concepts hbot ?_ D.card D le_rfl hD hDcl
      intro p hp F hF
      rcases hB5 p hp with h | h
      · cases h
      · exact h F hF
    | cons q qs =>
      set i := pick (q :: qs) % (q :: qs).length with hidef
      set c := (q :: qs).getD i ([], []) with hcdef
      have hqlen : 0 < (q :: qs).length := by simp
      have hilt : i < (q :: qs).length := by
        rw [hidef]
        exact Nat.mod_lt _ hqlen
      have hcelem : c = (q :: qs)[i] := by
        rw [hcdef]
        exact List.getD_eq_getElem _ _ hilt
      have hcqueue : c ∈ q :: qs := by
        rw [hcelem]
        exact List.getElem_mem hilt
      have hperm : (q :: qs).Perm (c :: (q :: qs).eraseIdx i) := by
        rw [hcelem]
        exact (List.perm_cons_erase (List.getElem_mem hilt)).trans
          (List.Perm.cons _ (List.erase_getElem hilt))
      have hcconc : c ∈ concepts := hqsub _ hcqueue
      obtain ⟨hcsub, hccl⟩ := lindig_concepts_valid S hpairs _ hcconc
      obtain ⟨hordnd, hordmem⟩ := hord (Finset.range n \ c.1.toFinset)
      obtain ⟨hDSEsound, hDSEcompl⟩ := lindigDSEAux_master S hcsub
        (ord (Finset.range n \ c.1.toFinset)) (Finset.range n \ c.1.toFinset) []
        hordnd (fun x hx => (hordmem x).mp hx)
        (fun x hx => Finset.mem_sdiff.mp hx)
        (fun h hh hho => absurd ((hordmem h).mpr hh) hho)
        (fun p hp => absurd hp (List.not_mem_nil p))
        (fun F hF => by
          obtain ⟨h, hhF, hhE⟩ := Finset.exists_of_ssubset hF.2.2.1
          have hhreps : h ∈ Finset.range n \ c.1.toFinset :=
            Finset.mem_sdiff.mpr ⟨hF.1 hhF, hhE⟩
          exact Or.inr ⟨h, hhreps, (hordmem h).mpr hhreps, hhF, hhE⟩)
      obtain ⟨news, hpeq, hnewsmem, hnd', hall⟩ :=
        lindigProcess_master
          (lindigDSE f g n c.1.toFinset (ord (Finset.range n \ c.1.toFinset)))
          ((q :: qs).eraseIdx i) concepts hnodup
      rw [lindigLoop_cons f g n ord pick fuel q qs concepts hidef hcdef, hpeq]
      simp only
      refine ih ((q :: qs).eraseIdx i ++ news) (concepts ++ news) ?_ ?_ hnd' ?_ ?_ ?_
      · have hlen_e : ((q :: qs).eraseIdx i).length = (q :: qs).length - 1 := by
          rw [List.length_eraseIdx]
          have h1 : i < qs.length + 1 := by simpa using hilt
          simp [h1]
        rw [List.length_append, List.length_append, hlen_e]
        simp only [List.length_cons] at hmeas ⊢
        omega
      · intro p hp
        rcases List.mem_append.mp hp with hp | hp
        · exact hpairs p hp
        · obtain ⟨h1, h2, -⟩ := hDSEsound p (hnewsmem p hp)
          exact ⟨h1, h2⟩
      · intro p hp
        rcases List.mem_append.mp hp with hp | hp
        · exact List.mem_append.mpr (Or.inl (hqsub p (List.mem_of_mem_eraseIdx hp)))
        · exact List.mem_append.mpr (Or.inr hp)
      · obtain ⟨p, hp, hpe⟩ := hbot
        exact ⟨p, List.mem_append.mpr (Or.inl hp), hpe⟩
      · intro p hp
        rcases List.mem_append.mp hp with hp | hp
        · rcases hB5 p hp with hq | hcov
          · rcases List.mem_cons.mp (hperm.mem_iff.mp hq) with rfl | hq'
            · refine Or.inr ?_
              intro F hF
              obtain ⟨x, hx, hxF⟩ := hDSEcompl F hF
              obtain ⟨q', hq', hq'e⟩ := hall x hx
              exact ⟨q', hq', by rw [hq'e, hxF]⟩
            · exact Or.inl (List.mem_append.mpr (Or.inl hq'))
          · refine Or.inr ?_
            intro F hF
            obtain ⟨q', hq', hq'e⟩ := hcov F hF
            exact ⟨q', List.mem_append.mpr (Or.inl hq'), hq'e⟩
        · exact Or.inl (List.mem_append.mpr (Or.inr hp))

/-- On the empty object list `intention_i` returns every attribute
index (line 63's `all` over an empty list is true). -/
theorem intention_i_nil (ctx : FormalContext) :
    ctx.intention_i [] = List.range ctx.n_attributes :=
  List.filter_eq_self.mpr (fun _ _ => rfl)

/-- On the empty attribute list `extension_i` returns every object
index. -/
theorem extension_i_nil (ctx : FormalContext) :
    ctx.extension_i [] = List.range ctx.n_objects :=
  List.filter_eq_self.mpr (fun _ _ => rfl)

theorem lindig_data_true (ctx : FormalContext) (ord : Finset ℕ → List ℕ)
    (pick : List (List ℕ × List ℕ) → ℕ) :
    lindig_data ctx true ord pick =
      lindigLoop ctx.intention_i ctx.extension_i ctx.n_objects ord pick
        (2 * 2 ^ ctx.n_objects + 1)
        [(ctx.extension_i (List.range ctx.n_attributes), List.range ctx.n_attributes)]
        [(ctx.extension_i (List.range ctx.n_attributes),
          List.range ctx.n_attributes)] := rfl

theorem lindig_data_false (ctx : FormalContext) (ord : Finset ℕ → List ℕ)
    (pick : List (List ℕ × List ℕ) → ℕ) :
    lindig_data ctx false ord pick =
      (lindigLoop ctx.extension_i ctx.intention_i ctx.n_attributes ord pick
        (2 * 2 ^ ctx.n_attributes + 1)
        [(ctx.intention_i (List.range ctx.n_objects), List.range ctx.n_objects)]
        [(ctx.intention_i (List.range ctx.n_objects), List.range ctx.n_objects)]).map
        (fun p => (p.2, p.1)) := rfl

/-- The `iterate_extents=True` Lindig run: sound pairs, duplicate-free
extents, and every closed object set reached. -/
theorem lindigRunTrue_good (ctx : FormalContext) (ord : Finset ℕ → List ℕ)
    (pick : List (List ℕ × List ℕ) → ℕ)
    (hord : ∀ s : Finset ℕ, (ord s).Nodup ∧ ∀ x, x ∈ ord s ↔ x ∈ s) :
    (∀ p ∈ lindig_data ctx true ord pick,
      p.2 = ctx.intention_i p.1 ∧ p.1 = ctx.extension_i p.2) ∧
    ((lindig_data ctx true ord pick).map (fun p => p.1.toFinset)).Nodup ∧
    (∀ D : Finset ℕ, D ⊆ Finset.range ctx.n_objects →
      clF ctx.intention_i ctx.extension_i D = D →
      ∃ p ∈ lindig_data ctx true ord pick, p.1.toFinset = D) := by
  have hfg : ctx.intention_i (ctx.extension_i (List.range ctx.n_attributes)) =
      List.range ctx.n_attributes := by
    conv_lhs => rw [← intention_i_nil ctx]
    rw [FormalContext.intention_extension_intention (by intro x hx; cases hx)]
    exact intention_i_nil ctx
  have hbot0 : (ctx.extension_i (List.range ctx.n_attributes)).toFinset =
      clF ctx.intention_i ctx.extension_i ∅ := by
    show _ = (ctx.extension_i (ctx.intention_i (finsetSortedList ∅))).toFinset
    rw [finsetSortedList_empty, intention_i_nil]
  rw [lindig_data_true]
  refine lindigLoop_master (cboSpecTrue ctx) ord hord pick _ _ _ ?_ ?_ ?_ ?_ ?_ ?_
  · have hN : lindigNall ctx.intention_i ctx.extension_i ctx.n_objects ≤
        2 ^ ctx.n_objects := by
      calc lindigNall ctx.intention_i ctx.extension_i ctx.n_objects ≤
            (Finset.range ctx.n_objects).powerset.card := Finset.card_filter_le _ _
        _ = 2 ^ ctx.n_objects := by rw [Finset.card_powerset, Finset.card_range]
    simp only [List.length_singleton]
    omega
  · intro p hp
    rcases List.mem_singleton.mp hp with rfl
    exact ⟨hfg.symm, rfl⟩
  · simp
  · intro p hp
    exact hp
  · exact ⟨_, List.mem_singleton.mpr rfl, hbot0⟩
  · intro p hp
    exact Or.inl hp

/-- The `iterate_extents=False` Lindig run, in its swapped working
coordinates (attribute-side extents): sound pairs, duplicate-free
extents, and every closed attribute set reached. -/
theorem lindigRunFalse_good (ctx : FormalContext) (ord : Finset ℕ → List ℕ)
    (pick : List (List ℕ × List ℕ) → ℕ)
    (hord : ∀ s : Finset ℕ, (ord s).Nodup ∧ ∀ x, x ∈ ord s ↔ x ∈ s) :
    (∀ p ∈ lindigLoop ctx.extension_i ctx.intention_i ctx.n_attributes ord pick
        (2 * 2 ^ ctx.n_attributes + 1)
        [(ctx.intention_i (List.range ctx.n_objects), List.range ctx.n_objects)]
        [(ctx.intention_i (List.range ctx.n_objects), List.range ctx.n_objects)],
      p.2 = ctx.extension_i p.1 ∧ p.1 = ctx.intention_i p.2) ∧
    ((lindigLoop ctx.extension_i ctx.intention_i ctx.n_attributes ord pick
        (2 * 2 ^ ctx.n_attributes + 1)
        [(ctx.intention_i (List.range ctx.n_objects), List.range ctx.n_objects)]
        [(ctx.intention_i (List.range ctx.n_objects),
          List.range ctx.n_objects)]).map (fun p => p.1.toFinset)).Nodup ∧
    (∀ D : Finset ℕ, D ⊆ Finset.range ctx.n_attributes →
      clF ctx.extension_i ctx.intention_i D = D →
      ∃ p ∈ lindigLoop ctx.extension_i ctx.intention_i ctx.n_attributes ord pick
        (2 * 2 ^ ctx.n_attributes + 1)
        [(ctx.intention_i (List.range ctx.n_objects), List.range ctx.n_objects)]
        [(ctx.intention_i (List.range ctx.n_objects), List.range ctx.n_objects)],
        p.1.toFinset = D) := by
  have hfg : ctx.extension_i (ctx.intention_i (List.range ctx.n_objects)) =
      List.range ctx.n_objects := by
    conv_lhs => rw [← extension_i_nil ctx]
    rw [FormalContext.extension_intention_extension (by intro x hx; cases hx)]
    exact extension_i_nil ctx
  have hbot0 : (ctx.intention_i (List.range ctx.n_objects)).toFinset =
      clF ctx.extension_i ctx.intention_i ∅ := by
    show _ = (ctx.intention_i (ctx.extension_i (finsetSortedList ∅))).toFinset
    rw [finsetSortedList_empty, extension_i_nil]
  refine lindigLoop_master (cboSpecFalse ctx) ord hord pick _ _ _ ?_ ?_ ?_ ?_ ?_ ?_
  · have hN : lindigNall ctx.extension_i ctx.intention_i ctx.n_attributes ≤
        2 ^ ctx.n_attributes := by
      calc lindigNall ctx.extension_i ctx.intention_i ctx.n_attributes ≤
            (Finset.range ctx.n_attributes).powerset.card := Finset.card_filter_le _ _
        _ = 2 ^ ctx.n_attributes := by rw [Finset.card_powerset, Finset.card_range]
    simp only [List.length_singleton]
    omega
  · intro p hp
    rcases List.mem_singleton.mp hp with rfl
    exact ⟨hfg.symm, rfl⟩
  · simp
  · intro p hp
    exact hp
  · exact ⟨_, List.mem_singleton.mpr rfl, hbot0⟩
  · intro p hp
    exact Or.inl hp

/-- A concept pair of the `True` Lindig run, as a pair of sets, is
exactly a closed extent with its derived intent. -/
theorem mem_lindig_pairs_true (ctx : FormalContext) (ord : Finset ℕ → List ℕ)
    (pick : List (List ℕ × List ℕ) → ℕ)
    (hord : ∀ s : Finset ℕ, (ord s).Nodup ∧ ∀ x, x ∈ ord s ↔ x ∈ s)
    (pr : Finset ℕ × Finset ℕ) :
    pr ∈ (lindig_data ctx true ord pick).map (fun p => (p.1.toFinset, p.2.toFinset)) ↔
      pr.1 ⊆ Finset.range ctx.n_objects ∧
      clF ctx.intention_i ctx.extension_i pr.1 = pr.1 ∧
      pr.2 = (ctx.intention_i (finsetSortedList pr.1)).toFinset := by
  obtain ⟨hpairs, hnodup, hcompl⟩ := lindigRunTrue_good ctx ord pick hord
  constructor
  · intro hpr
    obtain ⟨p, hp, rfl⟩ := List.mem_map.mp hpr
    obtain ⟨hvsub, hvcl⟩ := lindig_concepts_valid (cboSpecTrue ctx) hpairs p hp
    obtain ⟨h1, h2⟩ := hpairs p hp
    refine ⟨hvsub, hvcl, ?_⟩
    have hc : ctx.intention_i (finsetSortedList p.1.toFinset) = ctx.intention_i p.1 :=
      FormalContext.intention_i_set_congr (fun x => by
        rw [mem_finsetSortedList, List.mem_toFinset])
    show p.2.toFinset = _
    rw [hc, ← h1]
  · rintro ⟨hsub, hcl, hpr2⟩
    obtain ⟨p, hp, hpe⟩ := hcompl pr.1 hsub hcl
    refine List.mem_map.mpr ⟨p, hp, ?_⟩
    obtain ⟨h1, h2⟩ := hpairs p hp
    have hc : ctx.intention_i (finsetSortedList pr.1) = ctx.intention_i p.1 :=
      FormalContext.intention_i_set_congr (fun x => by
        rw [mem_finsetSortedList, ← hpe, List.mem_toFinset])
    refine (Prod.ext hpe.symm ?_).symm
    rw [hpr2, hc, ← h1]

/-- A concept pair of the `False` Lindig run, flipped back to
`(extent, intent)` order, is also exactly a closed extent with its
derived intent. -/
theorem mem_lindig_pairs_false (ctx : FormalContext) (ord : Finset ℕ → List ℕ)
    (pick : List (List ℕ × List ℕ) → ℕ)
    (hord : ∀ s : Finset ℕ, (ord s).Nodup ∧ ∀ x, x ∈ ord s ↔ x ∈ s)
    (pr : Finset ℕ × Finset ℕ) :
    pr ∈ (lindig_data ctx false ord pick).map (fun p => (p.1.toFinset, p.2.toFinset)) ↔
      pr.1 ⊆ Finset.range ctx.n_objects ∧
      clF ctx.intention_i ctx.extension_i pr.1 = pr.1 ∧
      pr.2 = (ctx.intention_i (finsetSortedList pr.1)).toFinset := by
  obtain ⟨hpairs, hnodup, hcompl⟩ := lindigRunFalse_good ctx ord pick hord
  rw [lindig_data_false, List.map_map]
  constructor
  · intro hpr
    obtain ⟨p, hp, rfl⟩ := List.mem_map.mp hpr
    obtain ⟨h1, h2⟩ := hpairs p hp
    refine ⟨?_, ?_, ?_⟩
    · intro x hx
      have hx' : x ∈ p.2 := List.mem_toFinset.mp hx
      rw [h1] at hx'
      exact Finset.mem_range.mpr (FormalContext.mem_extension_i.mp hx').1
    · show clF ctx.intention_i ctx.extension_i p.2.toFinset = p.2.toFinset
      show (ctx.extension_i (ctx.intention_i (finsetSortedList p.2.toFinset))).toFinset = _
      have hc : ctx.intention_i (finsetSortedList p.2.toFinset) =
          ctx.intention_i p.2 :=
        FormalContext.intention_i_set_congr (fun x => by
          rw [mem_finsetSortedList, List.mem_toFinset])
      have hrange : ∀ m ∈ p.1, m < ctx.n_attributes := by
        rw [h2]
        intro m hm
        exact (FormalContext.mem_intention_i.mp hm).1
      rw [hc, h1, FormalContext.extension_intention_extension hrange]
    · show p.1.toFinset = _
      have hc : ctx.intention_i (finsetSortedList p.2.toFinset) =
          ctx.intention_i p.2 :=
        FormalContext.intention_i_set_congr (fun x => by
          rw [mem_finsetSortedList, List.mem_toFinset])
      show p.1.toFinset = (ctx.intention_i (finsetSortedList p.2.toFinset)).toFinset
      rw [hc, ← h2]
  · rintro ⟨hsub, hcl, hpr2⟩
    have hrangeS : ∀ x ∈ finsetSortedList pr.1, x < ctx.n_objects := by
      intro x hx
      exact Finset.mem_range.mp (hsub (mem_finsetSortedList.mp hx))
    have hBsub : (ctx.intention_i (finsetSortedList pr.1)).toFinset ⊆
        Finset.range ctx.n_attributes := by
      intro x hx
      rw [List.mem_toFinset] at hx
      exact Finset.mem_range.mpr (FormalContext.mem_intention_i.mp hx).1
    have hBcl : clF ctx.extension_i ctx.intention_i
        ((ctx.intention_i (finsetSortedList pr.1)).toFinset) =
        (ctx.intention_i (finsetSortedList pr.1)).toFinset := by
      show (ctx.intention_i (ctx.extension_i (finsetSortedList
        ((ctx.intention_i (finsetSortedList pr.1)).toFinset)))).toFinset = _
      have hc2 : ctx.extension_i (finsetSortedList
          ((ctx.intention_i (finsetSortedList pr.1)).toFinset)) =
          ctx.extension_i (ctx.intention_i (finsetSortedList pr.1)) :=
        FormalContext.extension_i_set_congr (fun x => by
          rw [mem_finsetSortedList, List.mem_toFinset])
      rw [hc2, FormalContext.intention_extension_intention hrangeS]
    obtain ⟨p, hp, hpe⟩ := hcompl _ hBsub hBcl
    obtain ⟨h1, h2⟩ := hpairs p hp
    refine List.mem_map.mpr ⟨p, hp, ?_⟩
    have hKeq : ctx.extension_i p.1 =
        ctx.extension_i (ctx.intention_i (finsetSortedList pr.1)) :=
      FormalContext.extension_i_set_congr (fun x => by
        rw [← List.mem_toFinset, hpe, List.mem_toFinset])
    have hs' : (ctx.extension_i (ctx.intention_i (finsetSortedList pr.1))).toFinset =
        pr.1 := hcl
    refine (Prod.ext ?_ ?_).symm
    · have hx : p.2.toFinset = pr.1 := by
        rw [h1, hKeq]
        exact hs'
      exact hx.symm
    · have hx : p.1.toFinset = pr.2 := by
        rw [hpr2, ← hpe]
      exact hx.symm

/-- A `(extent, intent)` pair of the `True` CbO run, as sets, is exactly
a closed extent with its derived intent. -/
theorem mem_cbo_pairs_true (ctx : FormalContext) (pr : Finset ℕ × Finset ℕ) :
    pr ∈ (((close_by_one_data ctx true).1.zip (close_by_one_data ctx true).2).map
        (fun p => (p.1.toFinset, p.2.toFinset))) ↔
      pr.1 ⊆ Finset.range ctx.n_objects ∧
      clF ctx.intention_i ctx.extension_i pr.1 = pr.1 ∧
      pr.2 = (ctx.intention_i (finsetSortedList pr.1)).toFinset := by
  obtain ⟨hgood, hcomp⟩ := cboRecordedTrue_good ctx
  rw [close_by_one_data_true]
  simp only
  rw [List.zip_map']
  constructor
  · intro hpr
    obtain ⟨r, hr, rfl⟩ := List.mem_map.mp hpr
    obtain ⟨p, hp, rfl⟩ := List.mem_map.mp hr
    obtain ⟨h2, h1⟩ := hgood.1 p hp
    have hkeys : p.1 ∈ cboKeys (cboRecordedTrue ctx) :=
      List.mem_map.mpr ⟨p, hp, rfl⟩
    refine ⟨?_, (cboSpecTrue ctx).keys_closed hgood p.1 hkeys, ?_⟩
    · intro x hx
      exact Finset.mem_range.mpr ((cboSpecTrue ctx).keys_valid hgood p.1 hkeys x
        (List.mem_toFinset.mp hx))
    · have hc : ctx.intention_i (finsetSortedList p.1.toFinset) =
          ctx.intention_i p.1 :=
        FormalContext.intention_i_set_congr (fun x => by
          rw [mem_finsetSortedList, List.mem_toFinset])
      show p.2.toFinset = _
      rw [hc, ← h2]
  · rintro ⟨hsub, hcl, hpr2⟩
    obtain ⟨A, hA, hAe⟩ := hcomp pr.1 hsub hcl
    obtain ⟨p, hp, hpA⟩ := List.mem_map.mp hA
    obtain ⟨h2, h1⟩ := hgood.1 p hp
    refine List.mem_map.mpr ⟨(p.1, p.2), List.mem_map.mpr ⟨p, hp, rfl⟩, ?_⟩
    have hpe : p.1.toFinset = pr.1 := by rw [hpA, hAe]
    have hc : ctx.intention_i (finsetSortedList pr.1) = ctx.intention_i p.1 :=
      FormalContext.intention_i_set_congr (fun x => by
        rw [mem_finsetSortedList, ← hpe, List.mem_toFinset])
    refine (Prod.ext hpe.symm ?_).symm
    show pr.2 = p.2.toFinset
    rw [hpr2, hc, ← h2]

/-- A `(extent, intent)` pair of the `False` CbO run, as sets, is also
exactly a closed extent with its derived intent. -/
theorem mem_cbo_pairs_false (ctx : FormalContext) (pr : Finset ℕ × Finset ℕ) :
    pr ∈ (((close_by_one_data ctx false).1.zip (close_by_one_data ctx false).2).map
        (fun p => (p.1.toFinset, p.2.toFinset))) ↔
      pr.1 ⊆ Finset.range ctx.n_objects ∧
      clF ctx.intention_i ctx.extension_i pr.1 = pr.1 ∧
      pr.2 = (ctx.intention_i (finsetSortedList pr.1)).toFinset := by
  obtain ⟨hgood, hcomp⟩ := cboRecordedFalse_good ctx
  rw [close_by_one_data_false]
  simp only
  rw [List.zip_map']
  constructor
  · intro hpr
    obtain ⟨r, hr, rfl⟩ := List.mem_map.mp hpr
    obtain ⟨p, hp, rfl⟩ := List.mem_map.mp hr
    obtain ⟨h2, h1⟩ := hgood.1 p hp
    refine ⟨?_, ?_, ?_⟩
    · intro x hx
      have hx' : x ∈ p.2 := List.mem_toFinset.mp hx
      rw [h2] at hx'
      exact Finset.mem_range.mpr (FormalContext.mem_extension_i.mp hx').1
    · show clF ctx.intention_i ctx.extension_i p.2.toFinset = p.2.toFinset
      show (ctx.extension_i (ctx.intention_i (finsetSortedList p.2.toFinset))).toFinset = _
      have hc : ctx.intention_i (finsetSortedList p.2.toFinset) =
          ctx.intention_i p.2 :=
        FormalContext.intention_i_set_congr (fun x => by
          rw [mem_finsetSortedList, List.mem_toFinset])
      have hrange : ∀ m ∈ p.1, m < ctx.n_attributes := by
        rw [h1]
        intro m hm
        exact (FormalContext.mem_intention_i.mp hm).1
      rw [hc, h2, FormalContext.extension_intention_extension hrange]
    · have hc : ctx.intention_i (finsetSortedList p.2.toFinset) =
          ctx.intention_i p.2 :=
        FormalContext.intention_i_set_congr (fun x => by
          rw [mem_finsetSortedList, List.mem_toFinset])
      show p.1.toFinset = (ctx.intention_i (finsetSortedList p.2.toFinset)).toFinset
      rw [hc, ← h1]
  · rintro ⟨hsub, hcl, hpr2⟩
    have hrangeS : ∀ x ∈ finsetSortedList pr.1, x < ctx.n_objects := by
      intro x hx
      exact Finset.mem_range.mp (hsub (mem_finsetSortedList.mp hx))
    have hBsub : (ctx.intention_i (finsetSortedList pr.1)).toFinset ⊆
        Finset.range ctx.n_attributes := by
      intro x hx
      rw [List.mem_toFinset] at hx
      exact Finset.mem_range.mpr (FormalContext.mem_intention_i.mp hx).1
    have hBcl : clF ctx.extension_i ctx.intention_i
        ((ctx.intention_i (finsetSortedList pr.1)).toFinset) =
        (ctx.intention_i (finsetSortedList pr.1)).toFinset := by
      show (ctx.intention_i (ctx.extension_i (finsetSortedList
        ((ctx.intention_i (finsetSortedList pr.1)).toFinset)))).toFinset = _
      have hc2 : ctx.extension_i (finsetSortedList
          ((ctx.intention_i (finsetSortedList pr.1)).toFinset)) =
          ctx.extension_i (ctx.intention_i (finsetSortedList pr.1)) :=
        FormalContext.extension_i_set_congr (fun x => by
          rw [mem_finsetSortedList, List.mem_toFinset])
      rw [hc2, FormalContext.intention_extension_intention hrangeS]
    obtain ⟨A, hA, hAe⟩ := hcomp _ hBsub hBcl
    obtain ⟨p, hp, hpA⟩ := List.mem_map.mp hA
    obtain ⟨h2, h1⟩ := hgood.1 p hp
    refine List.mem_map.mpr ⟨(p.2, p.1), List.mem_map.mpr ⟨p, hp, rfl⟩, ?_⟩
    have hpe : p.1.toFinset = (ctx.intention_i (finsetSortedList pr.1)).toFinset := by
      rw [hpA, hAe]
    have hKeq : ctx.extension_i p.1 =
        ctx.extension_i (ctx.intention_i (finsetSortedList pr.1)) :=
      FormalContext.extension_i_set_congr (fun x => by
        rw [← List.mem_toFinset, hpe, List.mem_toFinset])
    have hs' : (ctx.extension_i (ctx.intention_i (finsetSortedList pr.1))).toFinset =
        pr.1 := hcl
    refine (Prod.ext ?_ ?_).symm
    · have hx : p.2.toFinset = pr.1 := by
        rw [h2, hKeq]
        exact hs'
      exact hx.symm
    · have hx : p.1.toFinset = pr.2 := by
        rw [hpr2, ← hpe]
      exact hx.symm

/-- Claim C6: on every `FormalContext` and for either direction,
`lindig_algorithm` and a full `close_by_one` enumeration produce the
same set of concepts: the sets of `(extent index set, intent index set)`
pairs coincide (for every admissible Python set iteration order `ord`
and queue pop choice `pick`). -/
theorem claim_C6_lindig_cbo_equal (ctx : FormalContext) (it : Bool)
    (ord : Finset ℕ → List ℕ) (pick : List (List ℕ × List ℕ) → ℕ)
    (hord : ∀ s : Finset ℕ, (ord s).Nodup ∧ ∀ x, x ∈ ord s ↔ x ∈ s) :
    ((lindig_data ctx it ord pick).map
        (fun p => (p.1.toFinset, p.2.toFinset))).toFinset =
      (((close_by_one_data ctx it).1.zip (close_by_one_data ctx it).2).map
        (fun p => (p.1.toFinset, p.2.toFinset))).toFinset := by
  apply Finset.ext
  intro pr
  rw [List.mem_toFinset, List.mem_toFinset]
  cases it
  · rw [mem_lindig_pairs_false ctx ord pick hord, mem_cbo_pairs_false]
  · rw [mem_lindig_pairs_true ctx ord pick hord, mem_cbo_pairs_true]

/-- Witness for C6: concrete run on `ctxW` with the sorted-order
enumeration and first-element pops. -/
theorem claim_C6_lindig_cbo_equal_witness :
    (∀ s : Finset ℕ, (finsetSortedList s).Nodup ∧
      ∀ x, x ∈ finsetSortedList s ↔ x ∈ s) ∧
    ((lindig_data ctxW true finsetSortedList (fun _ => 0)).map
        (fun p => (p.1.toFinset, p.2.toFinset))).toFinset =
      (((close_by_one_data ctxW true).1.zip (close_by_one_data ctxW true).2).map
        (fun p => (p.1.toFinset, p.2.toFinset))).toFinset :=
  ⟨fun s => ⟨finsetSortedList_nodup s, fun _ => mem_finsetSortedList⟩,
   claim_C6_lindig_cbo_equal ctxW true finsetSortedList (fun _ => 0)
     (fun s => ⟨finsetSortedList_nodup s, fun _ => mem_finsetSortedList⟩)⟩

end FCA
